import Mathlib

/-!
Verification of the derivative-based regex engine (`rust-regex-deriv`).

This file gives a shallow embedding, in Lean 4, of the core of the
repository:

* `CharSet` (src/src/char_set.rs): a 256-bit bitmap stored as 8 words of
  32 bits; machine words are modelled as `Nat` with masking where the Rust
  code relies on the `u32` width.
* `ByteSet.range` (src/regex-deriv/src/byte_set.rs): the same bitmap with
  8-bit words (32 of them); only `range`/`is_empty` are needed here.
* `RegEx` (src/src/regex.rs): the operator tree, the derived structural
  total order, the smart constructors, nullability, the Brzozowski
  derivative and full matching.
* the approximate-derivative-class computation and the DFA builder
  (src/src/dfa/mod.rs), Hopcroft minimization
  (src/regex-deriv/src/dfa/hopcroft.rs), the flattened lex table and the
  maximal-munch scanner (src/src/scan.rs).

Rust `u8` values are modelled as `Nat` (all constructed bitmaps answer
`false` to `contains x` for `x ≥ 256`, so the embedding is conservative
over the nominal byte alphabet).
-/

/-! ## CharSet (src/src/char_set.rs)

`type Word = u32`, `NUM_WORDS = 8`, `bitmap: [Word; NUM_WORDS]`.
-/

/-- `u32::MAX`, the all-ones 32-bit word. -/
def wordMask : Nat := 2 ^ 32 - 1

theorem length_foldl_set (idxs : List Nat) (v : Nat) (bm : List Nat) :
    (idxs.foldl (fun b i => b.set i v) bm).length = bm.length := by
  induction idxs generalizing bm with
  | nil => rfl
  | cons i idxs ih => simp [List.foldl_cons, ih]

/-- `CharSet { bitmap: [Word; 8] }`: the array is modelled as a list of
length 8 (machine words as `Nat`).  Rust's derived `PartialEq/Eq` is
bitmap equality. -/
structure CharSet where
  bitmap : List Nat
  len8 : bitmap.length = 8

instance : DecidableEq CharSet := fun a b =>
  decidable_of_iff (a.bitmap = b.bitmap) (by cases a; cases b; simp)

namespace CharSet

/-- `fn encode(value: u8) -> (usize, Word)`: the word index part `x / 32`. -/
def encodeIndex (x : Nat) : Nat := x / 32

/-- `fn encode(value: u8) -> (usize, Word)`: the bit part `1 << (x % 32)`. -/
def encodeWord (x : Nat) : Nat := 2 ^ (x % 32)

/-- `CharSet::empty()`. -/
def empty : CharSet := ⟨List.replicate 8 0, by simp⟩

/-- `CharSet::universe()` (named `univ` because `universe` is a Lean keyword). -/
def univ : CharSet := ⟨List.replicate 8 wordMask, by simp⟩

/-- `CharSet::point(value)`. -/
def point (value : Nat) : CharSet :=
  ⟨empty.bitmap.set (encodeIndex value) (encodeWord value), by simp [empty]⟩

/-- The bitmap built by `CharSet::range(from, to)`: `first_word = !(a-1)`,
`last_word = b|(b-1)`, filled exactly as the Rust branches do (the middle
loop `for i in from_index+1..to_index` is the `List.range'` fold). -/
def rangeBitmap (lo hi : Nat) : List Nat :=
  let fi := encodeIndex lo
  let a  := encodeWord lo
  let ti := encodeIndex hi
  let b  := encodeWord hi
  let firstWord := wordMask ^^^ (a - 1)
  let lastWord  := b ||| (b - 1)
  if fi = ti then
    empty.bitmap.set fi (firstWord &&& lastWord)
  else
    let bm := empty.bitmap.set fi firstWord
    let bm := (List.range' (fi + 1) (ti - (fi + 1))).foldl
      (fun bm i => bm.set i wordMask) bm
    bm.set ti lastWord

theorem rangeBitmap_length (lo hi : Nat) : (rangeBitmap lo hi).length = 8 := by
  unfold rangeBitmap
  simp only []
  split <;> simp [length_foldl_set, empty]

/-- `CharSet::range(from, to)`. -/
def range (lo hi : Nat) : CharSet := ⟨rangeBitmap lo hi, rangeBitmap_length lo hi⟩

/-- `CharSet::is_empty()`. -/
def is_empty (s : CharSet) : Bool := s.bitmap.all (· == 0)

/-- `CharSet::is_universe()`. -/
def is_universe (s : CharSet) : Bool := s.bitmap.all (· == wordMask)

/-- `CharSet::contains(x)`: `bitmap[index] & word != 0`.  Out-of-range
indices read as `0` (unreachable in Rust where `x : u8`). -/
def contains (s : CharSet) (x : Nat) : Bool :=
  s.bitmap.getD (encodeIndex x) 0 &&& encodeWord x != 0

/-- `CharSet::complement()`: word-wise `!w`, i.e. `w ^^^ u32::MAX`
(the Rust loop writes all 8 words of a fresh bitmap). -/
def complement (s : CharSet) : CharSet :=
  ⟨(List.range 8).map (fun i => wordMask ^^^ s.bitmap.getD i 0), by simp⟩

/-- `CharSet::intersection(other)`: word-wise `&`. -/
def intersection (s t : CharSet) : CharSet :=
  ⟨(List.range 8).map (fun i => s.bitmap.getD i 0 &&& t.bitmap.getD i 0), by simp⟩

/-- `CharSet::union(other)`: word-wise `|`. -/
def union (s t : CharSet) : CharSet :=
  ⟨(List.range 8).map (fun i => s.bitmap.getD i 0 ||| t.bitmap.getD i 0), by simp⟩

/-- `u32::trailing_zeros`, by peeling the low bit (32 rounds; returns 32 on
the zero word, as the intrinsic does). -/
def ctzAux : Nat → Nat → Nat
  | 0, _ => 0
  | fuel + 1, w => if w % 2 = 1 then 0 else 1 + ctzAux fuel (w / 2)

/-- `u32::trailing_zeros`. -/
def ctz (w : Nat) : Nat := ctzAux 32 w

/-- `fn decode(index, word) = Word::BITS * index + word.trailing_zeros()`. -/
def decode (index word : Nat) : Nat := 32 * index + ctz word

/-- `CharSet::min()`: decode the first non-zero word (`first_word`). -/
def min? (s : CharSet) : Option Nat :=
  (s.bitmap.findIdx? (· ≠ 0)).map (fun i => decode i (s.bitmap.getD i 0))

/-- One word of the `Chars` iterator: repeatedly emit `decode index word`
and clear the lowest set bit (`word &= word - 1`), 32 rounds of fuel. -/
def wordChars : Nat → Nat → Nat → List Nat
  | 0, _, _ => []
  | fuel + 1, i, w =>
    if w = 0 then [] else decode i w :: wordChars fuel i (w &&& (w - 1))

/-- `CharSet::chars()`: the ascending sequence of members produced by the
`Chars` iterator, word by word. -/
def chars (s : CharSet) : List Nat :=
  (List.range 8).flatMap (fun i => wordChars 32 i (s.bitmap.getD i 0))

end CharSet

/-! ### ByteSet (src/regex-deriv/src/byte_set.rs)

The same bitmap structure with 8-bit words: `bitmap: [u8; 32]`,
`encode(value) = (x / 8, 1 << (x % 8))`.  Only the operations that claims
mention are embedded. -/

/-- `u8::MAX`. -/
def byteWordMask : Nat := 2 ^ 8 - 1

/-- `ByteSet { bitmap: [u8; 32] }`. -/
structure ByteSet where
  bitmap : List Nat
  len32 : bitmap.length = 32

instance : DecidableEq ByteSet := fun a b =>
  decidable_of_iff (a.bitmap = b.bitmap) (by cases a; cases b; simp)

namespace ByteSet

/-- `ByteSet::empty()`. -/
def empty : ByteSet := ⟨List.replicate 32 0, by simp⟩

/-- The bitmap built by `ByteSet::range(from, to)` (word size 8):
`first_word = !(a-1)`, `last_word = b|(b-1)` with `a = 1 << (from % 8)`,
`b = 1 << (to % 8)`; the middle `while i < to_index` loop is the
`List.range'` fold. -/
def rangeBitmap (lo hi : Nat) : List Nat :=
  let fi := lo / 8
  let a  := 2 ^ (lo % 8)
  let ti := hi / 8
  let b  := 2 ^ (hi % 8)
  let firstWord := byteWordMask ^^^ (a - 1)
  let lastWord  := b ||| (b - 1)
  if fi = ti then
    empty.bitmap.set fi (firstWord &&& lastWord)
  else
    let bm := empty.bitmap.set fi firstWord
    let bm := (List.range' (fi + 1) (ti - (fi + 1))).foldl
      (fun bm i => bm.set i byteWordMask) bm
    bm.set ti lastWord

theorem rangeBitmap_length32 (lo hi : Nat) : (rangeBitmap lo hi).length = 32 := by
  unfold rangeBitmap
  simp only []
  split <;> simp [length_foldl_set, empty]

/-- `ByteSet::range(from, to)`. -/
def range (lo hi : Nat) : ByteSet := ⟨rangeBitmap lo hi, rangeBitmap_length32 lo hi⟩

/-- `ByteSet::is_empty()`. -/
def is_empty (s : ByteSet) : Bool := s.bitmap.all (· == 0)

/-- `ByteSet::contains(value)`. -/
def contains (s : ByteSet) (x : Nat) : Bool :=
  s.bitmap.getD (x / 8) 0 &&& 2 ^ (x % 8) != 0

end ByteSet

/-! ## RegEx (src/src/regex.rs)

`RegEx` wraps `Rc<Operator>`; reference counting is immaterial to the
semantics, so the embedding is the plain operator tree.  The constructor
names and order follow `enum Operator`. -/

inductive RegEx where
  | None
  | Epsilon
  | Set (s : CharSet)
  | Cat (children : List RegEx)
  | Star (child : RegEx)
  | Or (children : List RegEx)
  | And (children : List RegEx)
  | Not (child : RegEx)


mutual
/-- Structural equality test (Rust's derived `PartialEq`). -/
def RegEx.beq : RegEx → RegEx → Bool
  | .None, .None => true
  | .Epsilon, .Epsilon => true
  | .Set s, .Set t => s == t
  | .Cat a, .Cat b => RegEx.beqList a b
  | .Star a, .Star b => RegEx.beq a b
  | .Or a, .Or b => RegEx.beqList a b
  | .And a, .And b => RegEx.beqList a b
  | .Not a, .Not b => RegEx.beq a b
  | _, _ => false
/-- Structural equality on child vectors. -/
def RegEx.beqList : List RegEx → List RegEx → Bool
  | [], [] => true
  | x :: xs, y :: ys => RegEx.beq x y && RegEx.beqList xs ys
  | _, _ => false
end

mutual
theorem RegEx.beq_iff : ∀ a b : RegEx, RegEx.beq a b = true ↔ a = b
  | .None, b => by cases b <;> simp [RegEx.beq]
  | .Epsilon, b => by cases b <;> simp [RegEx.beq]
  | .Set s, b => by cases b <;> simp [RegEx.beq]
  | .Cat a, b => by
      cases b <;> simp [RegEx.beq]
      exact RegEx.beqList_iff a _
  | .Star a, b => by
      cases b <;> simp [RegEx.beq]
      exact RegEx.beq_iff a _
  | .Or a, b => by
      cases b <;> simp [RegEx.beq]
      exact RegEx.beqList_iff a _
  | .And a, b => by
      cases b <;> simp [RegEx.beq]
      exact RegEx.beqList_iff a _
  | .Not a, b => by
      cases b <;> simp [RegEx.beq]
      exact RegEx.beq_iff a _
theorem RegEx.beqList_iff : ∀ a b : List RegEx, RegEx.beqList a b = true ↔ a = b
  | [], b => by cases b <;> simp [RegEx.beqList]
  | x :: xs, b => by
      cases b with
      | nil => simp [RegEx.beqList]
      | cons y ys => simp [RegEx.beqList, RegEx.beq_iff x y, RegEx.beqList_iff xs ys]
end

instance : DecidableEq RegEx := fun a b => decidable_of_iff _ (RegEx.beq_iff a b)

namespace RegEx

/-- Discriminant order of `enum Operator` (Rust's derived `Ord` compares
discriminants first). -/
def tag : RegEx → Nat
  | .None => 0
  | .Epsilon => 1
  | .Set _ => 2
  | .Cat _ => 3
  | .Star _ => 4
  | .Or _ => 5
  | .And _ => 6
  | .Not _ => 7

/-- `Ord` on machine integers. -/
def ncmp (a b : Nat) : Ordering :=
  if a < b then .lt else if a = b then .eq else .gt

/-- Derived `Ord` on `[u32; 8]` bitmaps: lexicographic, element-wise. -/
def cmpWords : List Nat → List Nat → Ordering
  | [], [] => .eq
  | [], _ :: _ => .lt
  | _ :: _, [] => .gt
  | a :: as, b :: bs =>
    match ncmp a b with
    | .eq => cmpWords as bs
    | o => o

mutual
/-- Rust's derived `Ord` on `RegEx`/`Operator`: discriminant first, then the
fields lexicographically. -/
def cmp : RegEx → RegEx → Ordering
  | .Set s, .Set t => cmpWords s.bitmap t.bitmap
  | .Cat a, .Cat b => cmpList a b
  | .Star a, .Star b => cmp a b
  | .Or a, .Or b => cmpList a b
  | .And a, .And b => cmpList a b
  | .Not a, .Not b => cmp a b
  | x, y => ncmp (tag x) (tag y)
/-- Derived `Ord` on `Vec<RegEx>`: lexicographic, shorter prefix first. -/
def cmpList : List RegEx → List RegEx → Ordering
  | [], [] => .eq
  | [], _ :: _ => .lt
  | _ :: _, [] => .gt
  | x :: xs, y :: ys =>
    match cmp x y with
    | .eq => cmpList xs ys
    | o => o
end

/-- Rust `<=` on `RegEx` (the comparison `itertools::merge` consults). -/
def le (x y : RegEx) : Bool := cmp x y != Ordering.gt

mutual
/-- `RegEx::is_nullable`. -/
def is_nullable : RegEx → Bool
  | .None => false
  | .Epsilon => true
  | .Set _ => false
  | .Cat res => allNullable res
  | .Star _ => true
  | .Or res => anyNullable res
  | .And res => allNullable res
  | .Not re => !is_nullable re
/-- `res.iter().all(RegEx::is_nullable)`. -/
def allNullable : List RegEx → Bool
  | [] => true
  | r :: rs => is_nullable r && allNullable rs
/-- `res.iter().any(RegEx::is_nullable)`. -/
def anyNullable : List RegEx → Bool
  | [] => false
  | r :: rs => is_nullable r || anyNullable rs
end

/-- `RegEx::set(a)`: the only smart constructor on sets. -/
def set (a : CharSet) : RegEx :=
  if a.is_empty then .None else .Set a

/-- `RegEx::none()`. -/
def none : RegEx := .None

/-- `RegEx::empty()`. -/
def empty : RegEx := .Epsilon

/-- `RegEx::then(other)` (named with guillemets: `then` is a Lean keyword).
The match arms are in source order; `cat_aux` is inlined. -/
def «then» (self other : RegEx) : RegEx :=
  match self, other with
  | _, .Epsilon => self
  | .Epsilon, _ => other
  | _, .None => .None
  | .None, _ => .None
  | .Cat a, .Cat b => .Cat (a ++ b)
  | _, .Cat b => .Cat (self :: b)
  | .Cat a, _ => .Cat (a ++ [other])
  | _, _ => .Cat [self, other]

/-- `RegEx::star()`. -/
def star (self : RegEx) : RegEx :=
  match self with
  | .None | .Epsilon => .Epsilon
  | .Star _ => self
  | _ => .Star self

/-- The loop body of `merged_sets`: accumulate `Set` children with `reduce`,
keep the rest in order (`new_res.push`). -/
def mergedSetsGo (reduce : CharSet → CharSet → CharSet) :
    List RegEx → Option CharSet → List RegEx → Option CharSet × List RegEx
  | [], acc, out => (acc, out)
  | re :: rest, acc, out =>
    match re with
    | .Set a =>
      mergedSetsGo reduce rest
        (some (match acc with | some s => reduce s a | Option.none => a)) out
    | _ => mergedSetsGo reduce rest acc (out ++ [re])

/-- `fn merged_sets(res, reduce)`: fold all `Set` children into one with
`reduce` and merge the result back into the sorted remainder.  Note that the
re-inserted node is built with the raw `Operator::Set` constructor. -/
def merged_sets (res : List RegEx) (reduce : CharSet → CharSet → CharSet) : List RegEx :=
  match mergedSetsGo reduce res Option.none [] with
  | (some s, out) => List.merge out [RegEx.Set s] RegEx.le
  | (Option.none, out) => out

/-- `or_aux` from `RegEx::or`. -/
def or_aux (res1 res2 : List RegEx) : RegEx :=
  let refs := merged_sets (List.merge res1 res2 RegEx.le) CharSet.union
  if refs.isEmpty then .None
  else if refs.length = 1 then refs.headD .None
  else .Or refs

/-- `RegEx::or(other)`, match arms in source order. -/
def or (self other : RegEx) : RegEx :=
  match self, other with
  | _, .None => self
  | .None, _ => other
  | .Set x, .Set y => set (x.union y)
  | .Or a, .Or b => or_aux a b
  | .Or a, _ => or_aux a [other]
  | _, .Or b => or_aux [self] b
  | _, _ => or_aux [self] [other]

/-- `and_aux` from `RegEx::and`. -/
def and_aux (res1 res2 : List RegEx) : RegEx :=
  let refs := merged_sets (List.merge res1 res2 RegEx.le) CharSet.intersection
  if refs.isEmpty then .None
  else if refs.length = 1 then refs.headD .None
  else .And refs

/-- `RegEx::and(other)`, match arms in source order (the `Epsilon` arms
consult nullability of the other operand). -/
def and (self other : RegEx) : RegEx :=
  match self, other with
  | _, .None => .None
  | .None, _ => .None
  | _, .Epsilon => if self.is_nullable then .Epsilon else .None
  | .Epsilon, _ => if other.is_nullable then .Epsilon else .None
  | .Set x, .Set y => set (x.intersection y)
  | .And a, .And b => and_aux a b
  | .And a, _ => and_aux a [other]
  | _, .And b => and_aux [self] b
  | _, _ => and_aux [self] [other]

/-- `RegEx::not()`. -/
def not (self : RegEx) : RegEx :=
  match self with
  | .None => set CharSet.univ
  | .Set s => set s.complement
  | .Not a => a
  | _ => .Not self

/-- `RegEx::opt()`. -/
def opt (self : RegEx) : RegEx := self.or RegEx.empty

/-- `RegEx::plus()`. -/
def plus (self : RegEx) : RegEx := self.«then» self.star

/-- `RegEx::diff(other)`. -/
def diff (self other : RegEx) : RegEx := self.and other.not

/-- The tail expression used by `deriv_cat`: `children[1..]` as a node
(`s` when `children[1..]` is a singleton, `Cat(children[1..])` otherwise). -/
def catTail (s : RegEx) (rest : List RegEx) : RegEx :=
  match rest with
  | [] => s
  | _ => .Cat (s :: rest)

/-- The tail expression used by `deriv_or`: `Or(children[1..])`. -/
def orTail (s : RegEx) (rest : List RegEx) : RegEx :=
  match rest with
  | [] => s
  | _ => .Or (s :: rest)

/-- The tail expression used by `deriv_and`: `And(children[1..])`. -/
def andTail (s : RegEx) (rest : List RegEx) : RegEx :=
  match rest with
  | [] => s
  | _ => .And (s :: rest)

theorem sizeOf_catTail (s : RegEx) (rest : List RegEx) :
    sizeOf (catTail s rest) ≤ 2 + sizeOf s + sizeOf rest := by
  cases rest <;> simp [catTail] <;> omega

theorem sizeOf_orTail (s : RegEx) (rest : List RegEx) :
    sizeOf (orTail s rest) ≤ 2 + sizeOf s + sizeOf rest := by
  cases rest <;> simp [orTail] <;> omega

theorem sizeOf_andTail (s : RegEx) (rest : List RegEx) :
    sizeOf (andTail s rest) ≤ 2 + sizeOf s + sizeOf rest := by
  cases rest <;> simp [andTail] <;> omega

/-- `RegEx::deriv(a)`.  The `unreachable!()` arms (a `Cat`/`Or`/`And` node
with fewer than two children, impossible for canonical trees) are modelled
as `None`.  The `aux` helper of `deriv_cat` is inlined. -/
def deriv (re : RegEx) (a : Nat) : RegEx :=
  match re with
  | .None | .Epsilon => .None
  | .Set s => if s.contains a then .Epsilon else .None
  | .Cat [] => .None
  | .Cat [_] => .None
  | .Cat (r :: s :: rest) =>
    ((deriv r a).«then» (catTail s rest)).or
      (if r.is_nullable then deriv (catTail s rest) a else .None)
  | .Star r => (deriv r a).«then» (.Star r)
  | .Or [] => .None
  | .Or [_] => .None
  | .Or (r :: s :: rest) => (deriv r a).or (deriv (orTail s rest) a)
  | .And [] => .None
  | .And [_] => .None
  | .And (r :: s :: rest) => (deriv r a).and (deriv (andTail s rest) a)
  | .Not r => (deriv r a).not
termination_by sizeOf re
decreasing_by
  all_goals simp_wf
  all_goals first
    | omega
    | (have h := sizeOf_catTail s rest; omega)
    | (have h := sizeOf_orTail s rest; omega)
    | (have h := sizeOf_andTail s rest; omega)

/-- `RegEx::is_fullmatch(text)`: repeated derivation with a short-circuit
on an intermediate `None`. -/
def is_fullmatch (re : RegEx) (text : List Nat) : Bool :=
  match text with
  | [] => re.is_nullable
  | b :: rest =>
    match re.deriv b with
    | .None => false
    | d => d.is_fullmatch rest

end RegEx

/- `List.merge` and `RegEx.deriv` are compiled by well-founded recursion;
make them reducible so that concrete instances evaluate. -/
unseal List.merge RegEx.deriv

example : RegEx.empty.or RegEx.empty = RegEx.Or [RegEx.Epsilon, RegEx.Epsilon] := by
  decide

/-! ## Canonical form (§3 of the specification; doc comments on `Operator`) -/

namespace RegEx

/-- Shape tests used by the invariant checks. -/
def isNoneNode : RegEx → Bool
  | .None => true
  | _ => false

def isEpsilonNode : RegEx → Bool
  | .Epsilon => true
  | _ => false

def isSetNode : RegEx → Bool
  | .Set _ => true
  | _ => false

def isCatNode : RegEx → Bool
  | .Cat _ => true
  | _ => false

def isStarNode : RegEx → Bool
  | .Star _ => true
  | _ => false

def isOrNode : RegEx → Bool
  | .Or _ => true
  | _ => false

def isAndNode : RegEx → Bool
  | .And _ => true
  | _ => false

def isNotNode : RegEx → Bool
  | .Not _ => true
  | _ => false

/-- Children of an `Or`/`And` node are sorted by the derived total order
(adjacent pairs related by `le`; with `le` total and transitive this is
full sortedness). -/
def sortedChildren : List RegEx → Bool
  | [] => true
  | [_] => true
  | x :: y :: rest => le x y && sortedChildren (y :: rest)

/-- Number of `Set` children. -/
def countSets (l : List RegEx) : Nat := (l.filter isSetNode).length

mutual
/-- The canonical-form invariants of §3 (also stated as doc comments on
`enum Operator` in src/src/regex.rs): `Set` holds a non-empty set; `Cat`
has ≥ 2 children, none of which is `None`/`Epsilon`/`Cat`; `Star`'s child
is not `None`/`Epsilon`/`Star`; `Or` has ≥ 2 children, none `None` or
`Or`, at most one a `Set`, sorted; `And` has ≥ 2 children, none
`None`/`Epsilon`/`And`, at most one a `Set`, sorted; `Not`'s child is not
`None`/`Set`/`Not`; recursively for all children. -/
def isCanonical : RegEx → Bool
  | .None => true
  | .Epsilon => true
  | .Set s => !s.is_empty
  | .Cat rs =>
    decide (rs.length ≥ 2) &&
    rs.all (fun r => !isNoneNode r && !isEpsilonNode r && !isCatNode r) &&
    allCanonical rs
  | .Star r =>
    !isNoneNode r && !isEpsilonNode r && !isStarNode r && isCanonical r
  | .Or rs =>
    decide (rs.length ≥ 2) &&
    rs.all (fun r => !isNoneNode r && !isOrNode r) &&
    decide (countSets rs ≤ 1) && sortedChildren rs &&
    allCanonical rs
  | .And rs =>
    decide (rs.length ≥ 2) &&
    rs.all (fun r => !isNoneNode r && !isEpsilonNode r && !isAndNode r) &&
    decide (countSets rs ≤ 1) && sortedChildren rs &&
    allCanonical rs
  | .Not r =>
    !isNoneNode r && !isSetNode r && !isNotNode r && isCanonical r
/-- All members of a child vector are canonical. -/
def allCanonical : List RegEx → Bool
  | [] => true
  | r :: rs => isCanonical r && allCanonical rs
end

end RegEx

/-! ## Claim C2: do the smart constructors preserve the invariants?

`RegEx::and` does not: when the two sides together contribute two `Set`
children, `merged_sets` folds them with `CharSet::intersection_assign` and
re-inserts the accumulated set with the raw `Operator::Set` constructor,
even when the intersection is empty.  The result has an empty `Set` child,
violating the documented invariant `Set is not empty`. -/

/-- A canonical left operand: `And [Set {1}, Star (Set {5})]`. -/
def c2Left : RegEx :=
  RegEx.And [RegEx.Set (CharSet.point 1), RegEx.Star (RegEx.Set (CharSet.point 5))]

/-- A canonical right operand: `Set {2}`. -/
def c2Right : RegEx := RegEx.Set (CharSet.point 2)

/-- C2: the claim that every smart constructor maps canonical arguments to
canonical results is falsified by `RegEx::and`: on the canonical arguments
`And [Set {1}, Star (Set {5})]` and `Set {2}` it returns
`And [Set ∅, Star (Set {5})]`, whose first child is an *empty* `Set` —
violating the `Set is not empty` invariant documented on `Operator::Set`.
This theorem evaluates the code at that failing input. -/
theorem claim_C2_and_produces_empty_set_child :
    RegEx.isCanonical c2Left = true ∧
    RegEx.isCanonical c2Right = true ∧
    c2Left.and c2Right =
      RegEx.And [RegEx.Set CharSet.empty, RegEx.Star (RegEx.Set (CharSet.point 5))] ∧
    RegEx.isCanonical (c2Left.and c2Right) = false := by
  refine ⟨by decide, by decide, by decide, by decide⟩

/-! ## Claim C6: idempotence of `or` and `and` -/

/-- C6, counterexample: `Epsilon` is canonical, yet
`Epsilon.or(Epsilon) = Or [Epsilon, Epsilon] ≠ Epsilon`: the child list
produced by `or` contains two structurally equal adjacent children, because
neither `or_aux` nor `merged_sets` deduplicates. -/
theorem claim_C6_counterexample :
    RegEx.isCanonical RegEx.empty = true ∧
    RegEx.empty.or RegEx.empty = RegEx.Or [RegEx.Epsilon, RegEx.Epsilon] ∧
    RegEx.empty.or RegEx.empty ≠ RegEx.empty := by
  refine ⟨by decide, by decide, by decide⟩

namespace RegEx

theorem ncmp_refl (a : Nat) : ncmp a a = .eq := by simp [ncmp]

theorem cmpWords_refl (l : List Nat) : cmpWords l l = .eq := by
  induction l with
  | nil => rfl
  | cons a as ih => simp [cmpWords, ncmp_refl, ih]

mutual
theorem cmp_refl : ∀ r : RegEx, cmp r r = .eq
  | .None => by simp [cmp, ncmp_refl]
  | .Epsilon => by simp [cmp, ncmp_refl]
  | .Set s => by simp [cmp, cmpWords_refl]
  | .Cat rs => by simp [cmp, cmpList_refl rs]
  | .Star r => by simp [cmp, cmp_refl r]
  | .Or rs => by simp [cmp, cmpList_refl rs]
  | .And rs => by simp [cmp, cmpList_refl rs]
  | .Not r => by simp [cmp, cmp_refl r]
theorem cmpList_refl : ∀ l : List RegEx, cmpList l l = .eq
  | [] => by simp [cmpList]
  | r :: rs => by simp [cmpList, cmp_refl r, cmpList_refl rs]
end

theorem le_refl (r : RegEx) : le r r = true := by simp [le, cmp_refl]; rfl

theorem merge_pair_self (r : RegEx) : List.merge [r] [r] le = [r, r] := by
  simp [List.merge, le_refl]

/-- `r.or(&r)` for an operand that is not `None`, not a `Set` and not an
`Or`: both duplicates survive. -/
theorem or_self_pair (r : RegEx)
    (h1 : isNoneNode r = false) (h2 : isSetNode r = false)
    (h3 : isOrNode r = false) :
    r.or r = .Or [r, r] := by
  have haux : or_aux [r] [r] = .Or [r, r] := by
    cases r <;>
      simp_all [or_aux, merged_sets, mergedSetsGo, merge_pair_self, isSetNode]
  cases r <;> simp_all [or, isNoneNode, isSetNode, isOrNode]

/-- `r.and(&r)` for an operand that is not `None`, not `Epsilon`, not a
`Set` and not an `And`: both duplicates survive. -/
theorem and_self_pair (r : RegEx)
    (h1 : isNoneNode r = false) (h2 : isEpsilonNode r = false)
    (h3 : isSetNode r = false) (h4 : isAndNode r = false) :
    r.and r = .And [r, r] := by
  have haux : and_aux [r] [r] = .And [r, r] := by
    cases r <;>
      simp_all [and_aux, merged_sets, mergedSetsGo, merge_pair_self, isSetNode]
  cases r <;> simp_all [and, isNoneNode, isEpsilonNode, isSetNode, isAndNode]

end RegEx

theorem CharSet.eq_of_bitmap {a b : CharSet} (h : a.bitmap = b.bitmap) : a = b := by
  cases a; cases b; simpa using h

theorem CharSet.union_self (s : CharSet) : s.union s = s := by
  apply CharSet.eq_of_bitmap
  apply List.ext_getElem
  · simp [CharSet.union, s.len8]
  · intro i h1 h2
    have h8 : i < 8 := by simpa [CharSet.union] using h1
    simp [CharSet.union, List.getD_eq_getElem?_getD, List.getElem?_eq_getElem h2]

theorem CharSet.intersection_self (s : CharSet) : s.intersection s = s := by
  apply CharSet.eq_of_bitmap
  apply List.ext_getElem
  · simp [CharSet.intersection, s.len8]
  · intro i h1 h2
    have h8 : i < 8 := by simpa [CharSet.intersection] using h1
    simp [CharSet.intersection, List.getD_eq_getElem?_getD, List.getElem?_eq_getElem h2]

/-- C6 (amended): `or` and `and` are idempotent on `None` and `Set`
operands (`and` also on `Epsilon`), but on every other canonical operand
the child list keeps both structurally equal copies —
`r.or(&r) = Or([r, r])` and `r.and(&r) = And([r, r])` — because neither
`or_aux` nor `and_aux` deduplicates after merging. -/
theorem claim_C6_no_dedup (s : CharSet) (r : RegEx)
    (hcan : RegEx.isCanonical r = true)
    (h1 : RegEx.isNoneNode r = false) (h2 : RegEx.isSetNode r = false)
    (h3 : RegEx.isOrNode r = false) (h4 : RegEx.isAndNode r = false)
    (h5 : RegEx.isEpsilonNode r = false) :
    RegEx.none.or RegEx.none = RegEx.none ∧
    RegEx.none.and RegEx.none = RegEx.none ∧
    (RegEx.set s).or (RegEx.set s) = RegEx.set s ∧
    (RegEx.set s).and (RegEx.set s) = RegEx.set s ∧
    RegEx.empty.and RegEx.empty = RegEx.empty ∧
    r.or r = .Or [r, r] ∧
    r.and r = .And [r, r] := by
  refine ⟨rfl, rfl, ?_, ?_, rfl, RegEx.or_self_pair r h1 h2 h3,
    RegEx.and_self_pair r h1 h5 h2 h4⟩
  · by_cases he : s.is_empty
    · simp [RegEx.set, he, RegEx.or]
    · simp [RegEx.set, he, RegEx.or, CharSet.union_self]
  · by_cases he : s.is_empty
    · simp [RegEx.set, he, RegEx.and]
    · simp [RegEx.set, he, RegEx.and, CharSet.intersection_self]

/-- C6, witness: the amended statement applied at `s = {3}` and
`r = Star (Set {3})`. -/
theorem claim_C6_no_dedup_witness :
    ((RegEx.Set (CharSet.point 3)).star).or ((RegEx.Set (CharSet.point 3)).star)
      = RegEx.Or [(RegEx.Set (CharSet.point 3)).star, (RegEx.Set (CharSet.point 3)).star] :=
  (claim_C6_no_dedup (CharSet.point 3) ((RegEx.Set (CharSet.point 3)).star)
    (by decide) (by decide) (by decide) (by decide) (by decide) (by decide)).2.2.2.2.2.1

/-! ## Claim C7: `and(r, universe*)` -/

/-- C7 (amended): intersection with `universe*` is a structural identity
only for `None` and `Epsilon`; `RegEx::and` has no arm recognizing the
universal language (see the counterexample for `Set`). -/
theorem claim_C7_and_universe_star (r : RegEx)
    (h : r = RegEx.None ∨ r = RegEx.Epsilon) :
    r.and ((RegEx.set CharSet.univ).star) = r := by
  rcases h with h | h <;> subst h <;> rfl

/-- C7, witness for the amended claim at `r = Epsilon`. -/
theorem claim_C7_and_universe_star_witness :
    RegEx.Epsilon.and ((RegEx.set CharSet.univ).star) = RegEx.Epsilon :=
  claim_C7_and_universe_star RegEx.Epsilon (Or.inr rfl)

/-- C7, counterexample: for the canonical `r = Set {0}`,
`r.and(universe*)` is `And [Set {0}, Star (Set universe)]`, not `r`. -/
theorem claim_C7_counterexample :
    RegEx.isCanonical (RegEx.set (CharSet.point 0)) = true ∧
    (RegEx.set (CharSet.point 0)).and ((RegEx.set CharSet.univ).star)
      = RegEx.And [RegEx.Set (CharSet.point 0), RegEx.Star (RegEx.Set CharSet.univ)] ∧
    (RegEx.set (CharSet.point 0)).and ((RegEx.set CharSet.univ).star)
      ≠ RegEx.set (CharSet.point 0) := by
  refine ⟨by decide, by decide, by decide⟩

/-! ## Claim C8: `ByteSet::range(a, b)` with `a > b` -/

theorem ByteSet.is_empty_iff (s : ByteSet) :
    s.is_empty = true ↔ ∀ w ∈ s.bitmap, w = 0 := by
  simp [ByteSet.is_empty, List.all_eq_true]

/-- With `a > b` in the same bitmap word, `first_word & last_word = 0` and
the result is the empty set. -/
theorem ByteSet.range_same_word (a b : Nat) (ha : a < 256) (hb : b < 256)
    (hlt : b < a) (heq : a / 8 = b / 8) : (ByteSet.range a b).is_empty = true := by
  have hj : b % 8 < a % 8 := by omega
  have hi8 : a % 8 < 8 := Nat.mod_lt _ (by omega)
  have hword : (byteWordMask ^^^ (2 ^ (a % 8) - 1)) &&& (2 ^ (b % 8) ||| (2 ^ (b % 8) - 1)) = 0 := by
    have : ∀ i < 8, ∀ j < 8, j < i →
        ((byteWordMask ^^^ (2 ^ i - 1)) &&& (2 ^ j ||| (2 ^ j - 1))) = 0 := by decide
    exact this _ hi8 _ (by omega) hj
  rw [ByteSet.is_empty_iff]
  intro w hw
  unfold ByteSet.range ByteSet.rangeBitmap at hw
  simp only [if_pos heq, hword] at hw
  rcases List.mem_or_eq_of_mem_set hw with h | h
  · simpa [ByteSet.empty] using List.eq_of_mem_replicate h
  · exact h

/-- With `a > b` in different bitmap words, the word at `a`'s index is
`first_word ≠ 0` (the middle fill loop is empty because `to_index <
from_index`), so the result is *not* empty. -/
theorem ByteSet.range_cross_word (a b : Nat) (ha : a < 256) (hb : b < 256)
    (hlt : b < a) (hne : a / 8 ≠ b / 8) : (ByteSet.range a b).is_empty = false := by
  have hdiv : b / 8 < a / 8 := by
    rcases Nat.lt_or_ge (b / 8) (a / 8) with h | h
    · exact h
    · exact absurd (Nat.le_antisymm (Nat.div_le_div_right (Nat.le_of_lt hlt)) h).symm hne
  have hfi : a / 8 < 32 := by omega
  have hfw : (byteWordMask ^^^ (2 ^ (a % 8) - 1)) ≠ 0 := by
    have : ∀ i < 8, (byteWordMask ^^^ (2 ^ i - 1)) ≠ 0 := by decide
    exact this _ (Nat.mod_lt _ (by omega))
  have hmid : a / 8 - (b / 8 + 1) = 0 → True := fun _ => trivial
  rw [show (ByteSet.range a b).is_empty = false ↔
      ¬ ((ByteSet.range a b).is_empty = true) by simp]
  rw [ByteSet.is_empty_iff]
  intro hall
  -- the bitmap holds first_word at index a/8
  have hgot : (ByteSet.range a b).bitmap.getD (a / 8) 0
      = byteWordMask ^^^ (2 ^ (a % 8) - 1) := by
    unfold ByteSet.range ByteSet.rangeBitmap
    simp only [if_neg hne]
    have hrange : List.range' (a / 8 + 1) (b / 8 - (a / 8 + 1)) = [] := by
      have : b / 8 - (a / 8 + 1) = 0 := by omega
      simp [this]
    rw [hrange]
    simp only [List.foldl_nil]
    rw [List.getD_eq_getElem _ _ (by simp [ByteSet.empty]; omega)]
    rw [List.getElem_set_ne (by omega)]
    rw [List.getElem_set_self]
  have hmem : (ByteSet.range a b).bitmap.getD (a / 8) 0 ∈ (ByteSet.range a b).bitmap := by
    rw [List.getD_eq_getElem _ _ (by simp [(ByteSet.range a b).len32]; omega)]
    exact List.getElem_mem _
  exact hfw (by rw [← hgot]; exact hall _ hmem)

/-- C8 (amended): `ByteSet::range(a, b)` with `a > b` never fails (there is
no assertion) and does not always return the empty set: the result is empty
iff `a` and `b` fall in the same bitmap word (`a / 8 = b / 8`); otherwise
it is a non-empty garbage set. -/
theorem claim_C8_range_reversed (a b : Nat) (ha : a < 256) (hb : b < 256)
    (hlt : b < a) :
    (ByteSet.range a b).is_empty = true ↔ a / 8 = b / 8 := by
  constructor
  · intro h
    by_contra hne
    rw [ByteSet.range_cross_word a b ha hb hlt hne] at h
    cases h
  · intro h
    exact ByteSet.range_same_word a b ha hb hlt h

/-- C8, witness: `range(3, 1)` lies in one word and is empty. -/
theorem claim_C8_range_reversed_witness :
    (ByteSet.range 3 1).is_empty = true :=
  (claim_C8_range_reversed 3 1 (by decide) (by decide) (by decide)).mpr (by decide)

/-- C8, counterexample: `range(8, 0)` (with `8 > 0`) returns without any
failure a *non-empty* set — it contains `0` and `8` — refuting the claim
that a reversed range is rejected or empty. -/
theorem claim_C8_counterexample :
    (ByteSet.range 8 0).is_empty = false ∧
    (ByteSet.range 8 0).contains 0 = true ∧
    (ByteSet.range 8 0).contains 8 = true := by
  refine ⟨by decide, by decide, by decide⟩

/-! ## Claim C1: derivative soundness — language semantics

`L` interprets an operator tree by the standard set-theoretic semantics:
`Cat` is concatenation, `Star` is Kleene star, `Or` union, `And`
intersection, `Not` complement over byte strings. -/

theorem and_two_pow_bne (x j : Nat) : (x &&& 2 ^ j != 0) = x.testBit j := by
  cases h : x.testBit j
  · simp [Nat.and_two_pow, h]
  · simp only [Nat.and_two_pow, h, Bool.toNat_true, one_mul, bne_iff_ne, ne_eq]
    exact (Nat.pos_pow_of_pos j (by norm_num)).ne'

theorem CharSet.contains_eq_testBit (s : CharSet) (b : Nat) :
    s.contains b = (s.bitmap.getD (b / 32) 0).testBit (b % 32) := by
  simp only [CharSet.contains, CharSet.encodeIndex, CharSet.encodeWord,
    and_two_pow_bne]

theorem getD_map_range8 (f : Nat → Nat) (i : Nat) :
    ((List.range 8).map f).getD i 0 = if i < 8 then f i else 0 := by
  rcases Nat.lt_or_ge i 8 with h | h
  · rw [List.getD_eq_getElem _ _ (by simpa using h)]
    simp [h]
  · rw [List.getD_eq_default _ _ (by simpa using h)]
    simp [Nat.not_lt.mpr h]

theorem CharSet.getD_eq_zero_of_ge (s : CharSet) (i : Nat) (h : 8 ≤ i) :
    s.bitmap.getD i 0 = 0 :=
  List.getD_eq_default _ _ (by rw [s.len8]; exact h)

theorem CharSet.contains_union (s t : CharSet) (b : Nat) :
    (s.union t).contains b = (s.contains b || t.contains b) := by
  rw [CharSet.contains_eq_testBit, CharSet.contains_eq_testBit,
    CharSet.contains_eq_testBit]
  simp only [CharSet.union]
  rw [getD_map_range8]
  rcases Nat.lt_or_ge (b / 32) 8 with h | h
  · rw [if_pos h, Nat.testBit_lor]
  · rw [if_neg (Nat.not_lt.mpr h), CharSet.getD_eq_zero_of_ge s _ h,
      CharSet.getD_eq_zero_of_ge t _ h]
    simp

theorem CharSet.contains_intersection (s t : CharSet) (b : Nat) :
    (s.intersection t).contains b = (s.contains b && t.contains b) := by
  rw [CharSet.contains_eq_testBit, CharSet.contains_eq_testBit,
    CharSet.contains_eq_testBit]
  simp only [CharSet.intersection]
  rw [getD_map_range8]
  rcases Nat.lt_or_ge (b / 32) 8 with h | h
  · rw [if_pos h, Nat.testBit_land]
  · rw [if_neg (Nat.not_lt.mpr h), CharSet.getD_eq_zero_of_ge s _ h,
      CharSet.getD_eq_zero_of_ge t _ h]
    simp

theorem CharSet.contains_false_of_is_empty (s : CharSet) (h : s.is_empty = true)
    (b : Nat) : s.contains b = false := by
  rw [CharSet.contains_eq_testBit]
  have : s.bitmap.getD (b / 32) 0 = 0 := by
    rcases Nat.lt_or_ge (b / 32) 8 with hlt | hge
    · have hmem : s.bitmap.getD (b / 32) 0 ∈ s.bitmap := by
        rw [List.getD_eq_getElem _ _ (by rw [s.len8]; exact hlt)]
        exact List.getElem_mem _
      simp only [CharSet.is_empty, List.all_eq_true] at h
      simpa using h _ hmem
    · exact CharSet.getD_eq_zero_of_ge _ _ hge
  rw [this]
  simp

open Computability

namespace RegEx

mutual
/-- The language of an operator tree, by the standard semantics. -/
def lang : RegEx → Language Nat
  | .None => 0
  | .Epsilon => 1
  | .Set s => {w | ∃ b, s.contains b = true ∧ w = [b]}
  | .Cat rs => langCat rs
  | .Star r => (lang r)∗
  | .Or rs => langOr rs
  | .And rs => langAnd rs
  | .Not r => (lang r)ᶜ
/-- Concatenation of the children languages. -/
def langCat : List RegEx → Language Nat
  | [] => 1
  | r :: rs => lang r * langCat rs
/-- Union of the children languages. -/
def langOr : List RegEx → Language Nat
  | [] => 0
  | r :: rs => lang r + langOr rs
/-- Intersection of the children languages. -/
def langAnd : List RegEx → Language Nat
  | [] => ⊤
  | r :: rs => lang r ⊓ langAnd rs
end

theorem mem_sup {l m : Language Nat} {x : List Nat} : x ∈ l ⊔ m ↔ x ∈ l ∨ x ∈ m :=
  Iff.rfl

theorem mem_inf {l m : Language Nat} {x : List Nat} : x ∈ l ⊓ m ↔ x ∈ l ∧ x ∈ m :=
  Iff.rfl

theorem mem_top {x : List Nat} : x ∈ (⊤ : Language Nat) := trivial

theorem mem_lang_Set {s : CharSet} {w : List Nat} :
    w ∈ lang (.Set s) ↔ ∃ b, s.contains b = true ∧ w = [b] := Iff.rfl

theorem mem_langOr {rs : List RegEx} {w : List Nat} :
    w ∈ langOr rs ↔ ∃ r ∈ rs, w ∈ lang r := by
  induction rs with
  | nil => simp [langOr]
  | cons r rs ih => simp [langOr, mem_sup, ih]

theorem mem_langAnd {rs : List RegEx} {w : List Nat} :
    w ∈ langAnd rs ↔ ∀ r ∈ rs, w ∈ lang r := by
  induction rs with
  | nil => simp [langAnd, mem_top]
  | cons r rs ih =>
    simp only [langAnd, List.mem_cons, mem_inf]
    constructor
    · rintro ⟨h1, h2⟩ x (rfl | hx)
      · exact h1
      · exact ih.mp h2 x hx
    · intro h
      exact ⟨h r (Or.inl rfl), ih.mpr fun x hx => h x (Or.inr hx)⟩

theorem langCat_append (a b : List RegEx) :
    langCat (a ++ b) = langCat a * langCat b := by
  induction a with
  | nil => simp [langCat]
  | cons r rs ih => simp [langCat, ih, mul_assoc]

theorem mem_zero {x : List Nat} : x ∈ (0 : Language Nat) ↔ False := Iff.rfl

theorem mem_compl {l : Language Nat} {x : List Nat} : x ∈ lᶜ ↔ ¬ x ∈ l := Iff.rfl

theorem nil_mem_mul {l m : Language Nat} : [] ∈ l * m ↔ [] ∈ l ∧ [] ∈ m := by
  rw [Language.mem_mul]
  constructor
  · rintro ⟨u, hu, v, hv, huv⟩
    rcases List.append_eq_nil.mp huv with ⟨rfl, rfl⟩
    exact ⟨hu, hv⟩
  · rintro ⟨h1, h2⟩
    exact ⟨[], h1, [], h2, rfl⟩

mutual
/-- `is_nullable` decides membership of the empty string. -/
theorem nullable_iff : ∀ r : RegEx, r.is_nullable = true ↔ [] ∈ lang r
  | .None => by simp [is_nullable, lang, mem_zero]
  | .Epsilon => by simp [is_nullable, lang, Language.mem_one]
  | .Set s => by
      simp only [is_nullable, lang]
      constructor
      · intro h; cases h
      · rintro ⟨b, -, h⟩; cases h
  | .Cat rs => by simpa [is_nullable, lang] using allNullable_iff_cat rs
  | .Star r => by simp [is_nullable, lang, Language.nil_mem_kstar]
  | .Or rs => by simpa [is_nullable, lang] using anyNullable_iff rs
  | .And rs => by simpa [is_nullable, lang] using allNullable_iff_and rs
  | .Not r => by
      simp only [is_nullable, lang, Bool.not_eq_true', mem_compl]
      rw [← nullable_iff r]
      simp
theorem allNullable_iff_cat : ∀ rs : List RegEx,
    allNullable rs = true ↔ [] ∈ langCat rs
  | [] => by simp [allNullable, langCat, Language.mem_one]
  | r :: rs => by
      simp [allNullable, langCat, nil_mem_mul, nullable_iff r,
        allNullable_iff_cat rs]
theorem allNullable_iff_and : ∀ rs : List RegEx,
    allNullable rs = true ↔ [] ∈ langAnd rs
  | [] => by simp [allNullable, langAnd, mem_top]
  | r :: rs => by
      simp [allNullable, langAnd, mem_inf, nullable_iff r,
        allNullable_iff_and rs]
theorem anyNullable_iff : ∀ rs : List RegEx,
    anyNullable rs = true ↔ [] ∈ langOr rs
  | [] => by simp [anyNullable, langOr, mem_zero]
  | r :: rs => by
      simp [anyNullable, langOr, mem_sup, nullable_iff r, anyNullable_iff rs]
end

/-- Language of the `set` smart constructor. -/
theorem lang_set (s : CharSet) :
    lang (set s) = {w | ∃ b, s.contains b = true ∧ w = [b]} := by
  rcases h : s.is_empty with _ | _
  · simp [set, h, lang]
  · ext w
    rw [show set s = RegEx.None by simp [set, h]]
    simp only [lang, mem_zero, Set.mem_setOf_eq, false_iff]
    rintro ⟨b, hb, -⟩
    rw [CharSet.contains_false_of_is_empty s h b] at hb
    cases hb

/-- Language of the `then` smart constructor: concatenation, for all
operand trees. -/
theorem lang_then (r s : RegEx) : lang (r.«then» s) = lang r * lang s := by
  cases r <;> cases s <;>
    simp [«then», lang, langCat, langCat_append, mul_one, one_mul, mul_zero,
      zero_mul, mul_assoc]

/-- Language of the `star` smart constructor, for all operand trees. -/
theorem lang_star (r : RegEx) : lang (star r) = (lang r)∗ := by
  cases r <;> simp [star, lang, kstar_zero, kstar_one, kstar_idem]

end RegEx

/-! ### The one-symbol derivative on languages -/

/-- `{w | a :: w ∈ l}`. -/
def langDeriv (a : Nat) (l : Language Nat) : Language Nat := {w | a :: w ∈ l}

theorem mem_langDeriv {a : Nat} {w : List Nat} {l : Language Nat} :
    w ∈ langDeriv a l ↔ a :: w ∈ l := Iff.rfl

theorem langDeriv_zero (a : Nat) : langDeriv a 0 = 0 := by
  ext w; simp [mem_langDeriv, RegEx.mem_zero]

theorem langDeriv_one (a : Nat) : langDeriv a 1 = 0 := by
  ext w; simp [mem_langDeriv, Language.mem_one, RegEx.mem_zero]

theorem langDeriv_sup (a : Nat) (l m : Language Nat) :
    langDeriv a (l ⊔ m) = langDeriv a l ⊔ langDeriv a m := by
  ext w; simp [mem_langDeriv, RegEx.mem_sup]

theorem langDeriv_inf (a : Nat) (l m : Language Nat) :
    langDeriv a (l ⊓ m) = langDeriv a l ⊓ langDeriv a m := by
  ext w; simp [mem_langDeriv, RegEx.mem_inf]

theorem langDeriv_compl (a : Nat) (l : Language Nat) :
    langDeriv a lᶜ = (langDeriv a l)ᶜ := rfl

/-- The derivative of a concatenation. -/
theorem mem_langDeriv_mul {a : Nat} {l m : Language Nat} {w : List Nat} :
    w ∈ langDeriv a (l * m) ↔
      w ∈ langDeriv a l * m ∨ ([] ∈ l ∧ w ∈ langDeriv a m) := by
  constructor
  · intro h
    rw [mem_langDeriv, Language.mem_mul] at h
    obtain ⟨u, hu, v, hv, huv⟩ := h
    cases u with
    | nil =>
      right
      refine ⟨hu, ?_⟩
      rw [mem_langDeriv]
      simpa using huv ▸ hv
    | cons x xs =>
      left
      rw [List.cons_append] at huv
      injection huv with h1 h2
      rw [Language.mem_mul]
      exact ⟨xs, by rw [mem_langDeriv, ← h1]; exact hu, v, hv, h2⟩
  · rintro (h | ⟨h1, h2⟩)
    · rw [Language.mem_mul] at h
      obtain ⟨u, hu, v, hv, huv⟩ := h
      rw [mem_langDeriv, Language.mem_mul]
      exact ⟨a :: u, hu, v, hv, by simp [huv]⟩
    · rw [mem_langDeriv] at h2 ⊢
      rw [Language.mem_mul]
      exact ⟨[], h1, a :: w, h2, rfl⟩

/-- The derivative of a Kleene star. -/
theorem mem_langDeriv_kstar {a : Nat} {l : Language Nat} {w : List Nat} :
    w ∈ langDeriv a (l∗) ↔ w ∈ langDeriv a l * l∗ := by
  constructor
  · intro h
    rw [mem_langDeriv, Language.mem_kstar_iff_exists_nonempty] at h
    obtain ⟨S, hflat, hS⟩ := h
    cases S with
    | nil => simp at hflat
    | cons u S =>
      obtain ⟨hu, hne⟩ := hS u (by simp)
      cases u with
      | nil => exact absurd rfl hne
      | cons x xs =>
        rw [List.flatten_cons, List.cons_append] at hflat
        injection hflat with h1 h2
        rw [Language.mem_mul]
        refine ⟨xs, ?_, S.flatten, ?_, h2.symm⟩
        · rw [mem_langDeriv, h1]; exact hu
        · exact Language.join_mem_kstar fun y hy => (hS y (by simp [hy])).1
  · intro h
    rw [Language.mem_mul] at h
    obtain ⟨u, hu, v, hv, huv⟩ := h
    rw [mem_langDeriv]
    have : a :: w ∈ l * l∗ := by
      rw [Language.mem_mul]
      exact ⟨a :: u, hu, v, hv, by simp [huv]⟩
    exact (mul_kstar_le_kstar : l * l∗ ≤ l∗) this

namespace RegEx

theorem mem_lang_Set_union {s t : CharSet} {w : List Nat} :
    w ∈ lang (.Set (s.union t)) ↔ w ∈ lang (.Set s) ∨ w ∈ lang (.Set t) := by
  simp only [mem_lang_Set, CharSet.contains_union]
  constructor
  · rintro ⟨b, hb, rfl⟩
    rcases Bool.or_eq_true_iff.mp hb with h | h
    · exact Or.inl ⟨b, h, rfl⟩
    · exact Or.inr ⟨b, h, rfl⟩
  · rintro (⟨b, hb, rfl⟩ | ⟨b, hb, rfl⟩) <;> exact ⟨b, by simp [hb], rfl⟩

theorem mem_lang_Set_inter {s t : CharSet} {w : List Nat} :
    w ∈ lang (.Set (s.intersection t)) ↔
      w ∈ lang (.Set s) ∧ w ∈ lang (.Set t) := by
  simp only [mem_lang_Set, CharSet.contains_intersection]
  constructor
  · rintro ⟨b, hb, rfl⟩
    rcases Bool.and_eq_true_iff.mp hb with ⟨h1, h2⟩
    exact ⟨⟨b, h1, rfl⟩, ⟨b, h2, rfl⟩⟩
  · rintro ⟨⟨b, hb, rfl⟩, ⟨b', hb', heq⟩⟩
    obtain rfl : b = b' := by injection heq
    exact ⟨b, by simp [hb, hb'], rfl⟩

/-- The `merged_sets` loop ignores a head that is not a `Set`, pushing it
onto `new_res`. -/
theorem mergedSetsGo_cons_of_not_set (reduce : CharSet → CharSet → CharSet)
    (re : RegEx) (hset : ¬ ∃ a, re = RegEx.Set a) (rest : List RegEx)
    (acc : Option CharSet) (out : List RegEx) :
    mergedSetsGo reduce (re :: rest) acc out
      = mergedSetsGo reduce rest acc (out ++ [re]) := by
  rcases re with _ | _ | a | rs | r | rs | rs | r
  case Set => exact absurd ⟨_, rfl⟩ hset
  all_goals rfl

/-- Effect of the `merged_sets` loop on the union of the languages in
play: the fold of `Set` children with `CharSet::union_assign` preserves it. -/
theorem mergedSetsGo_union_mem (w : List Nat) : ∀ (l : List RegEx)
    (acc : Option CharSet) (out : List RegEx),
    ((∃ s, (mergedSetsGo CharSet.union l acc out).1 = some s ∧ w ∈ lang (.Set s)) ∨
      (∃ r ∈ (mergedSetsGo CharSet.union l acc out).2, w ∈ lang r))
    ↔ ((∃ s, acc = some s ∧ w ∈ lang (.Set s)) ∨
        (∃ r ∈ out, w ∈ lang r) ∨ (∃ r ∈ l, w ∈ lang r))
  | [], acc, out => by simp [mergedSetsGo]
  | re :: rest, acc, out => by
    by_cases hset : ∃ a, re = RegEx.Set a
    · obtain ⟨a, rfl⟩ := hset
      rw [show mergedSetsGo CharSet.union (RegEx.Set a :: rest) acc out
          = mergedSetsGo CharSet.union rest
              (some (match acc with | some s => s.union a | Option.none => a)) out
          from rfl]
      rw [mergedSetsGo_union_mem w rest _ out]
      cases acc with
      | none =>
        simp only [Option.some.injEq, exists_eq_left', List.mem_cons]
        constructor
        · rintro (h | h | h)
          · exact Or.inr (Or.inr ⟨.Set a, Or.inl rfl, h⟩)
          · exact Or.inr (Or.inl h)
          · obtain ⟨r, hr, hw⟩ := h
            exact Or.inr (Or.inr ⟨r, Or.inr hr, hw⟩)
        · rintro (⟨s, hs, -⟩ | h | ⟨r, (rfl | hr), hw⟩)
          · cases hs
          · exact Or.inr (Or.inl h)
          · exact Or.inl hw
          · exact Or.inr (Or.inr ⟨r, hr, hw⟩)
      | some s =>
        simp only [Option.some.injEq, exists_eq_left', mem_lang_Set_union,
          List.mem_cons]
        constructor
        · rintro ((h | h) | h | h)
          · exact Or.inl h
          · exact Or.inr (Or.inr ⟨.Set a, Or.inl rfl, h⟩)
          · exact Or.inr (Or.inl h)
          · obtain ⟨r, hr, hw⟩ := h
            exact Or.inr (Or.inr ⟨r, Or.inr hr, hw⟩)
        · rintro (h | h | ⟨r, (rfl | hr), hw⟩)
          · exact Or.inl (Or.inl h)
          · exact Or.inr (Or.inl h)
          · exact Or.inl (Or.inr hw)
          · exact Or.inr (Or.inr ⟨r, hr, hw⟩)
    · rw [mergedSetsGo_cons_of_not_set CharSet.union re hset rest acc out]
      rw [mergedSetsGo_union_mem w rest acc _]
      simp only [List.mem_append, List.mem_cons]
      constructor
      · rintro (h | ⟨r, (hr | rfl | hnil), hw⟩ | ⟨r, hr, hw⟩)
        · exact Or.inl h
        · exact Or.inr (Or.inl ⟨r, hr, hw⟩)
        · exact Or.inr (Or.inr ⟨r, Or.inl rfl, hw⟩)
        · cases hnil
        · exact Or.inr (Or.inr ⟨r, Or.inr hr, hw⟩)
      · rintro (h | ⟨r, hr, hw⟩ | ⟨r, (rfl | hr), hw⟩)
        · exact Or.inl h
        · exact Or.inr (Or.inl ⟨r, Or.inl hr, hw⟩)
        · exact Or.inr (Or.inl ⟨r, Or.inr (Or.inl rfl), hw⟩)
        · exact Or.inr (Or.inr ⟨r, hr, hw⟩)

/-- Effect of the `merged_sets` loop on the intersection of the languages
in play: the fold of `Set` children with `CharSet::intersection_assign`
preserves it. -/
theorem mergedSetsGo_inter_mem (w : List Nat) : ∀ (l : List RegEx)
    (acc : Option CharSet) (out : List RegEx),
    ((∀ s, (mergedSetsGo CharSet.intersection l acc out).1 = some s → w ∈ lang (.Set s)) ∧
      (∀ r ∈ (mergedSetsGo CharSet.intersection l acc out).2, w ∈ lang r))
    ↔ ((∀ s, acc = some s → w ∈ lang (.Set s)) ∧
        (∀ r ∈ out, w ∈ lang r) ∧ (∀ r ∈ l, w ∈ lang r))
  | [], acc, out => by
    simp only [mergedSetsGo, List.not_mem_nil, false_implies, implies_true,
      and_true]
  | re :: rest, acc, out => by
    by_cases hset : ∃ a, re = RegEx.Set a
    · obtain ⟨a, rfl⟩ := hset
      rw [show mergedSetsGo CharSet.intersection (RegEx.Set a :: rest) acc out
          = mergedSetsGo CharSet.intersection rest
              (some (match acc with
                     | some s => s.intersection a
                     | Option.none => a)) out
          from rfl]
      rw [mergedSetsGo_inter_mem w rest _ out]
      cases acc with
      | none =>
        simp only [Option.some.injEq, forall_eq', List.forall_mem_cons,
          reduceCtorEq, false_implies, implies_true, true_and]
        tauto
      | some s =>
        simp only [Option.some.injEq, forall_eq', mem_lang_Set_inter,
          List.forall_mem_cons]
        tauto
    · rw [mergedSetsGo_cons_of_not_set CharSet.intersection re hset rest acc out]
      rw [mergedSetsGo_inter_mem w rest acc _]
      simp only [List.forall_mem_append, List.forall_mem_cons,
        List.forall_mem_singleton, List.not_mem_nil]
      tauto

theorem exists_mem_merge_iff {p : RegEx → Prop} (a b : List RegEx) :
    (∃ r ∈ List.merge a b le, p r) ↔ (∃ r ∈ a, p r) ∨ (∃ r ∈ b, p r) := by
  constructor
  · rintro ⟨r, hr, hp⟩
    rcases List.mem_merge.mp hr with h | h
    · exact Or.inl ⟨r, h, hp⟩
    · exact Or.inr ⟨r, h, hp⟩
  · rintro (⟨r, hr, hp⟩ | ⟨r, hr, hp⟩)
    · exact ⟨r, List.mem_merge.mpr (Or.inl hr), hp⟩
    · exact ⟨r, List.mem_merge.mpr (Or.inr hr), hp⟩

theorem forall_mem_merge_iff {p : RegEx → Prop} (a b : List RegEx) :
    (∀ r ∈ List.merge a b le, p r) ↔ (∀ r ∈ a, p r) ∧ (∀ r ∈ b, p r) := by
  constructor
  · intro h
    exact ⟨fun r hr => h r (List.mem_merge.mpr (Or.inl hr)),
           fun r hr => h r (List.mem_merge.mpr (Or.inr hr))⟩
  · rintro ⟨h1, h2⟩ r hr
    rcases List.mem_merge.mp hr with h | h
    · exact h1 r h
    · exact h2 r h

theorem merged_sets_union_mem (l : List RegEx) (w : List Nat) :
    (∃ r ∈ merged_sets l CharSet.union, w ∈ lang r) ↔ ∃ r ∈ l, w ∈ lang r := by
  have h := mergedSetsGo_union_mem w l Option.none []
  unfold merged_sets
  rcases hgo : mergedSetsGo CharSet.union l Option.none [] with ⟨acc, out⟩
  rw [hgo] at h
  simp only [reduceCtorEq, false_and, exists_false, List.not_mem_nil,
    false_or] at h
  cases acc with
  | none =>
    simpa only [Option.some.injEq, reduceCtorEq, false_and, exists_false,
      false_or] using h
  | some s =>
    rw [exists_mem_merge_iff]
    simp only [Option.some.injEq, exists_eq_left', List.mem_singleton,
      exists_eq_left] at h ⊢
    rw [← h]
    exact or_comm

theorem merged_sets_inter_mem (l : List RegEx) (w : List Nat) :
    (∀ r ∈ merged_sets l CharSet.intersection, w ∈ lang r) ↔
      ∀ r ∈ l, w ∈ lang r := by
  have h := mergedSetsGo_inter_mem w l Option.none []
  unfold merged_sets
  rcases hgo : mergedSetsGo CharSet.intersection l Option.none [] with ⟨acc, out⟩
  rw [hgo] at h
  simp only [reduceCtorEq, false_implies, implies_true, true_and,
    List.not_mem_nil] at h
  cases acc with
  | none =>
    simpa only [Option.some.injEq, reduceCtorEq, false_implies, implies_true,
      true_and] using h
  | some s =>
    rw [forall_mem_merge_iff]
    simp only [Option.some.injEq, forall_eq', List.forall_mem_singleton] at h ⊢
    tauto

theorem mem_lang_or_aux (a b : List RegEx) (w : List Nat) :
    w ∈ lang (or_aux a b) ↔ (∃ r ∈ a, w ∈ lang r) ∨ (∃ r ∈ b, w ∈ lang r) := by
  have hm : (∃ r ∈ merged_sets (List.merge a b le) CharSet.union, w ∈ lang r)
      ↔ (∃ r ∈ a, w ∈ lang r) ∨ (∃ r ∈ b, w ∈ lang r) := by
    rw [merged_sets_union_mem, exists_mem_merge_iff]
  unfold or_aux
  rcases h : merged_sets (List.merge a b le) CharSet.union with _ | ⟨x, rest⟩
  · rw [h] at hm
    simp only [List.not_mem_nil, false_and, exists_false, false_or] at hm
    rw [← hm]
    simp [lang, mem_zero]
  · rw [h] at hm
    cases rest with
    | nil =>
      simp only [List.mem_singleton, exists_eq_left] at hm
      rw [← hm]
      simp [lang]
    | cons y t =>
      rw [← hm]
      simp only [List.isEmpty_cons, List.length_cons, Bool.false_eq_true,
        if_false, Nat.succ_ne_zero]
      rw [if_neg (by simp)]
      rw [show lang (.Or (x :: y :: t)) = langOr (x :: y :: t) from rfl]
      exact mem_langOr

theorem mem_lang_or (r s : RegEx) (w : List Nat) :
    w ∈ lang (r.or s) ↔ w ∈ lang r ∨ w ∈ lang s := by
  unfold or
  split
  · simp [lang, mem_zero]
  · simp [lang, mem_zero]
  · rw [lang_set]
    exact mem_lang_Set_union
  · rw [mem_lang_or_aux]
    simp [lang, mem_langOr]
  · rw [mem_lang_or_aux]
    simp [lang, mem_langOr]
  · rw [mem_lang_or_aux]
    simp [lang, mem_langOr]
  · rw [mem_lang_or_aux]
    simp [lang, mem_langOr]

mutual
/-- Every `Cat`/`Or`/`And` node in the tree has at least two children
(the part of canonical form that `deriv` relies on: its `unreachable!()`
arms are exactly the sub-two-child nodes). -/
def arityOk : RegEx → Bool
  | .None => true
  | .Epsilon => true
  | .Set _ => true
  | .Cat rs => decide (rs.length ≥ 2) && arityOkList rs
  | .Star r => arityOk r
  | .Or rs => decide (rs.length ≥ 2) && arityOkList rs
  | .And rs => decide (rs.length ≥ 2) && arityOkList rs
  | .Not r => arityOk r
/-- `arityOk` on every member. -/
def arityOkList : List RegEx → Bool
  | [] => true
  | r :: rs => arityOk r && arityOkList rs
end

mutual
/-- The tree contains no `Not` node. -/
def notDropped : RegEx → Bool
  | .None => true
  | .Epsilon => true
  | .Set _ => true
  | .Cat rs => notDroppedList rs
  | .Star r => notDropped r
  | .Or rs => notDroppedList rs
  | .And rs => notDroppedList rs
  | .Not _ => false
/-- `notDropped` on every member. -/
def notDroppedList : List RegEx → Bool
  | [] => true
  | r :: rs => notDropped r && notDroppedList rs
end

theorem arityOkList_iff (rs : List RegEx) :
    arityOkList rs = true ↔ ∀ r ∈ rs, arityOk r = true := by
  induction rs with
  | nil => simp [arityOkList]
  | cons r rs ih => simp [arityOkList, ih]

theorem notDroppedList_iff (rs : List RegEx) :
    notDroppedList rs = true ↔ ∀ r ∈ rs, notDropped r = true := by
  induction rs with
  | nil => simp [notDroppedList]
  | cons r rs ih => simp [notDroppedList, ih]

/-- The `merged_sets` loop cannot shrink everything away: with a non-empty
input it returns either a pending accumulated set or a non-empty list. -/
theorem mergedSetsGo_progress (reduce : CharSet → CharSet → CharSet) :
    ∀ (l : List RegEx) (acc : Option CharSet) (out : List RegEx),
    acc ≠ Option.none ∨ out ≠ [] ∨ l ≠ [] →
    (mergedSetsGo reduce l acc out).1 ≠ Option.none ∨
      (mergedSetsGo reduce l acc out).2 ≠ []
  | [], acc, out, h => by
    simp only [mergedSetsGo]
    tauto
  | re :: rest, acc, out, h => by
    by_cases hset : ∃ a, re = RegEx.Set a
    · obtain ⟨a, rfl⟩ := hset
      cases acc with
      | some s =>
        rw [show mergedSetsGo reduce (RegEx.Set a :: rest) (some s) out
            = mergedSetsGo reduce rest (some (reduce s a)) out from rfl]
        exact mergedSetsGo_progress reduce rest _ out (Or.inl (by simp))
      | none =>
        rw [show mergedSetsGo reduce (RegEx.Set a :: rest) Option.none out
            = mergedSetsGo reduce rest (some a) out from rfl]
        exact mergedSetsGo_progress reduce rest _ out (Or.inl (by simp))
    · rw [mergedSetsGo_cons_of_not_set reduce re hset rest acc out]
      exact mergedSetsGo_progress reduce rest acc _ (Or.inr (Or.inl (by simp)))

theorem merged_sets_ne_nil (l : List RegEx)
    (reduce : CharSet → CharSet → CharSet) (h : l ≠ []) :
    merged_sets l reduce ≠ [] := by
  have hp := mergedSetsGo_progress reduce l Option.none [] (Or.inr (Or.inr h))
  unfold merged_sets
  rcases hgo : mergedSetsGo reduce l Option.none [] with ⟨acc, out⟩
  rw [hgo] at hp
  cases acc with
  | none => simpa using hp
  | some s =>
    intro hcon
    have := congrArg List.length hcon
    rw [List.length_merge] at this
    simp at this

theorem mem_lang_and_aux (a b : List RegEx) (w : List Nat)
    (hne : ¬(a = [] ∧ b = [])) :
    w ∈ lang (and_aux a b) ↔
      (∀ r ∈ a, w ∈ lang r) ∧ (∀ r ∈ b, w ∈ lang r) := by
  have hm : (∀ r ∈ merged_sets (List.merge a b le) CharSet.intersection, w ∈ lang r)
      ↔ (∀ r ∈ a, w ∈ lang r) ∧ (∀ r ∈ b, w ∈ lang r) := by
    rw [merged_sets_inter_mem, forall_mem_merge_iff]
  have hmerge_ne : List.merge a b le ≠ [] := by
    intro hcon
    have := congrArg List.length hcon
    rw [List.length_merge] at this
    rcases a with _ | ⟨x, a⟩
    · rcases b with _ | ⟨y, b⟩
      · exact hne ⟨rfl, rfl⟩
      · simp at this
    · simp at this
  unfold and_aux
  rcases h : merged_sets (List.merge a b le) CharSet.intersection with _ | ⟨x, rest⟩
  · exact absurd h (merged_sets_ne_nil _ _ hmerge_ne)
  · rw [h] at hm
    cases rest with
    | nil =>
      simp only [List.forall_mem_singleton] at hm
      rw [← hm]
      simp [lang]
    | cons y t =>
      rw [← hm]
      simp only [List.isEmpty_cons, List.length_cons, Bool.false_eq_true,
        if_false]
      rw [if_neg (by simp)]
      rw [show lang (.And (x :: y :: t)) = langAnd (x :: y :: t) from rfl]
      exact mem_langAnd

theorem mem_and_epsilon_arm (x : RegEx) (w : List Nat) :
    w ∈ lang (if x.is_nullable then RegEx.Epsilon else RegEx.None) ↔
      w ∈ lang x ∧ w ∈ lang RegEx.Epsilon := by
  rcases h : x.is_nullable with _ | _
  · simp only [if_false, Bool.false_eq_true]
    rw [show lang RegEx.None = 0 from rfl]
    simp only [mem_zero, false_iff]
    rintro ⟨h1, h2⟩
    rw [show lang RegEx.Epsilon = 1 from rfl, Language.mem_one] at h2
    subst h2
    rw [← nullable_iff] at h1
    rw [h1] at h
    cases h
  · simp only [if_true]
    constructor
    · intro hw
      rw [show lang RegEx.Epsilon = 1 from rfl, Language.mem_one] at hw ⊢
      subst hw
      exact ⟨(nullable_iff x).mp h, rfl⟩
    · exact fun hw => hw.2

theorem mem_lang_and (r s : RegEx) (w : List Nat)
    (hr : arityOk r = true) (hs : arityOk s = true) :
    w ∈ lang (r.and s) ↔ w ∈ lang r ∧ w ∈ lang s := by
  have hAnd : ∀ rs : List RegEx, arityOk (RegEx.And rs) = true → rs ≠ [] := by
    intro rs hok hcon
    subst hcon
    simp [arityOk] at hok
  unfold and
  split
  · rw [show lang RegEx.None = 0 from rfl]
    simp [lang, mem_zero]
  · rw [show lang RegEx.None = 0 from rfl]
    simp [lang, mem_zero]
  · exact mem_and_epsilon_arm _ w
  · rw [mem_and_epsilon_arm]
    rw [show (lang RegEx.Epsilon) = 1 from rfl]
    tauto
  · rw [lang_set]
    exact mem_lang_Set_inter
  all_goals
    refine (mem_lang_and_aux _ _ _ ?_).trans (by simp [lang, mem_langAnd])
  all_goals
    rintro ⟨h1, h2⟩
    first
      | exact hAnd _ hr h1
      | exact hAnd _ hs h2
      | cases h1
      | cases h2

theorem mem_mergedSetsGo (reduce : CharSet → CharSet → CharSet) :
    ∀ (l : List RegEx) (acc : Option CharSet) (out : List RegEx) (x : RegEx),
    x ∈ (mergedSetsGo reduce l acc out).2 → x ∈ out ∨ x ∈ l
  | [], acc, out, x => by
    simp only [mergedSetsGo]
    exact fun h => Or.inl h
  | re :: rest, acc, out, x => by
    intro hx
    by_cases hset : ∃ a, re = RegEx.Set a
    · obtain ⟨a, rfl⟩ := hset
      have : x ∈ out ∨ x ∈ rest := by
        cases acc with
        | some s =>
          exact mem_mergedSetsGo reduce rest _ out x
            (by rw [show mergedSetsGo reduce (RegEx.Set a :: rest) (some s) out
                = mergedSetsGo reduce rest (some (reduce s a)) out from rfl] at hx
                exact hx)
        | none =>
          exact mem_mergedSetsGo reduce rest _ out x
            (by rw [show mergedSetsGo reduce (RegEx.Set a :: rest) Option.none out
                = mergedSetsGo reduce rest (some a) out from rfl] at hx
                exact hx)
      rcases this with h | h
      · exact Or.inl h
      · exact Or.inr (List.mem_cons_of_mem _ h)
    · rw [mergedSetsGo_cons_of_not_set reduce re hset rest acc out] at hx
      rcases mem_mergedSetsGo reduce rest acc _ x hx with h | h
      · rcases List.mem_append.mp h with h | h
        · exact Or.inl h
        · exact Or.inr (List.mem_cons.mpr (Or.inl (List.mem_singleton.mp h)))
      · exact Or.inr (List.mem_cons_of_mem _ h)

/-- Every element of a `merged_sets` result is an input element or a raw
`Set` node. -/
theorem mem_merged_sets_cases (l : List RegEx)
    (reduce : CharSet → CharSet → CharSet) (x : RegEx)
    (hx : x ∈ merged_sets l reduce) : x ∈ l ∨ ∃ s, x = RegEx.Set s := by
  unfold merged_sets at hx
  rcases hgo : mergedSetsGo reduce l Option.none [] with ⟨acc, out⟩
  rw [hgo] at hx
  cases acc with
  | none =>
    rcases mem_mergedSetsGo reduce l Option.none [] x (by rw [hgo]; exact hx) with h | h
    · cases h
    · exact Or.inl h
  | some s =>
    rcases List.mem_merge.mp hx with h | h
    · rcases mem_mergedSetsGo reduce l Option.none [] x (by rw [hgo]; exact h) with h' | h'
      · cases h'
      · exact Or.inl h'
    · exact Or.inr ⟨s, List.mem_singleton.mp h⟩

theorem pres_set (s : CharSet) :
    arityOk (set s) = true ∧ notDropped (set s) = true := by
  by_cases h : s.is_empty <;> simp [set, h, arityOk, notDropped]

theorem pres_then (r s : RegEx)
    (hr : arityOk r = true ∧ notDropped r = true)
    (hs : arityOk s = true ∧ notDropped s = true) :
    arityOk (r.«then» s) = true ∧ notDropped (r.«then» s) = true := by
  obtain ⟨hr1, hr2⟩ := hr
  obtain ⟨hs1, hs2⟩ := hs
  unfold «then»
  split
  · exact ⟨hr1, hr2⟩
  · exact ⟨hs1, hs2⟩
  · exact ⟨rfl, rfl⟩
  · exact ⟨rfl, rfl⟩
  all_goals
    simp only [arityOk, notDropped, arityOkList_iff, notDroppedList_iff,
      Bool.and_eq_true, decide_eq_true_eq, List.length_append,
      List.mem_append, List.mem_cons, List.mem_singleton,
      List.length_cons] at hr1 hr2 hs1 hs2 ⊢
  · obtain ⟨ha1, ha2⟩ := hr1
    obtain ⟨hb1, hb2⟩ := hs1
    exact ⟨⟨by omega, fun x hx => hx.elim (ha2 x) (hb2 x)⟩,
      fun x hx => hx.elim (hr2 x) (hs2 x)⟩
  · obtain ⟨hb1, hb2⟩ := hs1
    refine ⟨⟨by omega, ?_⟩, ?_⟩
    · rintro x (rfl | hx)
      · exact hr1
      · exact hb2 x hx
    · rintro x (rfl | hx)
      · exact hr2
      · exact hs2 x hx
  · obtain ⟨ha1, ha2⟩ := hr1
    refine ⟨⟨by omega, ?_⟩, ?_⟩
    · rintro x (hx | rfl | hnil)
      · exact ha2 x hx
      · exact hs1
      · cases hnil
    · rintro x (hx | rfl | hnil)
      · exact hr2 x hx
      · exact hs2
      · cases hnil
  · refine ⟨⟨by omega, ?_⟩, ?_⟩
    · rintro x (rfl | rfl | h)
      · exact hr1
      · exact hs1
      · cases h
    · rintro x (rfl | rfl | h)
      · exact hr2
      · exact hs2
      · cases h

theorem pres_star (r : RegEx)
    (hr : arityOk r = true ∧ notDropped r = true) :
    arityOk r.star = true ∧ notDropped r.star = true := by
  obtain ⟨h1, h2⟩ := hr
  unfold star
  split
  · exact ⟨rfl, rfl⟩
  all_goals exact ⟨h1, h2⟩

theorem pres_or_aux (a b : List RegEx)
    (ha : ∀ x ∈ a, arityOk x = true ∧ notDropped x = true)
    (hb : ∀ x ∈ b, arityOk x = true ∧ notDropped x = true) :
    arityOk (or_aux a b) = true ∧ notDropped (or_aux a b) = true := by
  have hall : ∀ x ∈ merged_sets (List.merge a b le) CharSet.union,
      arityOk x = true ∧ notDropped x = true := by
    intro x hx
    rcases mem_merged_sets_cases _ _ x hx with h | ⟨s, rfl⟩
    · rcases List.mem_merge.mp h with h | h
      · exact ha x h
      · exact hb x h
    · exact ⟨rfl, rfl⟩
  unfold or_aux
  rcases h : merged_sets (List.merge a b le) CharSet.union with _ | ⟨x, rest⟩
  · exact ⟨rfl, rfl⟩
  · rw [h] at hall
    cases rest with
    | nil =>
      simp only [List.isEmpty_cons, List.length_singleton, if_pos rfl,
        Bool.false_eq_true, if_false, List.headD_cons]
      exact hall x (List.mem_singleton.mpr rfl)
    | cons y t =>
      simp only [List.isEmpty_cons, Bool.false_eq_true, if_false,
        List.length_cons]
      rw [if_neg (by simp)]
      simp only [arityOk, notDropped, arityOkList_iff, notDroppedList_iff,
        Bool.and_eq_true, decide_eq_true_eq, List.length_cons]
      exact ⟨⟨by omega, fun x hx => (hall x hx).1⟩, fun x hx => (hall x hx).2⟩

theorem pres_or (r s : RegEx)
    (hr : arityOk r = true ∧ notDropped r = true)
    (hs : arityOk s = true ∧ notDropped s = true) :
    arityOk (r.or s) = true ∧ notDropped (r.or s) = true := by
  have hchildren : ∀ rs : List RegEx,
      arityOk (RegEx.Or rs) = true → notDropped (RegEx.Or rs) = true →
      ∀ x ∈ rs, arityOk x = true ∧ notDropped x = true := by
    intro rs h1 h2 x hx
    simp only [arityOk, notDropped, arityOkList_iff, notDroppedList_iff,
      Bool.and_eq_true] at h1 h2
    exact ⟨h1.2 x hx, h2 x hx⟩
  have hsingle : ∀ x : RegEx, arityOk x = true ∧ notDropped x = true →
      ∀ y ∈ [x], arityOk y = true ∧ notDropped y = true := by
    rintro x hx y hy
    rw [List.mem_singleton.mp hy]
    exact hx
  unfold or
  split
  · exact hr
  · exact hs
  · exact pres_set _
  · exact pres_or_aux _ _ (hchildren _ hr.1 hr.2) (hchildren _ hs.1 hs.2)
  · exact pres_or_aux _ _ (hchildren _ hr.1 hr.2) (hsingle _ hs)
  · exact pres_or_aux _ _ (hsingle _ hr) (hchildren _ hs.1 hs.2)
  · exact pres_or_aux _ _ (hsingle _ hr) (hsingle _ hs)

theorem pres_and_aux (a b : List RegEx)
    (ha : ∀ x ∈ a, arityOk x = true ∧ notDropped x = true)
    (hb : ∀ x ∈ b, arityOk x = true ∧ notDropped x = true) :
    arityOk (and_aux a b) = true ∧ notDropped (and_aux a b) = true := by
  have hall : ∀ x ∈ merged_sets (List.merge a b le) CharSet.intersection,
      arityOk x = true ∧ notDropped x = true := by
    intro x hx
    rcases mem_merged_sets_cases _ _ x hx with h | ⟨s, rfl⟩
    · rcases List.mem_merge.mp h with h | h
      · exact ha x h
      · exact hb x h
    · exact ⟨rfl, rfl⟩
  unfold and_aux
  rcases h : merged_sets (List.merge a b le) CharSet.intersection with _ | ⟨x, rest⟩
  · exact ⟨rfl, rfl⟩
  · rw [h] at hall
    cases rest with
    | nil =>
      simp only [List.isEmpty_cons, List.length_singleton, if_pos rfl,
        Bool.false_eq_true, if_false, List.headD_cons]
      exact hall x (List.mem_singleton.mpr rfl)
    | cons y t =>
      simp only [List.isEmpty_cons, Bool.false_eq_true, if_false,
        List.length_cons]
      rw [if_neg (by simp)]
      simp only [arityOk, notDropped, arityOkList_iff, notDroppedList_iff,
        Bool.and_eq_true, decide_eq_true_eq, List.length_cons]
      exact ⟨⟨by omega, fun x hx => (hall x hx).1⟩, fun x hx => (hall x hx).2⟩

theorem pres_and (r s : RegEx)
    (hr : arityOk r = true ∧ notDropped r = true)
    (hs : arityOk s = true ∧ notDropped s = true) :
    arityOk (r.and s) = true ∧ notDropped (r.and s) = true := by
  have hchildren : ∀ rs : List RegEx,
      arityOk (RegEx.And rs) = true → notDropped (RegEx.And rs) = true →
      ∀ x ∈ rs, arityOk x = true ∧ notDropped x = true := by
    intro rs h1 h2 x hx
    simp only [arityOk, notDropped, arityOkList_iff, notDroppedList_iff,
      Bool.and_eq_true] at h1 h2
    exact ⟨h1.2 x hx, h2 x hx⟩
  have hsingle : ∀ x : RegEx, arityOk x = true ∧ notDropped x = true →
      ∀ y ∈ [x], arityOk y = true ∧ notDropped y = true := by
    rintro x hx y hy
    rw [List.mem_singleton.mp hy]
    exact hx
  unfold and
  split
  · exact ⟨rfl, rfl⟩
  · exact ⟨rfl, rfl⟩
  · split <;> exact ⟨rfl, rfl⟩
  · split <;> exact ⟨rfl, rfl⟩
  · exact pres_set _
  · exact pres_and_aux _ _ (hchildren _ hr.1 hr.2) (hchildren _ hs.1 hs.2)
  · exact pres_and_aux _ _ (hchildren _ hr.1 hr.2) (hsingle _ hs)
  · exact pres_and_aux _ _ (hsingle _ hr) (hchildren _ hs.1 hs.2)
  · exact pres_and_aux _ _ (hsingle _ hr) (hsingle _ hs)

theorem cat_children_ok (l : List RegEx)
    (h : arityOk (RegEx.Cat l) = true ∧ notDropped (RegEx.Cat l) = true) :
    ∀ x ∈ l, arityOk x = true ∧ notDropped x = true := by
  obtain ⟨h1, h2⟩ := h
  simp only [arityOk, notDropped, Bool.and_eq_true, arityOkList_iff,
    notDroppedList_iff] at h1 h2
  exact fun x hx => ⟨h1.2 x hx, h2 x hx⟩

theorem or_children_ok (l : List RegEx)
    (h : arityOk (RegEx.Or l) = true ∧ notDropped (RegEx.Or l) = true) :
    ∀ x ∈ l, arityOk x = true ∧ notDropped x = true := by
  obtain ⟨h1, h2⟩ := h
  simp only [arityOk, notDropped, Bool.and_eq_true, arityOkList_iff,
    notDroppedList_iff] at h1 h2
  exact fun x hx => ⟨h1.2 x hx, h2 x hx⟩

theorem and_children_ok (l : List RegEx)
    (h : arityOk (RegEx.And l) = true ∧ notDropped (RegEx.And l) = true) :
    ∀ x ∈ l, arityOk x = true ∧ notDropped x = true := by
  obtain ⟨h1, h2⟩ := h
  simp only [arityOk, notDropped, Bool.and_eq_true, arityOkList_iff,
    notDroppedList_iff] at h1 h2
  exact fun x hx => ⟨h1.2 x hx, h2 x hx⟩

theorem pres_catTail (s : RegEx) (rest : List RegEx)
    (hall : ∀ x ∈ s :: rest, arityOk x = true ∧ notDropped x = true) :
    arityOk (catTail s rest) = true ∧ notDropped (catTail s rest) = true := by
  cases rest with
  | nil => exact hall s (List.mem_cons_self _ _)
  | cons t ts =>
    simp only [catTail, arityOk, notDropped, Bool.and_eq_true,
      decide_eq_true_eq, List.length_cons, arityOkList_iff, notDroppedList_iff]
    exact ⟨⟨by omega, fun x hx => (hall x hx).1⟩, fun x hx => (hall x hx).2⟩

theorem pres_orTail (s : RegEx) (rest : List RegEx)
    (hall : ∀ x ∈ s :: rest, arityOk x = true ∧ notDropped x = true) :
    arityOk (orTail s rest) = true ∧ notDropped (orTail s rest) = true := by
  cases rest with
  | nil => exact hall s (List.mem_cons_self _ _)
  | cons t ts =>
    simp only [orTail, arityOk, notDropped, Bool.and_eq_true,
      decide_eq_true_eq, List.length_cons, arityOkList_iff, notDroppedList_iff]
    exact ⟨⟨by omega, fun x hx => (hall x hx).1⟩, fun x hx => (hall x hx).2⟩

theorem pres_andTail (s : RegEx) (rest : List RegEx)
    (hall : ∀ x ∈ s :: rest, arityOk x = true ∧ notDropped x = true) :
    arityOk (andTail s rest) = true ∧ notDropped (andTail s rest) = true := by
  cases rest with
  | nil => exact hall s (List.mem_cons_self _ _)
  | cons t ts =>
    simp only [andTail, arityOk, notDropped, Bool.and_eq_true,
      decide_eq_true_eq, List.length_cons, arityOkList_iff, notDroppedList_iff]
    exact ⟨⟨by omega, fun x hx => (hall x hx).1⟩, fun x hx => (hall x hx).2⟩

/-- `deriv` preserves the canonical-arity and `Not`-freeness invariants. -/
theorem pres_deriv : ∀ (re : RegEx) (a : Nat),
    arityOk re = true ∧ notDropped re = true →
    arityOk (deriv re a) = true ∧ notDropped (deriv re a) = true
  | .None, a, h => by simp [deriv, arityOk, notDropped]
  | .Epsilon, a, h => by simp [deriv, arityOk, notDropped]
  | .Set s, a, h => by
      simp only [deriv]
      split <;> exact ⟨rfl, rfl⟩
  | .Cat [], a, h => by simp [deriv, arityOk, notDropped]
  | .Cat [x], a, h => by simp [deriv, arityOk, notDropped]
  | .Cat (r :: s :: rest), a, h => by
      have hall := cat_children_ok _ h
      have htail := pres_catTail s rest
        (fun x hx => hall x (List.mem_cons_of_mem _ hx))
      simp only [deriv]
      refine pres_or _ _
        (pres_then _ _ (pres_deriv r a (hall r (List.mem_cons_self _ _))) htail) ?_
      split
      · exact pres_deriv (catTail s rest) a htail
      · exact ⟨rfl, rfl⟩
  | .Star r, a, h => by
      simp only [deriv]
      exact pres_then _ _ (pres_deriv r a (by simpa [arityOk, notDropped] using h)) h
  | .Or [], a, h => by simp [deriv, arityOk, notDropped]
  | .Or [x], a, h => by simp [deriv, arityOk, notDropped]
  | .Or (r :: s :: rest), a, h => by
      have hall := or_children_ok _ h
      simp only [deriv]
      exact pres_or _ _ (pres_deriv r a (hall r (List.mem_cons_self _ _)))
        (pres_deriv (orTail s rest) a
          (pres_orTail s rest (fun x hx => hall x (List.mem_cons_of_mem _ hx))))
  | .And [], a, h => by simp [deriv, arityOk, notDropped]
  | .And [x], a, h => by simp [deriv, arityOk, notDropped]
  | .And (r :: s :: rest), a, h => by
      have hall := and_children_ok _ h
      simp only [deriv]
      exact pres_and _ _ (pres_deriv r a (hall r (List.mem_cons_self _ _)))
        (pres_deriv (andTail s rest) a
          (pres_andTail s rest (fun x hx => hall x (List.mem_cons_of_mem _ hx))))
  | .Not r, a, h => by
      exact absurd h.2 (by simp [notDropped])
termination_by re => sizeOf re
decreasing_by
  all_goals simp_wf
  all_goals first
    | omega
    | (have h := sizeOf_catTail s rest; omega)
    | (have h := sizeOf_orTail s rest; omega)
    | (have h := sizeOf_andTail s rest; omega)

theorem lang_catTail (s : RegEx) (rest : List RegEx) :
    lang (catTail s rest) = langCat (s :: rest) := by
  cases rest <;> simp [catTail, lang, langCat, mul_one]

theorem lang_orTail (s : RegEx) (rest : List RegEx) :
    lang (orTail s rest) = langOr (s :: rest) := by
  cases rest <;> simp [orTail, lang, langOr, add_zero]

theorem lang_andTail (s : RegEx) (rest : List RegEx) :
    lang (andTail s rest) = langAnd (s :: rest) := by
  cases rest <;> simp [andTail, lang, langAnd, inf_top_eq]

/-- Soundness of the Brzozowski derivative, for `Not`-free trees whose
`Cat`/`Or`/`And` nodes all have at least two children. -/
theorem deriv_lang : ∀ (re : RegEx) (a : Nat),
    arityOk re = true ∧ notDropped re = true →
    ∀ w : List Nat, w ∈ lang (deriv re a) ↔ a :: w ∈ lang re
  | .None, a, h, w => by
    simp [deriv, lang, mem_zero]
  | .Epsilon, a, h, w => by
    simp [deriv, lang, mem_zero, Language.mem_one]
  | .Set s, a, h, w => by
    simp only [deriv]
    split
    · rename_i hc
      rw [show lang RegEx.Epsilon = 1 from rfl, Language.mem_one]
      rw [show lang (RegEx.Set s) = {w | ∃ b, s.contains b = true ∧ w = [b]} from rfl]
      constructor
      · rintro rfl
        exact ⟨a, hc, rfl⟩
      · rintro ⟨b, hb, heq⟩
        injection heq with h1 h2
    · rename_i hc
      rw [show lang RegEx.None = 0 from rfl]
      rw [show lang (RegEx.Set s) = {w | ∃ b, s.contains b = true ∧ w = [b]} from rfl]
      simp only [mem_zero, false_iff]
      rintro ⟨b, hb, heq⟩
      injection heq with h1 h2
      rw [h1] at hc
      exact hc hb
  | .Cat [], a, h, w => by
    exact absurd h.1 (by simp [arityOk])
  | .Cat [x], a, h, w => by
    exact absurd h.1 (by simp [arityOk])
  | .Cat (r :: s :: rest), a, h, w => by
    have hall := cat_children_ok _ h
    have hhd := hall r (List.mem_cons_self _ _)
    have htail := pres_catTail s rest
      (fun x hx => hall x (List.mem_cons_of_mem _ hx))
    have hEq1 : lang (deriv r a) = langDeriv a (lang r) :=
      Set.ext fun w' => (deriv_lang r a hhd w').trans mem_langDeriv.symm
    have hEq2 : lang (deriv (catTail s rest) a) = langDeriv a (langCat (s :: rest)) := by
      have := Set.ext fun w' =>
        (deriv_lang (catTail s rest) a htail w').trans mem_langDeriv.symm
      rwa [lang_catTail] at this
    simp only [deriv]
    rw [mem_lang_or, lang_then, hEq1, lang_catTail]
    rw [show lang (RegEx.Cat (r :: s :: rest)) = lang r * langCat (s :: rest) from rfl]
    rw [show (a :: w ∈ lang r * langCat (s :: rest)) ↔
        w ∈ langDeriv a (lang r * langCat (s :: rest)) from Iff.rfl]
    rw [mem_langDeriv_mul]
    rcases hn : r.is_nullable with _ | _
    · have hnil : ¬ [] ∈ lang r := fun hc => by
        rw [(nullable_iff r).mpr hc] at hn
        cases hn
      simp only [Bool.false_eq_true, if_false]
      rw [show lang RegEx.None = 0 from rfl]
      simp [mem_zero, hnil]
    · have hnil : [] ∈ lang r := (nullable_iff r).mp hn
      simp only [if_true]
      rw [hEq2]
      simp [hnil]
  | .Star r, a, h, w => by
    have hEq1 : lang (deriv r a) = langDeriv a (lang r) :=
      Set.ext fun w' =>
        (deriv_lang r a (by simpa [arityOk, notDropped] using h) w').trans
          mem_langDeriv.symm
    simp only [deriv]
    rw [lang_then, hEq1]
    rw [show lang (RegEx.Star r) = (lang r)∗ from rfl]
    exact mem_langDeriv_kstar.symm
  | .Or [], a, h, w => by
    exact absurd h.1 (by simp [arityOk])
  | .Or [x], a, h, w => by
    exact absurd h.1 (by simp [arityOk])
  | .Or (r :: s :: rest), a, h, w => by
    have hall := or_children_ok _ h
    have hhd := hall r (List.mem_cons_self _ _)
    have htail := pres_orTail s rest
      (fun x hx => hall x (List.mem_cons_of_mem _ hx))
    simp only [deriv]
    rw [mem_lang_or]
    rw [show lang (RegEx.Or (r :: s :: rest)) = lang r + langOr (s :: rest) from rfl,
      Language.mem_add]
    exact or_congr (deriv_lang r a hhd w)
      ((deriv_lang (orTail s rest) a htail w).trans (by rw [lang_orTail]))
  | .And [], a, h, w => by
    exact absurd h.1 (by simp [arityOk])
  | .And [x], a, h, w => by
    exact absurd h.1 (by simp [arityOk])
  | .And (r :: s :: rest), a, h, w => by
    have hall := and_children_ok _ h
    have hhd := hall r (List.mem_cons_self _ _)
    have htail := pres_andTail s rest
      (fun x hx => hall x (List.mem_cons_of_mem _ hx))
    simp only [deriv]
    rw [mem_lang_and _ _ _ (pres_deriv r a hhd).1
      (pres_deriv (andTail s rest) a htail).1]
    rw [show lang (RegEx.And (r :: s :: rest)) = lang r ⊓ langAnd (s :: rest) from rfl,
      mem_inf]
    exact and_congr (deriv_lang r a hhd w)
      ((deriv_lang (andTail s rest) a htail w).trans (by rw [lang_andTail]))
  | .Not r, a, h, w => by
    exact absurd h.2 (by simp [notDropped])
termination_by re => sizeOf re
decreasing_by
  all_goals simp_wf
  all_goals first
    | omega
    | (have h := sizeOf_catTail s rest; omega)
    | (have h := sizeOf_orTail s rest; omega)
    | (have h := sizeOf_andTail s rest; omega)

theorem is_fullmatch_cons (re : RegEx) (b : Nat) (rest : List Nat)
    (hd : re.deriv b ≠ RegEx.None) :
    re.is_fullmatch (b :: rest) = (re.deriv b).is_fullmatch rest := by
  simp only [is_fullmatch]

theorem is_fullmatch_cons_none (re : RegEx) (b : Nat) (rest : List Nat)
    (hd : re.deriv b = RegEx.None) :
    re.is_fullmatch (b :: rest) = false := by
  simp only [is_fullmatch]
  rw [hd]

theorem foldl_deriv_none : ∀ (w : List Nat),
    w.foldl deriv RegEx.None = RegEx.None
  | [] => rfl
  | b :: rest => by
    rw [List.foldl_cons, show deriv RegEx.None b = RegEx.None from rfl]
    exact foldl_deriv_none rest

/-- `is_fullmatch` decides language membership, for `Not`-free trees with
well-formed arities. -/
theorem fullmatch_lang : ∀ (w : List Nat) (re : RegEx),
    arityOk re = true ∧ notDropped re = true →
    (re.is_fullmatch w = true ↔ w ∈ lang re)
  | [], re, h => by
    simp only [is_fullmatch]
    exact (nullable_iff re).symm.symm
  | b :: rest, re, h => by
    have hd := deriv_lang re b h rest
    by_cases hnone : re.deriv b = RegEx.None
    · rw [is_fullmatch_cons_none re b rest hnone]
      rw [hnone] at hd
      constructor
      · intro hc
        cases hc
      · intro hc
        exact absurd (hd.mpr hc) (by simp [lang, mem_zero])
    · rw [is_fullmatch_cons re b rest hnone,
        fullmatch_lang rest (re.deriv b) (pres_deriv re b h)]
      exact hd

/-- `is_fullmatch` agrees with folding `deriv` over the word and testing
nullability, with no side conditions: the `None` early exit is sound because
`None` is absorbing for `deriv`. -/
theorem fullmatch_eq_fold : ∀ (w : List Nat) (re : RegEx),
    re.is_fullmatch w = (w.foldl deriv re).is_nullable
  | [], re => rfl
  | b :: rest, re => by
    by_cases hnone : re.deriv b = RegEx.None
    · rw [is_fullmatch_cons_none re b rest hnone, List.foldl_cons, hnone,
        foldl_deriv_none rest]
      rfl
    · rw [is_fullmatch_cons re b rest hnone, List.foldl_cons]
      exact fullmatch_eq_fold rest (re.deriv b)

/-- Regexes built from the smart constructors, excluding `not`. -/
inductive BuiltNF : RegEx → Prop where
  | none : BuiltNF RegEx.None
  | empty : BuiltNF RegEx.empty
  | set (s : CharSet) : BuiltNF (RegEx.set s)
  | seq {r s : RegEx} : BuiltNF r → BuiltNF s → BuiltNF (r.«then» s)
  | star {r : RegEx} : BuiltNF r → BuiltNF (r.star)
  | or {r s : RegEx} : BuiltNF r → BuiltNF s → BuiltNF (r.or s)
  | and {r s : RegEx} : BuiltNF r → BuiltNF s → BuiltNF (r.and s)

theorem builtNF_ok : ∀ {r : RegEx}, BuiltNF r →
    arityOk r = true ∧ notDropped r = true := by
  intro r h
  induction h with
  | none => exact ⟨rfl, rfl⟩
  | empty => exact ⟨rfl, rfl⟩
  | set s => exact pres_set s
  | seq _ _ ih1 ih2 => exact pres_then _ _ ih1 ih2
  | star _ ih => exact pres_star _ ih
  | or _ _ ih1 ih2 => exact pres_or _ _ ih1 ih2
  | and _ _ ih1 ih2 => exact pres_and _ _ ih1 ih2

end RegEx

/-- C1 (corrected): for every regex built from the smart constructors
excluding `not`, `is_fullmatch` decides membership in the standard language
semantics (`Cat` = concatenation, `Star` = Kleene star, `Or` = union,
`And` = intersection); and, with no restriction at all, `is_fullmatch`
equals `is_nullable` of the fold of `deriv` over the input, the `None`
short-circuit notwithstanding.  The original claim's inclusion of `not`
fails: see the counterexample. -/
theorem claim_C1_derivative_soundness (r : RegEx) (w : List Nat)
    (h : RegEx.BuiltNF r) :
    (r.is_fullmatch w = true ↔ w ∈ RegEx.lang r) ∧
    (∀ (r' : RegEx) (w' : List Nat),
      r'.is_fullmatch w' = (w'.foldl RegEx.deriv r').is_nullable) :=
  ⟨RegEx.fullmatch_lang w r (RegEx.builtNF_ok h),
   fun r' w' => RegEx.fullmatch_eq_fold w' r'⟩

theorem claim_C1_derivative_soundness_witness :
    ((RegEx.set (CharSet.point 5)).is_fullmatch [5] = true ↔
      [5] ∈ RegEx.lang (RegEx.set (CharSet.point 5))) ∧
    (∀ (r' : RegEx) (w' : List Nat),
      r'.is_fullmatch w' = (w'.foldl RegEx.deriv r').is_nullable) :=
  claim_C1_derivative_soundness (RegEx.set (CharSet.point 5)) [5]
    (RegEx.BuiltNF.set (CharSet.point 5))

/-- C1 counterexample: with `not` admitted, `is_fullmatch` does not decide
language membership.  `empty.not() = Not(Epsilon)` has language `{eps}`
complemented, which contains `[0,0,0]`; but `is_fullmatch` returns false,
because `deriv(Not(Epsilon), 0)` rewrites `not(None)` to `Set(universe)`,
a single-character language, instead of the full-string complement. -/
theorem claim_C1_counterexample :
    RegEx.is_fullmatch (RegEx.empty.not) [0, 0, 0] = false ∧
    [0, 0, 0] ∈ RegEx.lang (RegEx.empty.not) := by
  refine ⟨by decide, ?_⟩
  rw [show RegEx.empty.not = RegEx.Not RegEx.Epsilon from rfl]
  rw [show RegEx.lang (RegEx.Not RegEx.Epsilon) =
      (RegEx.lang RegEx.Epsilon)ᶜ from rfl]
  rw [RegEx.mem_compl]
  rw [show RegEx.lang RegEx.Epsilon = 1 from rfl]
  rw [Language.mem_one]
  simp

/-! ## Approximate derivative classes (src/src/dfa/mod.rs)

`dfa/mod.rs` imports the set type under the name `ByteSet` from the crate
root; in this crate that is the 8x32-bit `CharSet` of `char_set.rs` (the
type used by `Operator::Set`).  The `HashSet<ByteSet>` is modelled as a
list whose `collect` deduplicates (`List.dedup`); all properties proved
about it are membership-level and so independent of iteration order. -/

namespace CharSet

/-- The `u32` width invariant of the Rust bitmap words, which a `Nat`
embedding has to carry explicitly. -/
def bounded (s : CharSet) : Bool := s.bitmap.all (fun w => decide (w < 2 ^ 32))

theorem bounded_iff (s : CharSet) :
    s.bounded = true ↔ ∀ w ∈ s.bitmap, w < 2 ^ 32 := by
  simp [bounded]

theorem univ_bounded : univ.bounded = true := by decide

theorem contains_complement (s : CharSet) (b : Nat) (hb : b < 256) :
    s.complement.contains b = !s.contains b := by
  rw [contains_eq_testBit, contains_eq_testBit]
  simp only [complement]
  rw [getD_map_range8, if_pos (by omega)]
  rw [Nat.testBit_xor]
  rw [show wordMask = 2 ^ 32 - 1 from rfl, Nat.testBit_two_pow_sub_one]
  rw [decide_eq_true (show b % 32 < 32 by omega)]
  cases (s.bitmap.getD (b / 32) 0).testBit (b % 32) <;> rfl

theorem intersection_bounded (t s : CharSet) (hs : s.bounded = true) :
    (t.intersection s).bounded = true := by
  rw [bounded_iff]
  intro w hw
  simp only [intersection, List.mem_map, List.mem_range] at hw
  obtain ⟨i, hi, rfl⟩ := hw
  rcases Nat.lt_or_ge i 8 with h8 | h8
  · have hmem : s.bitmap.getD i 0 ∈ s.bitmap := by
      rw [List.getD_eq_getElem _ _ (by rw [s.len8]; exact h8)]
      exact List.getElem_mem _
    exact lt_of_le_of_lt Nat.and_le_right ((bounded_iff s).mp hs _ hmem)
  · rw [getD_eq_zero_of_ge s _ h8]
    simp [Nat.pos_pow_of_pos]

theorem exists_testBit_of_ne_zero (x : Nat) (hx : x < 2 ^ 32) (h : x ≠ 0) :
    ∃ j, j < 32 ∧ x.testBit j = true := by
  by_contra hc
  push_neg at hc
  apply h
  apply Nat.eq_of_testBit_eq
  intro j
  rw [Nat.zero_testBit]
  rcases Nat.lt_or_ge j 32 with hj | hj
  · simpa using hc j hj
  · exact Nat.testBit_lt_two_pow
      (lt_of_lt_of_le hx (Nat.pow_le_pow_right (by norm_num) hj))

theorem exists_contains_of_not_empty (s : CharSet) (hb : s.bounded = true)
    (h : s.is_empty = false) : ∃ b, b < 256 ∧ s.contains b = true := by
  simp only [is_empty] at h
  rw [List.all_eq_false] at h
  obtain ⟨w, hw, hwne⟩ := h
  obtain ⟨i, hi, hgi⟩ := List.mem_iff_getElem.mp hw
  rw [s.len8] at hi
  obtain ⟨j, hj, hbit⟩ := exists_testBit_of_ne_zero w
    ((bounded_iff s).mp hb _ hw) (by simpa using hwne)
  refine ⟨32 * i + j, by omega, ?_⟩
  rw [contains_eq_testBit]
  rw [show (32 * i + j) / 32 = i by omega, show (32 * i + j) % 32 = j by omega]
  rw [List.getD_eq_getElem _ _ (by rw [s.len8]; exact hi), hgi]
  exact hbit

theorem contains_of_is_universe (s : CharSet) (h : s.is_universe = true)
    (b : Nat) (hb : b < 256) : s.contains b = true := by
  rw [contains_eq_testBit]
  have hmem : s.bitmap.getD (b / 32) 0 ∈ s.bitmap := by
    rw [List.getD_eq_getElem _ _ (by rw [s.len8]; omega)]
    exact List.getElem_mem _
  simp only [is_universe, List.all_eq_true] at h
  rw [show s.bitmap.getD (b / 32) 0 = wordMask by simpa using h _ hmem]
  rw [show wordMask = 2 ^ 32 - 1 from rfl, Nat.testBit_two_pow_sub_one]
  exact decide_eq_true (by omega)

theorem is_empty_eq_false_of_contains (s : CharSet) (b : Nat)
    (h : s.contains b = true) : s.is_empty = false := by
  cases he : s.is_empty
  · rfl
  · rw [contains_false_of_is_empty s he b] at h
    cases h

end CharSet

/-- `fn cross(set1, set2)`: the non-empty intersections `t ∩ s` for
`t ∈ set2`, `s ∈ set1`, collected into a `HashSet` (deduplicated). -/
def cross (set1 set2 : List CharSet) : List CharSet :=
  (set2.flatMap (fun t => set1.filterMap (fun s =>
    let u := t.intersection s
    if u.is_empty then none else some u))).dedup

theorem mem_cross (set1 set2 : List CharSet) (u : CharSet) :
    u ∈ cross set1 set2 ↔
      ∃ t ∈ set2, ∃ s ∈ set1, t.intersection s = u ∧
        (t.intersection s).is_empty = false := by
  rw [cross, List.mem_dedup, List.mem_flatMap]
  constructor
  · rintro ⟨t, ht, hu⟩
    rw [List.mem_filterMap] at hu
    obtain ⟨s, hs, heq⟩ := hu
    simp only [] at heq
    split at heq
    · cases heq
    · rename_i hne
      injection heq with heq
      exact ⟨t, ht, s, hs, heq, by simpa using hne⟩
  · rintro ⟨t, ht, s, hs, heq, hne⟩
    refine ⟨t, ht, ?_⟩
    rw [List.mem_filterMap]
    refine ⟨s, hs, ?_⟩
    simp only []
    rw [if_neg (by simp [hne]), heq]

/-- The `Operator::Cat` arm of the ADC loop pushes the leading nullable
children plus the first non-nullable one (the inner `while`/`break`). -/
def catPrefix : List RegEx → List RegEx
  | [] => []
  | r :: rest => if r.is_nullable then r :: catPrefix rest else [r]

/- An executable size function on the operator tree (the derived
`sizeOf` of the nested inductive has no executable code); the ADC loop
terminates because the stack's total size decreases. -/
mutual

def reSize : RegEx → Nat
  | .None => 1
  | .Epsilon => 1
  | .Set _ => 1
  | .Cat l => 1 + reSizeList l
  | .Star r => 1 + reSize r
  | .Or l => 1 + reSizeList l
  | .And l => 1 + reSizeList l
  | .Not r => 1 + reSize r

def reSizeList : List RegEx → Nat
  | [] => 0
  | r :: rest => 1 + reSize r + reSizeList rest

end

theorem reSizeList_append (a b : List RegEx) :
    reSizeList (a ++ b) = reSizeList a + reSizeList b := by
  induction a with
  | nil => simp [reSizeList]
  | cons r rest ih =>
    simp only [List.cons_append, reSizeList, List.append_eq, ih]
    omega

theorem reSizeList_reverse (a : List RegEx) :
    reSizeList a.reverse = reSizeList a := by
  induction a with
  | nil => rfl
  | cons r rest ih =>
    rw [List.reverse_cons, reSizeList_append]
    simp only [reSizeList]
    omega

theorem reSizeList_catPrefix (l : List RegEx) :
    reSizeList (catPrefix l) ≤ reSizeList l := by
  induction l with
  | nil => exact Nat.le_refl 0
  | cons r rest ih =>
    simp only [catPrefix]
    split
    · simp only [reSizeList]
      omega
    · simp only [reSizeList]
      omega

/-- The work loop of `approx_deriv_classes`: a stack of pending nodes and
the accumulated refinement. -/
def adcGo : List RegEx → List CharSet → List CharSet
  | [], charsets => charsets
  | .None :: stack, charsets => adcGo stack charsets
  | .Epsilon :: stack, charsets => adcGo stack charsets
  | .Set s :: stack, charsets =>
    if !s.is_empty && !s.is_universe then
      adcGo stack (cross charsets [s, s.complement])
    else
      adcGo stack charsets
  | .Cat children :: stack, charsets =>
    adcGo ((catPrefix children).reverse ++ stack) charsets
  | .Star child :: stack, charsets => adcGo (child :: stack) charsets
  | .Or children :: stack, charsets =>
    adcGo (children.reverse ++ stack) charsets
  | .And children :: stack, charsets =>
    adcGo (children.reverse ++ stack) charsets
  | .Not child :: stack, charsets => adcGo (child :: stack) charsets
termination_by stack _ => reSizeList stack
decreasing_by
  all_goals simp_wf
  all_goals simp only [reSizeList, reSize, reSizeList_append, reSizeList_reverse]
  all_goals first
    | omega
    | (have h := reSizeList_catPrefix children; omega)

/-- `fn approx_deriv_classes(root)`: stack seeded with the root, charsets
seeded with `{universe}`. -/
def approx_deriv_classes (root : RegEx) : List CharSet :=
  adcGo [root] [CharSet.univ]

unseal adcGo

/-! The derivative of a regex at a byte depends only on which of the
regex's *relevant sets* — exactly the `Set` payloads the ADC traversal
visits — contain the byte.  `relSets` collects them. -/

mutual

def relSets : RegEx → List CharSet
  | .None => []
  | .Epsilon => []
  | .Set s => [s]
  | .Cat l => relSetsCat l
  | .Star r => relSets r
  | .Or l => relSetsAll l
  | .And l => relSetsAll l
  | .Not r => relSets r

def relSetsCat : List RegEx → List CharSet
  | [] => []
  | r :: rest => relSets r ++ (if r.is_nullable then relSetsCat rest else [])

def relSetsAll : List RegEx → List CharSet
  | [] => []
  | r :: rest => relSets r ++ relSetsAll rest

end

theorem relSetsCat_sub_catPrefix (l : List RegEx) (s : CharSet)
    (h : s ∈ relSetsCat l) : ∃ r ∈ catPrefix l, s ∈ relSets r := by
  induction l with
  | nil => cases h
  | cons r rest ih =>
    simp only [relSetsCat] at h
    rcases List.mem_append.mp h with h1 | h1
    · refine ⟨r, ?_, h1⟩
      simp only [catPrefix]
      split
      · exact List.mem_cons_self _ _
      · exact List.mem_singleton.mpr rfl
    · rcases hn : r.is_nullable with _ | _
      · rw [hn] at h1
        simp at h1
      · rw [hn] at h1
        simp only [if_true] at h1
        obtain ⟨r', hr', hs⟩ := ih h1
        refine ⟨r', ?_, hs⟩
        simp only [catPrefix, hn, if_true]
        exact List.mem_cons_of_mem _ hr'

theorem relSetsAll_sub (l : List RegEx) (s : CharSet)
    (h : s ∈ relSetsAll l) : ∃ r ∈ l, s ∈ relSets r := by
  induction l with
  | nil => cases h
  | cons r rest ih =>
    simp only [relSetsAll] at h
    rcases List.mem_append.mp h with h1 | h1
    · exact ⟨r, List.mem_cons_self _ _, h1⟩
    · obtain ⟨r', hr', hs⟩ := ih h1
      exact ⟨r', List.mem_cons_of_mem _ hr', hs⟩

theorem relSets_catTail (s : RegEx) (rest : List RegEx) :
    relSets (RegEx.catTail s rest) = relSetsCat (s :: rest) := by
  cases rest with
  | nil =>
    simp only [RegEx.catTail, relSetsCat, relSets]
    cases s.is_nullable <;> simp
  | cons r' rest' => rfl

theorem relSets_orTail (s : RegEx) (rest : List RegEx) :
    relSets (RegEx.orTail s rest) = relSetsAll (s :: rest) := by
  cases rest with
  | nil => simp [RegEx.orTail, relSetsAll, relSets]
  | cons r' rest' => rfl

theorem relSets_andTail (s : RegEx) (rest : List RegEx) :
    relSets (RegEx.andTail s rest) = relSetsAll (s :: rest) := by
  cases rest with
  | nil => simp [RegEx.andTail, relSetsAll, relSets]
  | cons r' rest' => rfl

/-- Bytes with the same membership pattern across the relevant sets have
structurally equal derivatives. -/
theorem deriv_congr : ∀ (re : RegEx) (a b : Nat),
    (∀ s ∈ relSets re, s.contains a = s.contains b) →
    re.deriv a = re.deriv b
  | .None, a, b, h => rfl
  | .Epsilon, a, b, h => rfl
  | .Set s, a, b, h => by
    simp only [RegEx.deriv]
    rw [h s (List.mem_singleton.mpr rfl)]
  | .Cat [], a, b, h => rfl
  | .Cat [x], a, b, h => rfl
  | .Cat (r :: s :: rest), a, b, h => by
    have h1 : ∀ t ∈ relSets r, t.contains a = t.contains b := fun t ht =>
      h t (List.mem_append_left _ ht)
    simp only [RegEx.deriv]
    rw [deriv_congr r a b h1]
    rcases hn : r.is_nullable with _ | _
    · simp
    · have h2 : ∀ t ∈ relSets (RegEx.catTail s rest),
          t.contains a = t.contains b := by
        intro t ht
        rw [relSets_catTail] at ht
        refine h t ?_
        simp only [relSets, relSetsCat, hn, if_true]
        exact List.mem_append_right _ ht
      rw [if_pos rfl, if_pos rfl, deriv_congr (RegEx.catTail s rest) a b h2]
  | .Star r, a, b, h => by
    simp only [RegEx.deriv]
    rw [deriv_congr r a b h]
  | .Or [], a, b, h => rfl
  | .Or [x], a, b, h => rfl
  | .Or (r :: s :: rest), a, b, h => by
    have h1 : ∀ t ∈ relSets r, t.contains a = t.contains b := fun t ht =>
      h t (List.mem_append_left _ ht)
    have h2 : ∀ t ∈ relSets (RegEx.orTail s rest),
        t.contains a = t.contains b := by
      intro t ht
      rw [relSets_orTail] at ht
      exact h t (List.mem_append_right _ ht)
    simp only [RegEx.deriv]
    rw [deriv_congr r a b h1, deriv_congr (RegEx.orTail s rest) a b h2]
  | .And [], a, b, h => rfl
  | .And [x], a, b, h => rfl
  | .And (r :: s :: rest), a, b, h => by
    have h1 : ∀ t ∈ relSets r, t.contains a = t.contains b := fun t ht =>
      h t (List.mem_append_left _ ht)
    have h2 : ∀ t ∈ relSets (RegEx.andTail s rest),
        t.contains a = t.contains b := by
      intro t ht
      rw [relSets_andTail] at ht
      exact h t (List.mem_append_right _ ht)
    simp only [RegEx.deriv]
    rw [deriv_congr r a b h1, deriv_congr (RegEx.andTail s rest) a b h2]
  | .Not r, a, b, h => by
    simp only [RegEx.deriv]
    rw [deriv_congr r a b h]
termination_by re => sizeOf re
decreasing_by
  all_goals simp_wf
  all_goals first
    | omega
    | (have h9 := RegEx.sizeOf_catTail s rest; omega)
    | (have h9 := RegEx.sizeOf_orTail s rest; omega)
    | (have h9 := RegEx.sizeOf_andTail s rest; omega)

theorem pair_same_of_contains (s t1 t2 : CharSet) (b : Nat) (hb : b < 256)
    (h1 : t1 ∈ [s, s.complement]) (h2 : t2 ∈ [s, s.complement])
    (hb1 : t1.contains b = true) (hb2 : t2.contains b = true) : t1 = t2 := by
  rcases List.mem_pair.mp h1 with h1' | h1' <;>
    rcases List.mem_pair.mp h2 with h2' | h2'
  · rw [h1', h2']
  · exfalso
    rw [h1'] at hb1
    rw [h2', CharSet.contains_complement s b hb, hb1] at hb2
    simp at hb2
  · exfalso
    rw [h2'] at hb2
    rw [h1', CharSet.contains_complement s b hb, hb2] at hb1
    simp at hb1
  · rw [h1', h2']

/-- Invariants of the ADC loop: `adcGo stack cs` preserves that the
charsets are bounded words, non-empty, cover the byte alphabet and are
pairwise disjoint; every output block is contained in an input block;
and every output block is uniform for every relevant set of every stack
entry. -/
theorem adcGo_spec : ∀ (stack : List RegEx) (cs : List CharSet),
    (∀ x ∈ cs, x.bounded = true) →
    (∀ x ∈ cs, x.is_empty = false) →
    (∀ b, b < 256 → ∃ x ∈ cs, x.contains b = true) →
    (∀ x ∈ cs, ∀ y ∈ cs, ∀ b, b < 256 → x.contains b = true →
      y.contains b = true → x = y) →
    (∀ x ∈ adcGo stack cs, x.bounded = true) ∧
    (∀ x ∈ adcGo stack cs, x.is_empty = false) ∧
    (∀ b, b < 256 → ∃ x ∈ adcGo stack cs, x.contains b = true) ∧
    (∀ x ∈ adcGo stack cs, ∀ y ∈ adcGo stack cs, ∀ b, b < 256 →
      x.contains b = true → y.contains b = true → x = y) ∧
    (∀ x ∈ adcGo stack cs, ∃ y ∈ cs, ∀ b, x.contains b = true →
      y.contains b = true) ∧
    (∀ r ∈ stack, ∀ s ∈ relSets r, ∀ x ∈ adcGo stack cs,
      ∀ a, a < 256 → ∀ b, b < 256 → x.contains a = true →
      x.contains b = true → s.contains a = s.contains b)
  | [], cs, hB, hE, hC, hD => by
    simp only [adcGo]
    refine ⟨hB, hE, hC, hD, fun x hx => ⟨x, hx, fun b hb => hb⟩, ?_⟩
    intro r hr
    cases hr
  | .None :: stack, cs, hB, hE, hC, hD => by
    simp only [adcGo]
    obtain ⟨B, E, C, D, S, R⟩ := adcGo_spec stack cs hB hE hC hD
    refine ⟨B, E, C, D, S, ?_⟩
    intro r hr s hs
    rcases List.mem_cons.mp hr with rfl | hr'
    · cases hs
    · exact R r hr' s hs
  | .Epsilon :: stack, cs, hB, hE, hC, hD => by
    simp only [adcGo]
    obtain ⟨B, E, C, D, S, R⟩ := adcGo_spec stack cs hB hE hC hD
    refine ⟨B, E, C, D, S, ?_⟩
    intro r hr s hs
    rcases List.mem_cons.mp hr with rfl | hr'
    · cases hs
    · exact R r hr' s hs
  | .Set s :: stack, cs, hB, hE, hC, hD => by
    simp only [adcGo]
    rcases hcond : (!s.is_empty && !s.is_universe) with _ | _
    · simp only [Bool.false_eq_true, if_false]
      have hconst : s.is_empty = true ∨ s.is_universe = true := by
        revert hcond
        cases s.is_empty <;> cases s.is_universe <;> simp
      obtain ⟨B, E, C, D, S, R⟩ := adcGo_spec stack cs hB hE hC hD
      refine ⟨B, E, C, D, S, ?_⟩
      intro r hr s' hs'
      rcases List.mem_cons.mp hr with rfl | hr'
      · rw [List.mem_singleton.mp hs']
        intro x hx a ha b hb hxa hxb
        rcases hconst with hemp | huniv
        · rw [CharSet.contains_false_of_is_empty s hemp a,
            CharSet.contains_false_of_is_empty s hemp b]
        · rw [CharSet.contains_of_is_universe s huniv a ha,
            CharSet.contains_of_is_universe s huniv b hb]
      · exact R r hr' s' hs'
    · simp only [if_true]
      have hB' : ∀ x ∈ cross cs [s, s.complement], x.bounded = true := by
        intro x hx
        obtain ⟨t, ht, y, hy, heq, hne⟩ := (mem_cross cs _ x).mp hx
        rw [← heq]
        exact CharSet.intersection_bounded t y (hB y hy)
      have hE' : ∀ x ∈ cross cs [s, s.complement], x.is_empty = false := by
        intro x hx
        obtain ⟨t, ht, y, hy, heq, hne⟩ := (mem_cross cs _ x).mp hx
        rw [← heq]
        exact hne
      have hC' : ∀ b, b < 256 → ∃ x ∈ cross cs [s, s.complement],
          x.contains b = true := by
        intro b hb
        obtain ⟨y, hy, hyb⟩ := hC b hb
        rcases hsb : s.contains b with _ | _
        · refine ⟨s.complement.intersection y, ?_, ?_⟩
          · refine (mem_cross cs _ _).mpr
              ⟨s.complement, by simp [List.mem_pair], y, hy, rfl, ?_⟩
            refine CharSet.is_empty_eq_false_of_contains _ b ?_
            rw [CharSet.contains_intersection,
              CharSet.contains_complement s b hb, hsb, hyb]
            rfl
          · rw [CharSet.contains_intersection,
              CharSet.contains_complement s b hb, hsb, hyb]
            rfl
        · refine ⟨s.intersection y, ?_, ?_⟩
          · refine (mem_cross cs _ _).mpr
              ⟨s, by simp [List.mem_pair], y, hy, rfl, ?_⟩
            refine CharSet.is_empty_eq_false_of_contains _ b ?_
            rw [CharSet.contains_intersection, hsb, hyb]
            rfl
          · rw [CharSet.contains_intersection, hsb, hyb]
            rfl
      have hD' : ∀ x ∈ cross cs [s, s.complement],
          ∀ y ∈ cross cs [s, s.complement], ∀ b, b < 256 →
          x.contains b = true → y.contains b = true → x = y := by
        intro x hx y hy b hb hxb hyb
        obtain ⟨t1, ht1, x1, hx1, heq1, hne1⟩ := (mem_cross cs _ x).mp hx
        obtain ⟨t2, ht2, x2, hx2, heq2, hne2⟩ := (mem_cross cs _ y).mp hy
        rw [← heq1, CharSet.contains_intersection] at hxb
        rw [← heq2, CharSet.contains_intersection] at hyb
        obtain ⟨htb1, hxb1⟩ := Bool.and_eq_true_iff.mp hxb
        obtain ⟨htb2, hxb2⟩ := Bool.and_eq_true_iff.mp hyb
        have hteq := pair_same_of_contains s t1 t2 b hb ht1 ht2 htb1 htb2
        have hxeq := hD x1 hx1 x2 hx2 b hb hxb1 hxb2
        rw [← heq1, ← heq2, hteq, hxeq]
      obtain ⟨B, E, C, D, S, R⟩ :=
        adcGo_spec stack (cross cs [s, s.complement]) hB' hE' hC' hD'
      refine ⟨B, E, C, D, ?_, ?_⟩
      · intro x hx
        obtain ⟨y', hy', hsub⟩ := S x hx
        obtain ⟨t, ht, y, hy, heq, hne⟩ := (mem_cross cs _ y').mp hy'
        refine ⟨y, hy, fun b hbx => ?_⟩
        have := hsub b hbx
        rw [← heq, CharSet.contains_intersection] at this
        exact (Bool.and_eq_true_iff.mp this).2
      · intro r hr s' hs'
        rcases List.mem_cons.mp hr with rfl | hr'
        · rw [List.mem_singleton.mp hs']
          intro x hx a ha b hb hxa hxb
          obtain ⟨y', hy', hsub⟩ := S x hx
          obtain ⟨t, ht, y, hy, heq, hne⟩ := (mem_cross cs _ y').mp hy'
          have hta : t.contains a = true := by
            have := hsub a hxa
            rw [← heq, CharSet.contains_intersection] at this
            exact (Bool.and_eq_true_iff.mp this).1
          have htb : t.contains b = true := by
            have := hsub b hxb
            rw [← heq, CharSet.contains_intersection] at this
            exact (Bool.and_eq_true_iff.mp this).1
          rcases List.mem_pair.mp ht with rfl | rfl
          · rw [hta, htb]
          · rw [CharSet.contains_complement s a ha] at hta
            rw [CharSet.contains_complement s b hb] at htb
            rcases hsa : s.contains a with _ | _
            · rcases hsb : s.contains b with _ | _
              · rfl
              · rw [hsb] at htb
                simp at htb
            · rw [hsa] at hta
              simp at hta
        · exact R r hr' s' hs'
  | .Cat children :: stack, cs, hB, hE, hC, hD => by
    simp only [adcGo]
    obtain ⟨B, E, C, D, S, R⟩ :=
      adcGo_spec ((catPrefix children).reverse ++ stack) cs hB hE hC hD
    refine ⟨B, E, C, D, S, ?_⟩
    intro r hr s hs
    rcases List.mem_cons.mp hr with rfl | hr'
    · obtain ⟨r', hr', hsr⟩ := relSetsCat_sub_catPrefix children s hs
      exact R r' (List.mem_append_left _ (List.mem_reverse.mpr hr')) s hsr
    · exact R r (List.mem_append_right _ hr') s hs
  | .Star child :: stack, cs, hB, hE, hC, hD => by
    simp only [adcGo]
    obtain ⟨B, E, C, D, S, R⟩ := adcGo_spec (child :: stack) cs hB hE hC hD
    refine ⟨B, E, C, D, S, ?_⟩
    intro r hr s hs
    rcases List.mem_cons.mp hr with rfl | hr'
    · exact R child (List.mem_cons_self _ _) s hs
    · exact R r (List.mem_cons_of_mem _ hr') s hs
  | .Or children :: stack, cs, hB, hE, hC, hD => by
    simp only [adcGo]
    obtain ⟨B, E, C, D, S, R⟩ :=
      adcGo_spec (children.reverse ++ stack) cs hB hE hC hD
    refine ⟨B, E, C, D, S, ?_⟩
    intro r hr s hs
    rcases List.mem_cons.mp hr with rfl | hr'
    · obtain ⟨r', hr', hsr⟩ := relSetsAll_sub children s hs
      exact R r' (List.mem_append_left _ (List.mem_reverse.mpr hr')) s hsr
    · exact R r (List.mem_append_right _ hr') s hs
  | .And children :: stack, cs, hB, hE, hC, hD => by
    simp only [adcGo]
    obtain ⟨B, E, C, D, S, R⟩ :=
      adcGo_spec (children.reverse ++ stack) cs hB hE hC hD
    refine ⟨B, E, C, D, S, ?_⟩
    intro r hr s hs
    rcases List.mem_cons.mp hr with rfl | hr'
    · obtain ⟨r', hr', hsr⟩ := relSetsAll_sub children s hs
      exact R r' (List.mem_append_left _ (List.mem_reverse.mpr hr')) s hsr
    · exact R r (List.mem_append_right _ hr') s hs
  | .Not child :: stack, cs, hB, hE, hC, hD => by
    simp only [adcGo]
    obtain ⟨B, E, C, D, S, R⟩ := adcGo_spec (child :: stack) cs hB hE hC hD
    refine ⟨B, E, C, D, S, ?_⟩
    intro r hr s hs
    rcases List.mem_cons.mp hr with rfl | hr'
    · exact R child (List.mem_cons_self _ _) s hs
    · exact R r (List.mem_cons_of_mem _ hr') s hs
termination_by stack _ => reSizeList stack
decreasing_by
  all_goals simp_wf
  all_goals simp only [reSizeList, reSize, reSizeList_append, reSizeList_reverse]
  all_goals first
    | omega
    | (have h9 := reSizeList_catPrefix children; omega)

/-- C5: for every canonical regex, `approx_deriv_classes` is a partition
of the byte alphabet `{0..255}` — every block holds a byte, every byte is
in a block, and distinct blocks are disjoint — and any two bytes of one
block have structurally equal derivatives. -/
theorem claim_C5_adc_partition (r : RegEx) (hcan : RegEx.isCanonical r = true) :
    (∀ x ∈ approx_deriv_classes r, ∃ b, b < 256 ∧ x.contains b = true) ∧
    (∀ b, b < 256 → ∃ x ∈ approx_deriv_classes r, x.contains b = true) ∧
    (∀ x ∈ approx_deriv_classes r, ∀ y ∈ approx_deriv_classes r,
      x = y ∨ ∀ b, b < 256 → ¬(x.contains b = true ∧ y.contains b = true)) ∧
    (∀ x ∈ approx_deriv_classes r, ∀ a b, a < 256 → b < 256 →
      x.contains a = true → x.contains b = true → r.deriv a = r.deriv b) := by
  simp only [approx_deriv_classes]
  have hB : ∀ x ∈ [CharSet.univ], x.bounded = true := by
    intro x hx
    rw [List.mem_singleton.mp hx]
    exact CharSet.univ_bounded
  have hE : ∀ x ∈ [CharSet.univ], x.is_empty = false := by
    intro x hx
    rw [List.mem_singleton.mp hx]
    decide
  have hC : ∀ b, b < 256 → ∃ x ∈ [CharSet.univ], x.contains b = true := by
    intro b hb
    exact ⟨CharSet.univ, List.mem_singleton.mpr rfl,
      CharSet.contains_of_is_universe _ (by decide) b hb⟩
  have hD : ∀ x ∈ [CharSet.univ], ∀ y ∈ [CharSet.univ], ∀ b, b < 256 →
      x.contains b = true → y.contains b = true → x = y := by
    intro x hx y hy b hb h1 h2
    rw [List.mem_singleton.mp hx, List.mem_singleton.mp hy]
  obtain ⟨B, E, C, D, S, R⟩ := adcGo_spec [r] [CharSet.univ] hB hE hC hD
  refine ⟨?_, C, ?_, ?_⟩
  · intro x hx
    exact CharSet.exists_contains_of_not_empty x (B x hx) (E x hx)
  · intro x hx y hy
    by_cases hxy : x = y
    · exact Or.inl hxy
    · refine Or.inr fun b hb h => hxy (D x hx y hy b hb h.1 h.2)
  · intro x hx a b ha hb hxa hxb
    exact deriv_congr r a b
      (fun s hs => R r (List.mem_singleton.mpr rfl) s hs x hx a ha b hb hxa hxb)

theorem claim_C5_adc_partition_witness :
    RegEx.isCanonical (RegEx.Set (CharSet.point 5)) = true ∧
    ((∀ x ∈ approx_deriv_classes (RegEx.Set (CharSet.point 5)),
        ∃ b, b < 256 ∧ x.contains b = true) ∧
     (∀ b, b < 256 → ∃ x ∈ approx_deriv_classes (RegEx.Set (CharSet.point 5)),
        x.contains b = true) ∧
     (∀ x ∈ approx_deriv_classes (RegEx.Set (CharSet.point 5)),
        ∀ y ∈ approx_deriv_classes (RegEx.Set (CharSet.point 5)),
        x = y ∨ ∀ b, b < 256 → ¬(x.contains b = true ∧ y.contains b = true)) ∧
     (∀ x ∈ approx_deriv_classes (RegEx.Set (CharSet.point 5)),
        ∀ a b, a < 256 → b < 256 → x.contains a = true → x.contains b = true →
        (RegEx.Set (CharSet.point 5)).deriv a = (RegEx.Set (CharSet.point 5)).deriv b)) :=
  ⟨by decide, claim_C5_adc_partition (RegEx.Set (CharSet.point 5)) (by decide)⟩

/-! ## Lex tables and the maximal-munch scanner (src/src/table.rs, src/src/scan.rs)

The `LexTable` trait is modelled as a structure of functions (`class` is a
Lean keyword, so the trait's `class` method is named `classOf`);
`START_STATE = 0`.  A token `Token { class, span: p..q }` is carried as the
`tok` constructor's `cls p q` fields, together with the class's command. -/

/-- `Command` (src/src/table.rs). -/
inductive Command where
  | Skip : Command
  | Emit : Command
deriving DecidableEq

/-- The `LexTable` trait: `step`, `class` (here `classOf`), `sink`,
`command`. -/
structure LexTable where
  step : Nat → Nat → Nat
  classOf : Nat → Option Nat
  sink : Nat
  command : Nat → Command

/-- `usize::MAX`. -/
def usizeMax : Nat := 2 ^ 64 - 1

/-- The local state of `Scan::next`'s inner `for` loop: `state`, `index`,
`last_accept_state`, `last_accept_index`. -/
structure SimState where
  st : Nat
  idx : Nat
  las : Nat
  lai : Nat
deriving DecidableEq

/-- The inner `for byte in input[self.index..]` loop of `Scan::next`:
break on the sink, record the last accepting state and its index, step. -/
def simulate (T : LexTable) : SimState → List Nat → SimState
  | s, [] => s
  | s, b :: rest =>
    if s.st = T.sink then s
    else
      let s' := if (T.classOf s.st).isSome then
          { s with las := s.st, lai := s.idx } else s
      simulate T { st := T.step s'.st b, idx := s'.idx + 1,
                   las := s'.las, lai := s'.lai } rest

/-- One iteration of `Scan::next`'s outer `while` loop (for
`self.index < input.len()`): a match (token `cls`, span `p..q`, with the
class's command deciding emit/skip) or a scan error at `p`. -/
inductive ScanStep where
  | tok (cls p q : Nat) (cmd : Command) : ScanStep
  | fail (p : Nat) : ScanStep
deriving DecidableEq

/-- One munch attempt from position `i`. -/
def scanStep (T : LexTable) (input : List Nat) (i : Nat) : ScanStep :=
  let r := simulate T ⟨0, i, T.sink, 0⟩ (input.drop i)
  match T.classOf r.st with
  | some cls => ScanStep.tok cls i r.idx (T.command cls)
  | none =>
    match T.classOf r.las with
    | some cls => ScanStep.tok cls i r.lai (T.command cls)
    | none => ScanStep.fail i

/-- Where `self.index` is left after a loop iteration (`usize::MAX` after
an error, which forces the iterator to finish). -/
def nextIndex : ScanStep → Nat
  | .tok _ _ q _ => q
  | .fail _ => usizeMax

/-- The full trace of `Scan` over `input`: the sequence of loop
iterations (emitted tokens, skipped tokens and the final error, if any).
The public iterator output is this trace with `Skip` matches removed;
`fuel` bounds the number of iterations (the termination claim shows any
`fuel > input.length` yields the same trace). -/
def scanTrace (T : LexTable) (input : List Nat) : Nat → Nat → List ScanStep
  | 0, _ => []
  | fuel + 1, i =>
    if i < input.length then
      let s := scanStep T input i
      s :: scanTrace T input fuel (nextIndex s)
    else []

/-- Stepping the table from `state` over a byte string (the DFA run that
`Scan`'s inner loop performs incrementally). -/
def runFrom (T : LexTable) (state : Nat) (bytes : List Nat) : Nat :=
  bytes.foldl T.step state

/-- Scan items are contiguous from `i` and stop exactly at `len`, except
that an error truncates the trace (and is last). -/
def contiguousTo (len : Nat) : Nat → List ScanStep → Bool
  | i, [] => i == len
  | i, .tok _ p q _ :: rest => p == i && decide (q ≤ len) && contiguousTo len q rest
  | i, .fail p :: rest => p == i && rest.isEmpty

/-- Every match has a non-empty span `[i, q)` inside the input and the
position strictly increases; an error is final. -/
def progressive (len : Nat) : Nat → List ScanStep → Bool
  | _, [] => true
  | i, .tok _ p q _ :: rest =>
    p == i && decide (i < q) && decide (q ≤ len) && progressive len q rest
  | i, .fail p :: rest => p == i && rest.isEmpty

theorem runFrom_append (T : LexTable) (st : Nat) (l1 l2 : List Nat) :
    runFrom T st (l1 ++ l2) = runFrom T (runFrom T st l1) l2 :=
  List.foldl_append _ _ _ _

theorem runFrom_sink (T : LexTable) (habsorb : ∀ b, T.step T.sink b = T.sink) :
    ∀ l : List Nat, runFrom T T.sink l = T.sink
  | [] => rfl
  | b :: rest => by
    rw [show runFrom T T.sink (b :: rest) = runFrom T (T.step T.sink b) rest
      from rfl, habsorb b]
    exact runFrom_sink T habsorb rest

theorem simulate_idx_le (T : LexTable) : ∀ (bytes : List Nat) (st idx las lai : Nat),
    idx ≤ (simulate T ⟨st, idx, las, lai⟩ bytes).idx ∧
    (simulate T ⟨st, idx, las, lai⟩ bytes).idx ≤ idx + bytes.length
  | [], st, idx, las, lai => by simp [simulate]
  | b :: rest, st, idx, las, lai => by
    rcases eq_or_ne st T.sink with hsink | hsink
    · simp [simulate, hsink]
    · rcases hacc : (T.classOf st).isSome with _ | _
      · have hr : simulate T ⟨st, idx, las, lai⟩ (b :: rest) =
            simulate T ⟨T.step st b, idx + 1, las, lai⟩ rest := by
          simp [simulate, hsink, hacc]
        rw [hr]
        have h := simulate_idx_le T rest (T.step st b) (idx + 1) las lai
        simp only [List.length_cons]
        omega
      · have hr : simulate T ⟨st, idx, las, lai⟩ (b :: rest) =
            simulate T ⟨T.step st b, idx + 1, st, idx⟩ rest := by
          simp [simulate, hsink, hacc]
        rw [hr]
        have h := simulate_idx_le T rest (T.step st b) (idx + 1) st idx
        simp only [List.length_cons]
        omega

theorem simulate_st (T : LexTable) : ∀ (bytes : List Nat) (st idx las lai : Nat),
    (simulate T ⟨st, idx, las, lai⟩ bytes).st =
      runFrom T st (bytes.take ((simulate T ⟨st, idx, las, lai⟩ bytes).idx - idx))
  | [], st, idx, las, lai => by simp [simulate, runFrom]
  | b :: rest, st, idx, las, lai => by
    rcases eq_or_ne st T.sink with hsink | hsink
    · simp [simulate, hsink, runFrom]
    · rcases hacc : (T.classOf st).isSome with _ | _
      · have hr : simulate T ⟨st, idx, las, lai⟩ (b :: rest) =
            simulate T ⟨T.step st b, idx + 1, las, lai⟩ rest := by
          simp [simulate, hsink, hacc]
        rw [hr]
        have hle := (simulate_idx_le T rest (T.step st b) (idx + 1) las lai).1
        have ih := simulate_st T rest (T.step st b) (idx + 1) las lai
        rw [ih, show (simulate T ⟨T.step st b, idx + 1, las, lai⟩ rest).idx - idx =
          ((simulate T ⟨T.step st b, idx + 1, las, lai⟩ rest).idx - (idx + 1)) + 1
          from by omega, List.take_succ_cons]
        rfl
      · have hr : simulate T ⟨st, idx, las, lai⟩ (b :: rest) =
            simulate T ⟨T.step st b, idx + 1, st, idx⟩ rest := by
          simp [simulate, hsink, hacc]
        rw [hr]
        have hle := (simulate_idx_le T rest (T.step st b) (idx + 1) st idx).1
        have ih := simulate_st T rest (T.step st b) (idx + 1) st idx
        rw [ih, show (simulate T ⟨T.step st b, idx + 1, st, idx⟩ rest).idx - idx =
          ((simulate T ⟨T.step st b, idx + 1, st, idx⟩ rest).idx - (idx + 1)) + 1
          from by omega, List.take_succ_cons]
        rfl

theorem simulate_early (T : LexTable) : ∀ (bytes : List Nat) (st idx las lai : Nat),
    (simulate T ⟨st, idx, las, lai⟩ bytes).idx < idx + bytes.length →
    (simulate T ⟨st, idx, las, lai⟩ bytes).st = T.sink
  | [], st, idx, las, lai => by
    intro h
    exact absurd h (by simp [simulate])
  | b :: rest, st, idx, las, lai => by
    rcases eq_or_ne st T.sink with hsink | hsink
    · intro _
      simp [simulate, hsink]
    · rcases hacc : (T.classOf st).isSome with _ | _
      · have hr : simulate T ⟨st, idx, las, lai⟩ (b :: rest) =
            simulate T ⟨T.step st b, idx + 1, las, lai⟩ rest := by
          simp [simulate, hsink, hacc]
        rw [hr]
        intro h
        refine simulate_early T rest (T.step st b) (idx + 1) las lai ?_
        simp only [List.length_cons] at h
        omega
      · have hr : simulate T ⟨st, idx, las, lai⟩ (b :: rest) =
            simulate T ⟨T.step st b, idx + 1, st, idx⟩ rest := by
          simp [simulate, hsink, hacc]
        rw [hr]
        intro h
        refine simulate_early T rest (T.step st b) (idx + 1) st idx ?_
        simp only [List.length_cons] at h
        omega

theorem simulate_las (T : LexTable) : ∀ (bytes : List Nat) (st idx las lai : Nat),
    ((simulate T ⟨st, idx, las, lai⟩ bytes).las = las ∧
     (simulate T ⟨st, idx, las, lai⟩ bytes).lai = lai) ∨
    ((T.classOf (simulate T ⟨st, idx, las, lai⟩ bytes).las).isSome = true ∧
     idx ≤ (simulate T ⟨st, idx, las, lai⟩ bytes).lai ∧
     (simulate T ⟨st, idx, las, lai⟩ bytes).lai <
       (simulate T ⟨st, idx, las, lai⟩ bytes).idx ∧
     (simulate T ⟨st, idx, las, lai⟩ bytes).las =
       runFrom T st (bytes.take
         ((simulate T ⟨st, idx, las, lai⟩ bytes).lai - idx)))
  | [], st, idx, las, lai => Or.inl ⟨rfl, rfl⟩
  | b :: rest, st, idx, las, lai => by
    rcases eq_or_ne st T.sink with hsink | hsink
    · left
      constructor <;> simp [simulate, hsink]
    · rcases hacc : (T.classOf st).isSome with _ | _
      · have hr : simulate T ⟨st, idx, las, lai⟩ (b :: rest) =
            simulate T ⟨T.step st b, idx + 1, las, lai⟩ rest := by
          simp [simulate, hsink, hacc]
        rw [hr]
        have hle := (simulate_idx_le T rest (T.step st b) (idx + 1) las lai).1
        rcases simulate_las T rest (T.step st b) (idx + 1) las lai with
          ⟨h1, h2⟩ | ⟨h1, h2, h3, h4⟩
        · exact Or.inl ⟨h1, h2⟩
        · refine Or.inr ⟨h1, by omega, h3, ?_⟩
          rw [show (simulate T ⟨T.step st b, idx + 1, las, lai⟩ rest).lai - idx =
            ((simulate T ⟨T.step st b, idx + 1, las, lai⟩ rest).lai - (idx + 1)) + 1
            from by omega, List.take_succ_cons]
          exact h4
      · have hr : simulate T ⟨st, idx, las, lai⟩ (b :: rest) =
            simulate T ⟨T.step st b, idx + 1, st, idx⟩ rest := by
          simp [simulate, hsink, hacc]
        rw [hr]
        have hle := (simulate_idx_le T rest (T.step st b) (idx + 1) st idx).1
        rcases simulate_las T rest (T.step st b) (idx + 1) st idx with
          ⟨h1, h2⟩ | ⟨h1, h2, h3, h4⟩
        · refine Or.inr ⟨by rw [h1]; exact hacc, by omega, by omega, ?_⟩
          rw [h1, h2, Nat.sub_self, List.take_zero]
          rfl
        · refine Or.inr ⟨h1, by omega, h3, ?_⟩
          rw [show (simulate T ⟨T.step st b, idx + 1, st, idx⟩ rest).lai - idx =
            ((simulate T ⟨T.step st b, idx + 1, st, idx⟩ rest).lai - (idx + 1)) + 1
            from by omega, List.take_succ_cons]
          exact h4

theorem simulate_longest (T : LexTable) : ∀ (bytes : List Nat) (st idx las lai : Nat)
    (j : Nat),
    j < (simulate T ⟨st, idx, las, lai⟩ bytes).idx - idx →
    (T.classOf (runFrom T st (bytes.take j))).isSome = true →
    (T.classOf (simulate T ⟨st, idx, las, lai⟩ bytes).las).isSome = true ∧
    idx + j ≤ (simulate T ⟨st, idx, las, lai⟩ bytes).lai
  | [], st, idx, las, lai, j => by
    intro hj _
    exact absurd hj (by simp [simulate])
  | b :: rest, st, idx, las, lai, j => by
    rcases eq_or_ne st T.sink with hsink | hsink
    · intro hj _
      exact absurd hj (by simp [simulate, hsink])
    · rcases hacc : (T.classOf st).isSome with _ | _
      · have hr : simulate T ⟨st, idx, las, lai⟩ (b :: rest) =
            simulate T ⟨T.step st b, idx + 1, las, lai⟩ rest := by
          simp [simulate, hsink, hacc]
        rw [hr]
        have hle := (simulate_idx_le T rest (T.step st b) (idx + 1) las lai).1
        intro hj hja
        cases j with
        | zero =>
          rw [List.take_zero, show runFrom T st [] = st from rfl, hacc] at hja
          cases hja
        | succ j' =>
          rw [List.take_succ_cons] at hja
          have := simulate_longest T rest (T.step st b) (idx + 1) las lai j'
            (by omega) hja
          exact ⟨this.1, by omega⟩
      · have hr : simulate T ⟨st, idx, las, lai⟩ (b :: rest) =
            simulate T ⟨T.step st b, idx + 1, st, idx⟩ rest := by
          simp [simulate, hsink, hacc]
        rw [hr]
        have hle := (simulate_idx_le T rest (T.step st b) (idx + 1) st idx).1
        intro hj hja
        cases j with
        | zero =>
          rcases simulate_las T rest (T.step st b) (idx + 1) st idx with
            ⟨h1, h2⟩ | ⟨h1, h2, h3, h4⟩
          · exact ⟨by rw [h1]; exact hacc, by omega⟩
          · exact ⟨h1, by omega⟩
        | succ j' =>
          rw [List.take_succ_cons] at hja
          have := simulate_longest T rest (T.step st b) (idx + 1) st idx j'
            (by omega) hja
          exact ⟨this.1, by omega⟩

theorem scanStep_fail_spec (T : LexTable) (input : List Nat) (i : Nat) :
    ∀ p, scanStep T input i = ScanStep.fail p → p = i := by
  intro p h
  rcases hst : T.classOf (simulate T ⟨0, i, T.sink, 0⟩ (input.drop i)).st with _ | c1
  · rcases hls : T.classOf (simulate T ⟨0, i, T.sink, 0⟩ (input.drop i)).las with _ | c2
    · rw [show scanStep T input i = ScanStep.fail i from by
        simp [scanStep, hst, hls]] at h
      injection h with h1
      exact h1.symm
    · rw [show scanStep T input i = ScanStep.tok c2 i
        (simulate T ⟨0, i, T.sink, 0⟩ (input.drop i)).lai (T.command c2) from by
        simp [scanStep, hst, hls]] at h
      cases h
  · rw [show scanStep T input i = ScanStep.tok c1 i
      (simulate T ⟨0, i, T.sink, 0⟩ (input.drop i)).idx (T.command c1) from by
      simp [scanStep, hst]] at h
    cases h

theorem scanStep_tok_spec (T : LexTable) (hstart : T.classOf 0 = none)
    (hsink : T.classOf T.sink = none) (input : List Nat) (i : Nat)
    (hi : i < input.length) :
    ∀ cls p q cmd, scanStep T input i = ScanStep.tok cls p q cmd →
      p = i ∧ i < q ∧ q ≤ input.length := by
  intro cls p q cmd h
  have hidx := simulate_idx_le T (input.drop i) 0 i T.sink 0
  rw [List.length_drop] at hidx
  rcases hst : T.classOf (simulate T ⟨0, i, T.sink, 0⟩ (input.drop i)).st with _ | c1
  · rcases hls : T.classOf (simulate T ⟨0, i, T.sink, 0⟩ (input.drop i)).las with _ | c2
    · rw [show scanStep T input i = ScanStep.fail i from by
        simp [scanStep, hst, hls]] at h
      cases h
    · rw [show scanStep T input i = ScanStep.tok c2 i
        (simulate T ⟨0, i, T.sink, 0⟩ (input.drop i)).lai (T.command c2) from by
        simp [scanStep, hst, hls]] at h
      injection h with h1 h2 h3 h4
      rcases simulate_las T (input.drop i) 0 i T.sink 0 with
        ⟨hA, hB⟩ | ⟨hA, hB, hC, hD⟩
      · rw [hA, hsink] at hls
        cases hls
      · refine ⟨h2.symm, ?_, ?_⟩
        · rcases Nat.lt_or_ge i (simulate T ⟨0, i, T.sink, 0⟩ (input.drop i)).lai
            with hlt | hge
          · omega
          · exfalso
            have hlai : (simulate T ⟨0, i, T.sink, 0⟩ (input.drop i)).lai = i := by
              omega
            rw [hlai, Nat.sub_self, List.take_zero,
              show runFrom T 0 [] = 0 from rfl] at hD
            rw [hD, hstart] at hls
            cases hls
        · omega
  · rw [show scanStep T input i = ScanStep.tok c1 i
      (simulate T ⟨0, i, T.sink, 0⟩ (input.drop i)).idx (T.command c1) from by
      simp [scanStep, hst]] at h
    injection h with h1 h2 h3 h4
    refine ⟨h2.symm, ?_, by omega⟩
    rcases Nat.lt_or_ge i (simulate T ⟨0, i, T.sink, 0⟩ (input.drop i)).idx
      with hlt | hge
    · omega
    · exfalso
      have hieq : (simulate T ⟨0, i, T.sink, 0⟩ (input.drop i)).idx = i := by omega
      have hstv := simulate_st T (input.drop i) 0 i T.sink 0
      rw [hieq, Nat.sub_self, List.take_zero,
        show runFrom T 0 [] = 0 from rfl] at hstv
      rw [hstv, hstart] at hst
      cases hst

theorem scanStep_tok_longest (T : LexTable) (hstart : T.classOf 0 = none)
    (hsink : T.classOf T.sink = none)
    (habsorb : ∀ b, T.step T.sink b = T.sink) (input : List Nat) (i : Nat)
    (hi : i < input.length) :
    ∀ cls p q cmd, scanStep T input i = ScanStep.tok cls p q cmd →
      (T.classOf (runFrom T 0 ((input.drop i).take (q - i)))).isSome = true ∧
      ∀ q', q < q' → q' ≤ input.length →
        (T.classOf (runFrom T 0 ((input.drop i).take (q' - i)))).isSome = false := by
  intro cls p q cmd h
  have hidx := simulate_idx_le T (input.drop i) 0 i T.sink 0
  rw [List.length_drop] at hidx
  have hspec := scanStep_tok_spec T hstart hsink input i hi cls p q cmd h
  rcases hst : T.classOf (simulate T ⟨0, i, T.sink, 0⟩ (input.drop i)).st with _ | c1
  · rcases hls : T.classOf (simulate T ⟨0, i, T.sink, 0⟩ (input.drop i)).las with _ | c2
    · rw [show scanStep T input i = ScanStep.fail i from by
        simp [scanStep, hst, hls]] at h
      cases h
    · rw [show scanStep T input i = ScanStep.tok c2 i
        (simulate T ⟨0, i, T.sink, 0⟩ (input.drop i)).lai (T.command c2) from by
        simp [scanStep, hst, hls]] at h
      injection h with h1 h2 h3 h4
      rcases simulate_las T (input.drop i) 0 i T.sink 0 with
        ⟨hA, hB⟩ | ⟨hA, hB, hC, hD⟩
      · rw [hA, hsink] at hls
        cases hls
      · constructor
        · rw [← h3, ← hD]
          rw [hls]
          rfl
        · intro q' hq' hq'len
          rcases Nat.lt_trichotomy q' (simulate T ⟨0, i, T.sink, 0⟩ (input.drop i)).idx
            with hlt | heq | hgt
          · rcases hq : (T.classOf (runFrom T 0 ((input.drop i).take (q' - i)))).isSome
              with _ | _
            · rfl
            · exfalso
              have := simulate_longest T (input.drop i) 0 i T.sink 0 (q' - i)
                (by omega) hq
              omega
          · rw [show q' - i = (simulate T ⟨0, i, T.sink, 0⟩ (input.drop i)).idx - i
              from by omega]
            rw [← simulate_st T (input.drop i) 0 i T.sink 0, hst]
            rfl
          · have hearly := simulate_early T (input.drop i) 0 i T.sink 0
              (by rw [List.length_drop]; omega)
            rw [show q' - i = ((simulate T ⟨0, i, T.sink, 0⟩ (input.drop i)).idx - i) +
              (q' - (simulate T ⟨0, i, T.sink, 0⟩ (input.drop i)).idx) from by omega]
            rw [List.take_add, runFrom_append,
              ← simulate_st T (input.drop i) 0 i T.sink 0, hearly,
              runFrom_sink T habsorb, hsink]
            rfl
  · rw [show scanStep T input i = ScanStep.tok c1 i
      (simulate T ⟨0, i, T.sink, 0⟩ (input.drop i)).idx (T.command c1) from by
      simp [scanStep, hst]] at h
    injection h with h1 h2 h3 h4
    constructor
    · rw [← h3, ← simulate_st T (input.drop i) 0 i T.sink 0, hst]
      rfl
    · intro q' hq' hq'len
      exfalso
      rcases Nat.lt_or_ge (simulate T ⟨0, i, T.sink, 0⟩ (input.drop i)).idx
        (i + (input.length - i)) with hlt | hge
      · have hearly := simulate_early T (input.drop i) 0 i T.sink 0
          (by rw [List.length_drop]; omega)
        rw [hearly, hsink] at hst
        cases hst
      · omega

theorem scanTrace_stop (T : LexTable) (input : List Nat) :
    ∀ (fuel i : Nat), input.length ≤ i → scanTrace T input fuel i = []
  | 0, i, h => rfl
  | fuel + 1, i, h => by
    simp [scanTrace, Nat.not_lt.mpr h]

theorem scanTrace_cons (T : LexTable) (input : List Nat) (fuel i : Nat)
    (hi : i < input.length) :
    scanTrace T input (fuel + 1) i =
      scanStep T input i ::
        scanTrace T input fuel (nextIndex (scanStep T input i)) := by
  simp [scanTrace, hi]

theorem scanTrace_progressive (T : LexTable) (hstart : T.classOf 0 = none)
    (hsink : T.classOf T.sink = none) (input : List Nat)
    (hlen : input.length ≤ usizeMax) :
    ∀ (fuel i : Nat), progressive input.length i (scanTrace T input fuel i) = true
  | 0, i => rfl
  | fuel + 1, i => by
    rcases Nat.lt_or_ge i input.length with hi | hi
    · rw [scanTrace_cons T input fuel i hi]
      rcases hs : scanStep T input i with ⟨cls, p, q, cmd⟩ | p
      · obtain ⟨hp, hiq, hql⟩ :=
          scanStep_tok_spec T hstart hsink input i hi cls p q cmd hs
        simp only [progressive, nextIndex, Bool.and_eq_true, beq_iff_eq,
          decide_eq_true_eq]
        exact ⟨⟨⟨hp, hiq⟩, hql⟩,
          scanTrace_progressive T hstart hsink input hlen fuel q⟩
      · have hp := scanStep_fail_spec T input i p hs
        simp only [progressive, nextIndex]
        rw [scanTrace_stop T input fuel usizeMax (by exact hlen)]
        simp [hp]
    · rw [scanTrace_stop T input (fuel + 1) i hi]
      rfl

theorem scanTrace_contiguous (T : LexTable) (hstart : T.classOf 0 = none)
    (hsink : T.classOf T.sink = none) (input : List Nat)
    (hlen : input.length ≤ usizeMax) :
    ∀ (fuel i : Nat), i ≤ input.length → input.length ≤ i + fuel →
      contiguousTo input.length i (scanTrace T input fuel i) = true
  | 0, i, h1, h2 => by
    simp only [scanTrace, contiguousTo, beq_iff_eq]
    omega
  | fuel + 1, i, h1, h2 => by
    rcases Nat.lt_or_ge i input.length with hi | hi
    · rw [scanTrace_cons T input fuel i hi]
      rcases hs : scanStep T input i with ⟨cls, p, q, cmd⟩ | p
      · obtain ⟨hp, hiq, hql⟩ :=
          scanStep_tok_spec T hstart hsink input i hi cls p q cmd hs
        simp only [contiguousTo, nextIndex, Bool.and_eq_true, beq_iff_eq,
          decide_eq_true_eq]
        exact ⟨⟨hp, hql⟩,
          scanTrace_contiguous T hstart hsink input hlen fuel q hql (by omega)⟩
      · have hp := scanStep_fail_spec T input i p hs
        simp only [contiguousTo, nextIndex]
        rw [scanTrace_stop T input fuel usizeMax (by exact hlen)]
        simp [hp]
    · rw [scanTrace_stop T input (fuel + 1) i hi]
      simp only [contiguousTo, beq_iff_eq]
      omega

theorem scanTrace_stable (T : LexTable) (hstart : T.classOf 0 = none)
    (hsink : T.classOf T.sink = none) (input : List Nat)
    (hlen : input.length ≤ usizeMax) :
    ∀ (fuel fuel' i : Nat), input.length ≤ i + fuel → input.length ≤ i + fuel' →
      scanTrace T input fuel i = scanTrace T input fuel' i
  | 0, fuel', i, h, h' => by
    rw [scanTrace_stop T input fuel' i (by omega)]
    rfl
  | fuel + 1, fuel', i, h, h' => by
    rcases Nat.lt_or_ge i input.length with hi | hi
    · cases fuel' with
      | zero => exact absurd h' (by omega)
      | succ f' =>
        rw [scanTrace_cons T input fuel i hi, scanTrace_cons T input f' i hi]
        rcases hs : scanStep T input i with ⟨cls, p, q, cmd⟩ | p
        · obtain ⟨hp, hiq, hql⟩ :=
            scanStep_tok_spec T hstart hsink input i hi cls p q cmd hs
          simp only [nextIndex]
          rw [scanTrace_stable T hstart hsink input hlen fuel f' q
            (by omega) (by omega)]
        · simp only [nextIndex]
          rw [scanTrace_stop T input fuel usizeMax (by exact hlen),
            scanTrace_stop T input f' usizeMax (by exact hlen)]
    · rw [scanTrace_stop T input (fuel + 1) i hi,
        scanTrace_stop T input fuel' i hi]

theorem scanTrace_tok_mem (T : LexTable) (input : List Nat) :
    ∀ (fuel i : Nat), ∀ step ∈ scanTrace T input fuel i,
      ∃ j, j < input.length ∧ scanStep T input j = step
  | 0, i, step, h => by cases h
  | fuel + 1, i, step, h => by
    rcases Nat.lt_or_ge i input.length with hi | hi
    · rw [scanTrace_cons T input fuel i hi] at h
      rcases List.mem_cons.mp h with rfl | h'
      · exact ⟨i, hi, rfl⟩
      · exact scanTrace_tok_mem T input fuel (nextIndex (scanStep T input i)) step h'
    · rw [scanTrace_stop T input (fuel + 1) i hi] at h
      cases h

/-- `ScanStep.fail` recognizer (`Err(ScanError)` in the iterator output). -/
def ScanStep.isFail : ScanStep → Bool
  | .fail _ => true
  | .tok _ _ _ _ => false

theorem progressive_at_most_one_fail (len : Nat) : ∀ (steps : List ScanStep) (i : Nat),
    progressive len i steps = true →
    steps.countP ScanStep.isFail ≤ 1
  | [], i, h => by simp
  | .tok cls p q cmd :: rest, i, h => by
    simp only [progressive, Bool.and_eq_true] at h
    rw [List.countP_cons]
    have := progressive_at_most_one_fail len rest q h.2
    simp only [ScanStep.isFail, Bool.false_eq_true, if_false]
    omega
  | .fail p :: rest, i, h => by
    simp only [progressive, Bool.and_eq_true] at h
    rw [List.isEmpty_iff.mp h.2]
    simp [ScanStep.isFail]

/-- A well-formed three-state table: 0 (start, not accepting) steps to 1
(accepting, class 0, emitted), everything else to the absorbing,
non-accepting sink 2. -/
def demoTable : LexTable where
  step := fun s _ => if s = 0 then 1 else 2
  classOf := fun s => if s = 1 then some 0 else none
  sink := 2
  command := fun _ => Command.Emit

/-- A table whose start state is accepting (class 0). -/
def acceptingStartTable : LexTable where
  step := fun _ _ => 1
  classOf := fun s => if s = 0 then some 0 else none
  sink := 1
  command := fun _ => Command.Emit

/-- A table whose sink is accepting — the initial
`last_accept_state = sink` then reads as a past accept at index 0. -/
def acceptingSinkTable : LexTable where
  step := fun _ _ => 0
  classOf := fun s => if s = 1 then some 0 else none
  sink := 1
  command := fun _ => Command.Skip

/-- C4 (corrected): for a lex table whose start state is not accepting,
whose sink is not accepting and whose sink is absorbing, the scan trace
(emitted tokens, skipped matches and a final error, if any) is contiguous
from position 0 and covers the whole input unless truncated by the error;
and every match's span `[p, q)` is the longest prefix from `p` that the
table accepts.  The original unconditional claim fails: see the
counterexample. -/
theorem claim_C4_maximal_munch (T : LexTable) (input : List Nat)
    (hstart : T.classOf 0 = none) (hsink : T.classOf T.sink = none)
    (habsorb : ∀ b, T.step T.sink b = T.sink)
    (hlen : input.length ≤ usizeMax) :
    contiguousTo input.length 0 (scanTrace T input (input.length + 1) 0) = true ∧
    (∀ step ∈ scanTrace T input (input.length + 1) 0, ∀ cls p q cmd,
      step = ScanStep.tok cls p q cmd →
      p < q ∧ q ≤ input.length ∧
      (T.classOf (runFrom T 0 ((input.drop p).take (q - p)))).isSome = true ∧
      ∀ q', q < q' → q' ≤ input.length →
        (T.classOf (runFrom T 0 ((input.drop p).take (q' - p)))).isSome = false) := by
  refine ⟨scanTrace_contiguous T hstart hsink input hlen _ 0 (by omega) (by omega),
    ?_⟩
  intro step hmem cls p q cmd hstep
  obtain ⟨j, hj, hsj⟩ := scanTrace_tok_mem T input _ 0 step hmem
  rw [hstep] at hsj
  obtain ⟨hp, hiq, hql⟩ := scanStep_tok_spec T hstart hsink input j hj cls p q cmd hsj
  obtain ⟨hacc, hlong⟩ :=
    scanStep_tok_longest T hstart hsink habsorb input j hj cls p q cmd hsj
  subst hp
  exact ⟨hiq, hql, hacc, hlong⟩

theorem claim_C4_maximal_munch_witness :
    demoTable.classOf 0 = none ∧
    (contiguousTo 2 0 (scanTrace demoTable [7, 7] 3 0) = true ∧
    (∀ step ∈ scanTrace demoTable [7, 7] 3 0, ∀ cls p q cmd,
      step = ScanStep.tok cls p q cmd →
      p < q ∧ q ≤ 2 ∧
      (demoTable.classOf (runFrom demoTable 0 (([7, 7].drop p).take (q - p)))).isSome
        = true ∧
      ∀ q', q < q' → q' ≤ 2 →
        (demoTable.classOf
          (runFrom demoTable 0 (([7, 7].drop p).take (q' - p)))).isSome = false)) :=
  ⟨rfl, claim_C4_maximal_munch demoTable [7, 7] rfl rfl (fun _ => rfl) (by decide)⟩

/-- C4 counterexample: a table with an accepting start state produces an
empty-span match and never advances, so the trace does not cover the
input (and changes with every extra iteration of fuel). -/
theorem claim_C4_counterexample :
    scanStep acceptingStartTable [0] 0 = ScanStep.tok 0 0 0 Command.Emit ∧
    contiguousTo 1 0 (scanTrace acceptingStartTable [0] 2 0) = false ∧
    scanTrace acceptingStartTable [0] 2 0 ≠ scanTrace acceptingStartTable [0] 3 0 := by
  refine ⟨by decide, by decide, by decide⟩

/-- C10 (corrected): for a lex table whose start state and sink are both
not accepting, scanning makes strict progress (every match has a
non-empty span inside the input and the position strictly increases), at
most one error is yielded and it is final, the trace is stable once the
fuel exceeds the input length (termination), and from any position at or
past the end of input the trace is empty (`next()` keeps returning
`None`).  The original claim assumed only the start state; an accepting
sink breaks it: see the counterexample. -/
theorem claim_C10_scan_progress (T : LexTable) (input : List Nat)
    (hstart : T.classOf 0 = none) (hsink : T.classOf T.sink = none)
    (hlen : input.length ≤ usizeMax) :
    progressive input.length 0 (scanTrace T input (input.length + 1) 0) = true ∧
    (∀ fuel, input.length + 1 ≤ fuel →
      scanTrace T input fuel 0 = scanTrace T input (input.length + 1) 0) ∧
    (∀ fuel i, input.length ≤ i → scanTrace T input fuel i = []) ∧
    (scanTrace T input (input.length + 1) 0).countP ScanStep.isFail ≤ 1 := by
  refine ⟨scanTrace_progressive T hstart hsink input hlen _ 0, ?_, ?_, ?_⟩
  · intro fuel hf
    exact scanTrace_stable T hstart hsink input hlen fuel (input.length + 1) 0
      (by omega) (by omega)
  · intro fuel i hi
    exact scanTrace_stop T input fuel i hi
  · exact progressive_at_most_one_fail input.length _ 0
      (scanTrace_progressive T hstart hsink input hlen _ 0)

theorem claim_C10_scan_progress_witness :
    demoTable.classOf 0 = none ∧ demoTable.classOf demoTable.sink = none ∧
    (progressive 2 0 (scanTrace demoTable [7, 7] 3 0) = true ∧
    (∀ fuel, 3 ≤ fuel →
      scanTrace demoTable [7, 7] fuel 0 = scanTrace demoTable [7, 7] 3 0) ∧
    (∀ fuel i, 2 ≤ i → scanTrace demoTable [7, 7] fuel i = []) ∧
    (scanTrace demoTable [7, 7] 3 0).countP ScanStep.isFail ≤ 1) :=
  ⟨rfl, rfl, claim_C10_scan_progress demoTable [7, 7] rfl rfl (by decide)⟩

/-- C10 counterexample: a table satisfying the claim's own hypothesis
(start not accepting) but with an accepting sink: the initial
`last_accept_state = sink` makes the scanner match an empty span at
index 0 and reset, so progress fails and the iterator never stops. -/
theorem claim_C10_counterexample :
    acceptingSinkTable.classOf 0 = none ∧
    scanStep acceptingSinkTable [0] 0 = ScanStep.tok 0 0 0 Command.Skip ∧
    progressive 1 0 (scanTrace acceptingSinkTable [0] 2 0) = false ∧
    scanTrace acceptingSinkTable [0] 2 0 ≠ scanTrace acceptingSinkTable [0] 3 0 := by
  refine ⟨rfl, by decide, by decide, by decide⟩

/-! ## The DFA builder (src/src/dfa/mod.rs) and Hopcroft minimization
(src/regex-deriv/src/dfa/hopcroft.rs)

The Rust `DFA` is named `Dfa` here (Mathlib already owns `DFA`).  A
`HashMap<u8, usize>` is an association list with unique keys (insert
replaces); a `BTreeMap<RegExVec, usize>` likewise; a `BTreeSet<usize>` is
a sorted duplicate-free list; a `BTreeSet<BTreeSet<usize>>` a list sorted
by the lexicographic order `idsLt`.  `dfa/mod.rs` again refers to the set
type as `ByteSet` (and to `smallest()`); in this crate that is `CharSet`
with `min()`. -/

/-- `State { class: Option<usize>, next: HashMap<u8, usize> }`. -/
structure DFAState where
  class? : Option Nat
  next : List (Nat × Nat)
deriving DecidableEq

/-- `DFA { states: Vec<State> }`. -/
structure Dfa where
  states : List DFAState
deriving DecidableEq

/-- `HashMap::insert` (replace on equal key). -/
def mapInsert (k v : Nat) : List (Nat × Nat) → List (Nat × Nat)
  | [] => [(k, v)]
  | (k', v') :: rest =>
    if k' = k then (k, v) :: rest else (k', v') :: mapInsert k v rest

/-- `HashMap::get`. -/
def mapGet (k : Nat) : List (Nat × Nat) → Option Nat
  | [] => none
  | (k', v') :: rest => if k' = k then some v' else mapGet k rest

/-- `DFA::step`; `none` models the out-of-bounds panic on
`self.states[id]`. -/
def Dfa.step? (d : Dfa) (id symbol : Nat) : Option Nat :=
  match d.states.get? id with
  | none => none
  | some st =>
    match mapGet symbol st.next with
    | some nxt => some nxt
    | none => some 0

/-- `DFA::matches`: fold `step` from state 1, then `class(..).is_some()`;
`none` models a panic. -/
def Dfa.matches? (d : Dfa) (text : List Nat) : Option Bool :=
  match text.foldlM d.step? 1 with
  | none => none
  | some id => (d.states.get? id).map (fun st => st.class?.isSome)

/-- `RegExVec::deriv`. -/
def vecDeriv (q : List RegEx) (a : Nat) : List RegEx := q.map (fun r => r.deriv a)

/-- `RegExVec::class`: index of the first nullable component. -/
def vecClass (q : List RegEx) : Option Nat := q.findIdx? RegEx.is_nullable

/-- `approx_deriv_classes_vec`. -/
def approx_deriv_classes_vec (q : List RegEx) : List CharSet :=
  q.foldl (fun acc x => cross acc (approx_deriv_classes x)) [CharSet.univ]

/-- `DFABuilder { states, re2idx }`. -/
structure DFABuilder where
  states : List DFAState
  re2idx : List (List RegEx × Nat)

/-- `BTreeMap::insert` (replace on equal key). -/
def btInsert (k : List RegEx) (v : Nat) :
    List (List RegEx × Nat) → List (List RegEx × Nat)
  | [] => [(k, v)]
  | (k', v') :: rest =>
    if k' = k then (k, v) :: rest else (k', v') :: btInsert k v rest

/-- `BTreeMap::get`. -/
def btGet (k : List RegEx) : List (List RegEx × Nat) → Option Nat
  | [] => none
  | (k', v') :: rest => if k' = k then some v' else btGet k rest

/-- `DFABuilder::add_state`: intern `q` (overwriting any previous entry)
and push a fresh state with `q.class()` and no transitions. -/
def addState (b : DFABuilder) (q : List RegEx) : Nat × DFABuilder :=
  (b.states.length,
   ⟨b.states ++ [⟨vecClass q, []⟩], btInsert q b.states.length b.re2idx⟩)

/-- The `for a in set.bytes()` loops of `DFABuilder::goto`: point all
bytes of `set` from state `i` to state `j`. -/
def setTransitions (b : DFABuilder) (i : Nat) (set : CharSet) (j : Nat) :
    DFABuilder :=
  match b.states.get? i with
  | none => b
  | some st =>
    ⟨b.states.set i
      ⟨st.class?, (CharSet.chars set).foldl (fun nx a => mapInsert a j nx) st.next⟩,
     b.re2idx⟩

/-- The `explore`/`goto` recursion as a work stack in depth-first call
order: each entry holds a source vector `q`, its state index `i` and its
unprocessed derivative classes.  An interned target is just wired up; a
fresh one is added, wired and explored before the remaining classes of
`q` (exactly `goto`'s call of `explore`). -/
def buildLoop : Nat → DFABuilder → List (List RegEx × Nat × List CharSet) →
    DFABuilder
  | 0, b, _ => b
  | _ + 1, b, [] => b
  | fuel + 1, b, (_, _, []) :: stack => buildLoop fuel b stack
  | fuel + 1, b, (q, i, set :: sets) :: stack =>
    match CharSet.min? set with
    | none => buildLoop fuel b ((q, i, sets) :: stack)
    | some c =>
      let qc := vecDeriv q c
      match btGet qc b.re2idx with
      | some j => buildLoop fuel (setTransitions b i set j) ((q, i, sets) :: stack)
      | none =>
        let jb := addState b qc
        buildLoop fuel (setTransitions jb.2 i set jb.1)
          ((qc, jb.1, approx_deriv_classes_vec qc) :: (q, i, sets) :: stack)

/-- `DFABuilder::build`: state 0 is the sink (pre-interned for the
all-`None` vector), state 1 the start vector, then a full exploration. -/
def buildDFA (fuel : Nat) (start : List RegEx) : DFABuilder :=
  let b0 : DFABuilder :=
    ⟨[⟨none, []⟩], [(List.replicate start.length RegEx.None, 0)]⟩
  let jb := addState b0 start
  buildLoop fuel jb.2 [(start, 1, approx_deriv_classes_vec start)]

/-- `DFA::from(&RegEx)` composed with `DFABuilder::build`. -/
def dfaFrom (fuel : Nat) (re : RegEx) : Dfa := ⟨(buildDFA fuel [re]).states⟩

/-- Insert into a sorted duplicate-free list of naturals (`BTreeSet<usize>`). -/
def sInsert (x : Nat) : List Nat → List Nat
  | [] => [x]
  | y :: rest =>
    if x < y then x :: y :: rest
    else if x = y then y :: rest
    else y :: sInsert x rest

/-- Lexicographic order on sorted id-sets (`Ord` of `BTreeSet<usize>`). -/
def idsLt : List Nat → List Nat → Bool
  | [], [] => false
  | [], _ :: _ => true
  | _ :: _, [] => false
  | x :: xs, y :: ys => if x < y then true else if y < x then false else idsLt xs ys

/-- Insert into a partition sorted by `idsLt` (`BTreeSet<BTreeSet<usize>>`). -/
def pInsert (s : List Nat) : List (List Nat) → List (List Nat)
  | [] => [s]
  | t :: rest =>
    if idsLt s t then s :: t :: rest
    else if s = t then t :: rest
    else t :: pInsert s rest

/-- `BTreeSet::remove`. -/
def pRemove (s : List Nat) (part : List (List Nat)) : List (List Nat) :=
  part.filter (fun t => t != s)

/-- `fn alphabet`: the transition symbols actually in use.  (Rust collects
them through a `HashSet` into a vector in unspecified order; the model
fixes the ascending order.) -/
def alphabet (d : Dfa) : List Nat :=
  d.states.foldl (fun acc st => st.next.foldl (fun acc kv => sInsert kv.1 acc) acc) []

/-- The effective transition function: an explicit `next` entry, else the
sink `0` (`DFA::step`'s missing-key default, also used by `InvDFA::new`). -/
def effStep (d : Dfa) (id a : Nat) : Nat :=
  match mapGet a (d.states.getD id ⟨none, []⟩).next with
  | some t => t
  | none => 0

/-- `InvDFA::inverse` for a block `w` and symbol: the sources whose
effective transition lands in `w`; `none` when that preimage is empty, as
the Rust `?` yields. -/
def invSet (d : Dfa) (w : List Nat) (symbol : Nat) : Option (List Nat) :=
  let pre := (List.range d.states.length).filter (fun src =>
    w.contains (effStep d src symbol))
  if pre.isEmpty then none else some pre

/-- `fn coarse_partition`: group states by `class.map_or(0, +1)`. -/
def coarse_partition (d : Dfa) : List (List Nat) :=
  let n := d.states.length
  let key := fun id => match (d.states.getD id ⟨none, []⟩).class? with
    | none => 0
    | some c => c + 1
  let ks := (List.range n).foldl (fun acc id => sInsert (key id) acc) []
  ks.foldl (fun part k =>
    pInsert ((List.range n).filter (fun id => key id == k)) part) []

/-- Remove the last block of maximal size (`max_by_key` keeps the last
maximum; iteration over the partition is in sorted order). -/
def removeLastMax (maxlen : Nat) : List (List Nat) → List (List Nat)
  | [] => []
  | s :: rest =>
    if s.length == maxlen && !(rest.any (fun t => t.length == maxlen))
    then rest
    else s :: removeLastMax maxlen rest

/-- `fn all_but_largest`. -/
def all_but_largest (part : List (List Nat)) : List (List Nat) :=
  removeLastMax (part.foldl (fun m s => max m s.length) 0) part

/-- `fn split_sets`: the blocks having both a member in `dom` and one
outside it, with the two halves. -/
def split_sets (part : List (List Nat)) (dom : List Nat) :
    List (List Nat × List Nat × List Nat) :=
  part.filterMap (fun p =>
    let inter := p.filter (fun x => dom.contains x)
    if inter.isEmpty then none
    else
      let diff := p.filter (fun x => !(dom.contains x))
      if diff.isEmpty then none else some (p, inter, diff))

/-- The `for (p, (p1, p2)) in splits` body of `equivalence_classes`. -/
def applySplits : List (List Nat × List Nat × List Nat) →
    List (List Nat) × List (List Nat) → List (List Nat) × List (List Nat)
  | [], pw => pw
  | (p, p1, p2) :: rest, (part, waiting) =>
    let part' := pInsert p1 (pInsert p2 (pRemove p part))
    let waiting' :=
      if waiting.contains p then
        pInsert p1 (pInsert p2 (pRemove p waiting))
      else if p1.length ≤ p2.length then pInsert p1 waiting
      else pInsert p2 waiting
    applySplits rest (part', waiting')

/-- The `for inv in alph.iter().filter_map(..)` loop over one waiting
block `w`. -/
def processSymbols (d : Dfa) (w : List Nat) : List Nat →
    List (List Nat) × List (List Nat) → List (List Nat) × List (List Nat)
  | [], pw => pw
  | symbol :: alphRest, (part, waiting) =>
    match invSet d w symbol with
    | none => processSymbols d w alphRest (part, waiting)
    | some inv =>
      processSymbols d w alphRest (applySplits (split_sets part inv) (part, waiting))

/-- The `while !waiting.is_empty()` refinement loop (`take_some` removes
the minimum, the head of the sorted waiting set), fueled. -/
def hopcroftLoop (d : Dfa) (alph : List Nat) : Nat →
    List (List Nat) × List (List Nat) → List (List Nat)
  | 0, pw => pw.1
  | fuel + 1, (part, waiting) =>
    match waiting with
    | [] => part
    | w :: waitingRest =>
      hopcroftLoop d alph fuel (processSymbols d w alph (part, waitingRest))

/-- `fn equivalence_classes`. -/
def equivalence_classes (fuel : Nat) (d : Dfa) : List (List Nat) :=
  let part := coarse_partition d
  hopcroftLoop d (alphabet d) fuel (part, all_but_largest part)

/-- `partition.iter().skip(1).position(|set| set.contains(&dest))`. -/
def blockPos (blocks : List (List Nat)) (dest : Nat) : Option Nat :=
  match blocks with
  | [] => none
  | B :: bs => if B.contains dest then some 0 else (blockPos bs dest).map (· + 1)

/-- The minimized state's class: `set.iter().filter_map(class).min()`. -/
def minimizeClass (d : Dfa) (set : List Nat) : Option Nat :=
  match set.filterMap (fun id => (d.states.getD id ⟨none, []⟩).class?) with
  | [] => none
  | x :: rest => some (rest.foldl Nat.min x)

/-- One `for (&symbol, dest) in &dfa.states[source].next` step of the
minimized-transition construction (`Entry::Vacant`: first writer per
symbol wins; the vacancy is only filled when the destination lies in a
non-sink block). -/
def minInner (d : Dfa) (blocks : List (List Nat)) (nx : List (Nat × Nat))
    (kv : Nat × Nat) : List (Nat × Nat) :=
  match mapGet kv.1 nx with
  | some _ => nx
  | none =>
    match blockPos blocks kv.2 with
    | some id => mapInsert kv.1 (id + 1) nx
    | none => nx

/-- One `for &source in set` step. -/
def minOuter (d : Dfa) (blocks : List (List Nat)) (nx : List (Nat × Nat))
    (source : Nat) : List (Nat × Nat) :=
  (d.states.getD source ⟨none, []⟩).next.foldl (minInner d blocks) nx

/-- The minimized state's transitions. -/
def minimizeNext (d : Dfa) (blocks : List (List Nat)) (set : List Nat) :
    List (Nat × Nat) :=
  set.foldl (minOuter d blocks) []

/-- `fn minimize`: a fresh sink, then one state per non-first block of the
refined partition. -/
def Dfa.minimize (fuel : Nat) (d : Dfa) : Dfa :=
  let partition := equivalence_classes fuel d
  let blocks := partition.drop 1
  ⟨⟨none, []⟩ :: blocks.map (fun set => ⟨minimizeClass d set, minimizeNext d blocks set⟩)⟩

theorem matches_none_of_short (d : Dfa) (h : d.states.length ≤ 1) :
    ∀ w : List Nat, d.matches? w = none
  | [] => by
    have h1 : d.states.get? 1 = none := List.get?_eq_none.mpr (by omega)
    simp [Dfa.matches?, h1]
    omega
  | b :: rest => by
    have h1 : d.states.get? 1 = none := List.get?_eq_none.mpr (by omega)
    have hstep : d.step? 1 b = none := by
      simp only [Dfa.step?]
      rw [h1]
    simp [Dfa.matches?, hstep]

set_option maxRecDepth 4000 in
/-- C9: for `D = DFA::from(&RegEx::none())` the interning map's sink
entry (the all-`None` vector) is overwritten by the start state, every
byte steps state 1 back to state 1, `D.minimize()` has exactly one state
(the fresh sink alone), and `D.minimize().matches(w)` panics — indexes
state 1 out of bounds — for every input, the empty one included. -/
theorem claim_C9_none_minimize_panics (w : List Nat) :
    btGet [RegEx.None] (buildDFA 4 [RegEx.None]).re2idx = some 1 ∧
    (dfaFrom 4 RegEx.None).states.length = 2 ∧
    (∀ b, b < 256 → (dfaFrom 4 RegEx.None).step? 1 b = some 1) ∧
    (Dfa.minimize 4 (dfaFrom 4 RegEx.None)).states.length = 1 ∧
    (Dfa.minimize 4 (dfaFrom 4 RegEx.None)).matches? w = none := by
  have hmin : (Dfa.minimize 4 (dfaFrom 4 RegEx.None)).states.length = 1 := by decide
  exact ⟨by decide, by decide, by decide, hmin,
    matches_none_of_short _ (le_of_eq hmin) w⟩

/-! ## Correctness of Hopcroft minimization (claim C3)

The development below proves that, for a well-formed input DFA, the fueled
refinement loop reaches the empty waiting set with a stable, class-uniform
partition, and that the reconstructed automaton simulates the original
through the block map.  Notation: a *block* is an element of the
partition, `effStep` the effective (missing-key-to-sink) transition. -/

theorem idsLt_irrefl : ∀ s : List Nat, idsLt s s = false
  | [] => rfl
  | x :: xs => by
    simp only [idsLt, Nat.lt_irrefl, if_false]
    exact idsLt_irrefl xs

theorem idsLt_trans : ∀ a b c : List Nat,
    idsLt a b = true → idsLt b c = true → idsLt a c = true
  | [], [], _, h, _ => by cases h
  | [], _ :: _, [], _, h => by cases h
  | [], _ :: _, _ :: _, _, _ => rfl
  | _ :: _, [], _, h, _ => by cases h
  | _ :: _, _ :: _, [], _, h => by cases h
  | x :: xs, y :: ys, z :: zs, h1, h2 => by
    simp only [idsLt] at h1 h2 ⊢
    rcases Nat.lt_trichotomy x y with hxy | hxy | hxy
    · rcases Nat.lt_trichotomy y z with hyz | hyz | hyz
      · rw [if_pos (by omega)]
      · rw [if_pos (by omega)]
      · rw [if_neg (by omega), if_pos hyz] at h2
        cases h2
    · subst hxy
      rcases Nat.lt_trichotomy x z with hyz | hyz | hyz
      · rw [if_pos hyz]
      · subst hyz
        rw [if_neg (Nat.lt_irrefl x), if_neg (Nat.lt_irrefl x)] at h1 h2 ⊢
        exact idsLt_trans xs ys zs h1 h2
      · rw [if_neg (by omega), if_pos hyz] at h2
        cases h2
    · rw [if_neg (by omega), if_pos hxy] at h1
      cases h1

theorem idsLt_total : ∀ s t : List Nat,
    s = t ∨ idsLt s t = true ∨ idsLt t s = true
  | [], [] => Or.inl rfl
  | [], _ :: _ => Or.inr (Or.inl rfl)
  | _ :: _, [] => Or.inr (Or.inr rfl)
  | x :: xs, y :: ys => by
    rcases Nat.lt_trichotomy x y with h | h | h
    · exact Or.inr (Or.inl (by simp only [idsLt]; rw [if_pos h]))
    · subst h
      rcases idsLt_total xs ys with h' | h' | h'
      · exact Or.inl (by rw [h'])
      · refine Or.inr (Or.inl ?_)
        simp only [idsLt]
        rw [if_neg (Nat.lt_irrefl x), if_neg (Nat.lt_irrefl x)]
        exact h'
      · refine Or.inr (Or.inr ?_)
        simp only [idsLt]
        rw [if_neg (Nat.lt_irrefl x), if_neg (Nat.lt_irrefl x)]
        exact h'
    · exact Or.inr (Or.inr (by simp only [idsLt]; rw [if_pos h]))

theorem mem_pInsert (x s : List Nat) : ∀ l : List (List Nat),
    x ∈ pInsert s l ↔ x = s ∨ x ∈ l
  | [] => by simp [pInsert]
  | t :: rest => by
    simp only [pInsert]
    split
    · exact List.mem_cons
    · split
      · rename_i hst
        rw [hst]
        simp only [List.mem_cons]
        tauto
      · simp only [List.mem_cons, mem_pInsert x s rest]
        tauto

theorem pInsert_sorted (s : List Nat) : ∀ l : List (List Nat),
    l.Sorted (fun a b => idsLt a b = true) →
    (pInsert s l).Sorted (fun a b => idsLt a b = true)
  | [], h => List.sorted_singleton s
  | t :: rest, h => by
    simp only [pInsert]
    split
    · rename_i hlt
      refine List.sorted_cons.mpr ⟨?_, h⟩
      intro b hb
      rcases List.mem_cons.mp hb with rfl | hb'
      · exact hlt
      · exact idsLt_trans s t b hlt (List.rel_of_sorted_cons h b hb')
    · split
      · exact h
      · rename_i hlt heq
        refine List.sorted_cons.mpr
          ⟨?_, pInsert_sorted s rest (List.sorted_cons.mp h).2⟩
        intro b hb
        rcases (mem_pInsert b s rest).mp hb with rfl | hb'
        · rcases idsLt_total t b with h' | h' | h'
          · exact absurd h'.symm heq
          · exact h'
          · exact absurd h' hlt
        · exact List.rel_of_sorted_cons h b hb'

theorem listContains_iff {α : Type} [BEq α] [LawfulBEq α] (l : List α) (x : α) :
    l.contains x = true ↔ x ∈ l := by
  simp

theorem sorted_part_nodup (part : List (List Nat))
    (h : part.Sorted (fun a b => idsLt a b = true)) : part.Nodup :=
  h.imp (fun hab heq => by rw [heq, idsLt_irrefl] at hab; cases hab)

theorem mem_pRemove (x s : List Nat) (part : List (List Nat)) :
    x ∈ pRemove s part ↔ x ∈ part ∧ x ≠ s := by
  simp [pRemove, List.mem_filter]

theorem pRemove_sorted (s : List Nat) (part : List (List Nat))
    (h : part.Sorted (fun a b => idsLt a b = true)) :
    (pRemove s part).Sorted (fun a b => idsLt a b = true) :=
  h.filter _

theorem pRemove_length (s : List Nat) (part : List (List Nat))
    (hnd : part.Nodup) (hs : s ∈ part) :
    (pRemove s part).length + 1 = part.length := by
  induction part with
  | nil => cases hs
  | cons t rest ih =>
    rcases List.mem_cons.mp hs with rfl | hs'
    · rw [show pRemove s (s :: rest) = pRemove s rest from by
        simp [pRemove, List.filter_cons]]
      rw [show pRemove s rest = rest from List.filter_eq_self.mpr ?_]
      · simp
      · intro a ha
        simp only [bne_iff_ne, ne_eq, decide_eq_true_eq]
        intro heq
        rw [heq] at ha
        exact (List.nodup_cons.mp hnd).1 ha
    · have hne : t ≠ s := by
        intro heq
        rw [heq] at hnd
        exact (List.nodup_cons.mp hnd).1 hs'
      rw [show pRemove s (t :: rest) = t :: pRemove s rest from by
        simp [pRemove, List.filter_cons, hne]]
      simp only [List.length_cons]
      rw [← ih (List.nodup_cons.mp hnd).2 hs']

theorem pInsert_length_of_not_mem (s : List Nat) : ∀ (l : List (List Nat)),
    s ∉ l → (pInsert s l).length = l.length + 1
  | [], _ => rfl
  | t :: rest, h => by
    simp only [pInsert]
    split
    · simp
    · split
      · rename_i heq
        exact absurd (heq ▸ List.mem_cons_self t rest) h
      · simp only [List.length_cons]
        rw [pInsert_length_of_not_mem s rest (fun hm => h (List.mem_cons_of_mem _ hm))]

/-- Two states lie in a common block. -/
def SameBlock (part : List (List Nat)) (x y : Nat) : Prop :=
  ∃ B ∈ part, x ∈ B ∧ y ∈ B

/-- Some waiting set separates the two states. -/
def WitCover (waiting : List (List Nat)) (t1 t2 : Nat) : Prop :=
  ∃ W ∈ waiting, (t1 ∈ W ∧ t2 ∉ W) ∨ (t2 ∈ W ∧ t1 ∉ W)

/-- `dom` cuts the block `B` in two. -/
def SplitBy (dom B : List Nat) : Prop :=
  (∃ x ∈ B, x ∈ dom) ∧ (∃ x ∈ B, x ∉ dom)

/-- Well-formed partition of `{0, …, n-1}`, kept in the sorted-set shape
the `BTreeSet` model maintains. -/
structure PartWF (n : Nat) (part : List (List Nat)) : Prop where
  nonempty : ∀ B ∈ part, B ≠ []
  sortedBlocks : ∀ B ∈ part, B.Sorted (· < ·)
  bounded : ∀ B ∈ part, ∀ x ∈ B, x < n
  covers : ∀ x, x < n → ∃ B ∈ part, x ∈ B
  disj : ∀ B ∈ part, ∀ C ∈ part, ∀ x, x ∈ B → x ∈ C → B = C
  sortedPart : part.Sorted (fun a b => idsLt a b = true)

theorem mem_splitPart (p1 p2 p : List Nat) (part : List (List Nat)) (x : List Nat) :
    x ∈ pInsert p1 (pInsert p2 (pRemove p part)) ↔
      x = p1 ∨ x = p2 ∨ (x ∈ part ∧ x ≠ p) := by
  rw [mem_pInsert, mem_pInsert, mem_pRemove]

theorem splitPart_wf (n : Nat) (part : List (List Nat)) (p p1 p2 : List Nat)
    (hw : PartWF n part) (hp : p ∈ part)
    (hmem : ∀ x, x ∈ p → x ∈ p1 ∨ x ∈ p2)
    (hsub1 : ∀ x ∈ p1, x ∈ p) (hsub2 : ∀ x ∈ p2, x ∈ p)
    (hdisj : ∀ x, x ∈ p1 → x ∈ p2 → False)
    (hs1 : p1.Sorted (· < ·)) (hs2 : p2.Sorted (· < ·))
    (hne1 : p1 ≠ []) (hne2 : p2 ≠ []) :
    PartWF n (pInsert p1 (pInsert p2 (pRemove p part))) := by
  constructor
  · intro B hB
    rcases (mem_splitPart p1 p2 p part B).mp hB with rfl | rfl | ⟨hB', _⟩
    · exact hne1
    · exact hne2
    · exact hw.nonempty B hB'
  · intro B hB
    rcases (mem_splitPart p1 p2 p part B).mp hB with rfl | rfl | ⟨hB', _⟩
    · exact hs1
    · exact hs2
    · exact hw.sortedBlocks B hB'
  · intro B hB x hx
    rcases (mem_splitPart p1 p2 p part B).mp hB with rfl | rfl | ⟨hB', _⟩
    · exact hw.bounded p hp x (hsub1 x hx)
    · exact hw.bounded p hp x (hsub2 x hx)
    · exact hw.bounded B hB' x hx
  · intro x hx
    obtain ⟨B, hB, hxB⟩ := hw.covers x hx
    by_cases hBp : B = p
    · subst hBp
      rcases hmem x hxB with h1 | h2
      · exact ⟨p1, (mem_splitPart p1 p2 B part p1).mpr (Or.inl rfl), h1⟩
      · exact ⟨p2, (mem_splitPart p1 p2 B part p2).mpr (Or.inr (Or.inl rfl)), h2⟩
    · exact ⟨B, (mem_splitPart p1 p2 p part B).mpr (Or.inr (Or.inr ⟨hB, hBp⟩)), hxB⟩
  · intro B hB C hC x hxB hxC
    rcases (mem_splitPart p1 p2 p part B).mp hB with hB1 | hB1 | ⟨hB', hBp⟩ <;>
      rcases (mem_splitPart p1 p2 p part C).mp hC with hC1 | hC1 | ⟨hC', hCp⟩
    · rw [hB1, hC1]
    · exact (hdisj x (hB1 ▸ hxB) (hC1 ▸ hxC)).elim
    · exact absurd (hw.disj p hp C hC' x (hsub1 x (hB1 ▸ hxB)) hxC).symm hCp
    · exact (hdisj x (hC1 ▸ hxC) (hB1 ▸ hxB)).elim
    · rw [hB1, hC1]
    · exact absurd (hw.disj p hp C hC' x (hsub2 x (hB1 ▸ hxB)) hxC).symm hCp
    · exact absurd (hw.disj B hB' p hp x hxB (hsub1 x (hC1 ▸ hxC))) hBp
    · exact absurd (hw.disj B hB' p hp x hxB (hsub2 x (hC1 ▸ hxC))) hBp
    · exact hw.disj B hB' C hC' x hxB hxC
  · exact pInsert_sorted _ _ (pInsert_sorted _ _ (pRemove_sorted _ _ hw.sortedPart))

/-- The waiting-set update of one `for (p, (p1, p2)) in splits` step. -/
def waitUpd (p p1 p2 : List Nat) (waiting : List (List Nat)) : List (List Nat) :=
  if waiting.contains p then
    pInsert p1 (pInsert p2 (pRemove p waiting))
  else if p1.length ≤ p2.length then pInsert p1 waiting
  else pInsert p2 waiting

theorem applySplits_cons (p p1 p2 : List Nat)
    (rest : List (List Nat × List Nat × List Nat))
    (part waiting : List (List Nat)) :
    applySplits ((p, p1, p2) :: rest) (part, waiting) =
      applySplits rest (pInsert p1 (pInsert p2 (pRemove p part)),
        waitUpd p p1 p2 waiting) := rfl

theorem mem_waitUpd (p p1 p2 x : List Nat) (waiting : List (List Nat)) :
    x ∈ waitUpd p p1 p2 waiting → x = p1 ∨ x = p2 ∨ x ∈ waiting := by
  intro h
  simp only [waitUpd] at h
  split at h
  · rcases (mem_splitPart p1 p2 p waiting x).mp h with h' | h' | ⟨h', _⟩
    · exact Or.inl h'
    · exact Or.inr (Or.inl h')
    · exact Or.inr (Or.inr h')
  · split at h
    · rcases (mem_pInsert x p1 waiting).mp h with h' | h'
      · exact Or.inl h'
      · exact Or.inr (Or.inr h')
    · rcases (mem_pInsert x p2 waiting).mp h with h' | h'
      · exact Or.inr (Or.inl h')
      · exact Or.inr (Or.inr h')

theorem waitUpd_sorted (p p1 p2 : List Nat) (waiting : List (List Nat))
    (h : waiting.Sorted (fun a b => idsLt a b = true)) :
    (waitUpd p p1 p2 waiting).Sorted (fun a b => idsLt a b = true) := by
  simp only [waitUpd]
  split
  · exact pInsert_sorted _ _ (pInsert_sorted _ _ (pRemove_sorted _ _ h))
  · split
    · exact pInsert_sorted _ _ h
    · exact pInsert_sorted _ _ h

theorem waitUpd_wit_preserve (p p1 p2 : List Nat) (waiting : List (List Nat))
    (hmem : ∀ x, x ∈ p → x ∈ p1 ∨ x ∈ p2)
    (hsub1 : ∀ x ∈ p1, x ∈ p) (hsub2 : ∀ x ∈ p2, x ∈ p)
    (t1 t2 : Nat) (h : WitCover waiting t1 t2) :
    WitCover (waitUpd p p1 p2 waiting) t1 t2 := by
  obtain ⟨W, hW, hsep⟩ := h
  by_cases hWp : W = p
  · subst hWp
    simp only [waitUpd]
    rw [if_pos ((listContains_iff waiting W).mpr hW)]
    rcases hsep with ⟨ht1, ht2⟩ | ⟨ht2, ht1⟩
    · rcases hmem t1 ht1 with h1 | h1
      · exact ⟨p1, (mem_splitPart p1 p2 W waiting p1).mpr (Or.inl rfl),
          Or.inl ⟨h1, fun hc => ht2 (hsub1 t2 hc)⟩⟩
      · exact ⟨p2, (mem_splitPart p1 p2 W waiting p2).mpr (Or.inr (Or.inl rfl)),
          Or.inl ⟨h1, fun hc => ht2 (hsub2 t2 hc)⟩⟩
    · rcases hmem t2 ht2 with h1 | h1
      · exact ⟨p1, (mem_splitPart p1 p2 W waiting p1).mpr (Or.inl rfl),
          Or.inr ⟨h1, fun hc => ht1 (hsub1 t1 hc)⟩⟩
      · exact ⟨p2, (mem_splitPart p1 p2 W waiting p2).mpr (Or.inr (Or.inl rfl)),
          Or.inr ⟨h1, fun hc => ht1 (hsub2 t1 hc)⟩⟩
  · simp only [waitUpd]
    split
    · exact ⟨W, (mem_splitPart p1 p2 p waiting W).mpr (Or.inr (Or.inr ⟨hW, hWp⟩)),
        hsep⟩
    · split
      · exact ⟨W, (mem_pInsert W p1 waiting).mpr (Or.inr hW), hsep⟩
      · exact ⟨W, (mem_pInsert W p2 waiting).mpr (Or.inr hW), hsep⟩

theorem waitUpd_wit_new (p p1 p2 : List Nat) (waiting : List (List Nat))
    (hdisj : ∀ x, x ∈ p1 → x ∈ p2 → False)
    (t1 t2 : Nat) (ht1 : t1 ∈ p1) (ht2 : t2 ∈ p2) :
    WitCover (waitUpd p p1 p2 waiting) t1 t2 := by
  simp only [waitUpd]
  split
  · exact ⟨p1, (mem_splitPart p1 p2 p waiting p1).mpr (Or.inl rfl),
      Or.inl ⟨ht1, fun hc => hdisj t2 hc ht2⟩⟩
  · split
    · exact ⟨p1, (mem_pInsert p1 p1 waiting).mpr (Or.inl rfl),
        Or.inl ⟨ht1, fun hc => hdisj t2 hc ht2⟩⟩
    · exact ⟨p2, (mem_pInsert p2 p2 waiting).mpr (Or.inl rfl),
        Or.inr ⟨ht2, fun hc => hdisj t1 ht1 hc⟩⟩

theorem waitUpd_sub (p p1 p2 : List Nat) (part waiting : List (List Nat))
    (hsub : ∀ W ∈ waiting, W ∈ part) :
    ∀ W ∈ waitUpd p p1 p2 waiting,
      W ∈ pInsert p1 (pInsert p2 (pRemove p part)) := by
  intro W hW
  simp only [waitUpd] at hW
  split at hW
  · rcases (mem_splitPart p1 p2 p waiting W).mp hW with hW1 | hW1 | ⟨hW', hWp⟩
    · exact (mem_splitPart p1 p2 p part W).mpr (Or.inl hW1)
    · exact (mem_splitPart p1 p2 p part W).mpr (Or.inr (Or.inl hW1))
    · exact (mem_splitPart p1 p2 p part W).mpr (Or.inr (Or.inr ⟨hsub W hW', hWp⟩))
  · rename_i hnc
    have hnp : p ∉ waiting := fun hc => hnc ((listContains_iff waiting p).mpr hc)
    split at hW
    · rcases (mem_pInsert W p1 waiting).mp hW with hW1 | hW'
      · exact (mem_splitPart p1 p2 p part W).mpr (Or.inl hW1)
      · exact (mem_splitPart p1 p2 p part W).mpr
          (Or.inr (Or.inr ⟨hsub W hW', fun hc => hnp (hc ▸ hW')⟩))
    · rcases (mem_pInsert W p2 waiting).mp hW with hW1 | hW'
      · exact (mem_splitPart p1 p2 p part W).mpr (Or.inr (Or.inl hW1))
      · exact (mem_splitPart p1 p2 p part W).mpr
          (Or.inr (Or.inr ⟨hsub W hW', fun hc => hnp (hc ▸ hW')⟩))

theorem pInsert_length_le (s : List Nat) : ∀ l : List (List Nat),
    (pInsert s l).length ≤ l.length + 1
  | [] => by simp [pInsert]
  | t :: rest => by
    simp only [pInsert]
    split
    · simp
    · split
      · simp
      · simp only [List.length_cons]
        have := pInsert_length_le s rest
        omega

theorem waitUpd_length (p p1 p2 : List Nat) (waiting : List (List Nat)) :
    (waitUpd p p1 p2 waiting).length ≤ waiting.length + 2 := by
  simp only [waitUpd]
  split
  · have h1 := pInsert_length_le p1 (pInsert p2 (pRemove p waiting))
    have h2 := pInsert_length_le p2 (pRemove p waiting)
    have h3 : (pRemove p waiting).length ≤ waiting.length :=
      List.length_filter_le _ _
    omega
  · split
    · have := pInsert_length_le p1 waiting
      omega
    · have := pInsert_length_le p2 waiting
      omega

theorem nodup_length_le (l : List Nat) (n : Nat) (hnd : l.Nodup)
    (hb : ∀ x ∈ l, x < n) : l.length ≤ n := by
  have h1 : l.toFinset.card = l.length := List.toFinset_card_of_nodup hnd
  have h2 : l.toFinset ⊆ Finset.range n := by
    intro x hx
    simp only [List.mem_toFinset] at hx
    exact Finset.mem_range.mpr (hb x hx)
  have h3 := Finset.card_le_card h2
  simp only [Finset.card_range] at h3
  omega

theorem partWF_length_le (n : Nat) (part : List (List Nat)) (hw : PartWF n part) :
    part.length ≤ n := by
  have hnd := sorted_part_nodup part hw.sortedPart
  have hmap : (part.map (fun B => B.headD 0)).Nodup := by
    refine List.Nodup.map_on ?_ hnd
    intro B hB C hC hfeq
    have hBne := hw.nonempty B hB
    have hCne := hw.nonempty C hC
    have hBm : B.headD 0 ∈ B := by
      cases B with
      | nil => exact absurd rfl hBne
      | cons a l => exact List.mem_cons_self _ _
    have hCm : C.headD 0 ∈ C := by
      cases C with
      | nil => exact absurd rfl hCne
      | cons a l => exact List.mem_cons_self _ _
    exact hw.disj B hB C hC (B.headD 0) hBm (hfeq ▸ hCm)
  have hb : ∀ x ∈ part.map (fun B => B.headD 0), x < n := by
    intro x hx
    obtain ⟨B, hB, hfx⟩ := List.mem_map.mp hx
    have hBne := hw.nonempty B hB
    have hBm : B.headD 0 ∈ B := by
      cases B with
      | nil => exact absurd rfl hBne
      | cons a l => exact List.mem_cons_self _ _
    exact hfx ▸ hw.bounded B hB _ hBm
  have := nodup_length_le _ n hmap hb
  simpa using this

theorem split_sets_mem (part : List (List Nat)) (dom : List Nat)
    (t : List Nat × List Nat × List Nat) (h : t ∈ split_sets part dom) :
    t.1 ∈ part ∧
    t.2.1 = t.1.filter (fun x => dom.contains x) ∧
    t.2.2 = t.1.filter (fun x => !(dom.contains x)) ∧
    t.2.1 ≠ [] ∧ t.2.2 ≠ [] := by
  simp only [split_sets, List.mem_filterMap] at h
  obtain ⟨p, hp, heq⟩ := h
  split at heq
  · cases heq
  · split at heq
    · cases heq
    · rename_i h1 h2
      injection heq with heq'
      rw [← heq']
      refine ⟨hp, rfl, rfl, ?_, ?_⟩
      · intro hc
        exact h1 (List.isEmpty_iff.mpr hc)
      · intro hc
        exact h2 (List.isEmpty_iff.mpr hc)

theorem split_sets_complete (part : List (List Nat)) (dom : List Nat)
    (B : List Nat) (hB : B ∈ part) (hs : SplitBy dom B) :
    ∃ t ∈ split_sets part dom, t.1 = B := by
  simp only [split_sets, List.mem_filterMap]
  obtain ⟨⟨x1, hx1, hx1d⟩, ⟨x2, hx2, hx2d⟩⟩ := hs
  have h1 : (B.filter (fun x => dom.contains x)).isEmpty = false := by
    rcases he : (B.filter (fun x => dom.contains x)).isEmpty with _ | _
    · rfl
    · rw [List.isEmpty_iff] at he
      have : x1 ∈ B.filter (fun x => dom.contains x) :=
        List.mem_filter.mpr ⟨hx1, (listContains_iff dom x1).mpr hx1d⟩
      rw [he] at this
      cases this
  have h2 : (B.filter (fun x => !(dom.contains x))).isEmpty = false := by
    rcases he : (B.filter (fun x => !(dom.contains x))).isEmpty with _ | _
    · rfl
    · rw [List.isEmpty_iff] at he
      have : x2 ∈ B.filter (fun x => !(dom.contains x)) := by
        refine List.mem_filter.mpr ⟨hx2, ?_⟩
        simp only [Bool.not_eq_true']
        rcases hc : dom.contains x2 with _ | _
        · rfl
        · exact absurd ((listContains_iff dom x2).mp hc) hx2d
      rw [he] at this
      cases this
  refine ⟨(B, B.filter (fun x => dom.contains x),
    B.filter (fun x => !(dom.contains x))), ⟨B, hB, ?_⟩, rfl⟩
  rw [if_neg (by rw [h1]; exact Bool.false_ne_true), if_neg (by rw [h2]; exact Bool.false_ne_true)]

theorem split_sets_firsts (part : List (List Nat)) (dom : List Nat)
    (hnd : part.Nodup) :
    (split_sets part dom).Pairwise (fun a b => a.1 ≠ b.1) := by
  refine List.Pairwise.filterMap _ ?_ hnd
  intro a b hab c hc d hd
  simp only [] at hc hd
  split at hc
  · cases hc
  · split at hc
    · cases hc
    · split at hd
      · cases hd
      · split at hd
        · cases hd
        · injection hc with hc'
          injection hd with hd'
          rw [← hc', ← hd']
          simpa using hab

theorem witCover_symm (waiting : List (List Nat)) (t1 t2 : Nat)
    (h : WitCover waiting t1 t2) : WitCover waiting t2 t1 := by
  obtain ⟨W, hW, h | h⟩ := h
  · exact ⟨W, hW, Or.inr h⟩
  · exact ⟨W, hW, Or.inl h⟩

theorem applySplits_master (n : Nat) (dom : List Nat) :
    ∀ (splits : List (List Nat × List Nat × List Nat))
      (part waiting : List (List Nat)),
      PartWF n part →
      (∀ W ∈ waiting, W ∈ part) →
      waiting.Sorted (fun a b => idsLt a b = true) →
      (∀ t ∈ splits, t.1 ∈ part ∧
        t.2.1 = t.1.filter (fun x => dom.contains x) ∧
        t.2.2 = t.1.filter (fun x => !(dom.contains x)) ∧
        t.2.1 ≠ [] ∧ t.2.2 ≠ []) →
      splits.Pairwise (fun a b => a.1 ≠ b.1) →
      PartWF n (applySplits splits (part, waiting)).1 ∧
      (∀ W ∈ (applySplits splits (part, waiting)).2,
        W ∈ (applySplits splits (part, waiting)).1) ∧
      (applySplits splits (part, waiting)).2.Sorted (fun a b => idsLt a b = true) ∧
      (∀ B' ∈ (applySplits splits (part, waiting)).1,
        ∃ B ∈ part, ∀ x ∈ B', x ∈ B) ∧
      (∀ t1 t2, WitCover waiting t1 t2 →
        WitCover (applySplits splits (part, waiting)).2 t1 t2) ∧
      (∀ t1 t2, SameBlock part t1 t2 →
        SameBlock (applySplits splits (part, waiting)).1 t1 t2 ∨
          WitCover (applySplits splits (part, waiting)).2 t1 t2) ∧
      ((∀ B ∈ part, SplitBy dom B → ∃ t ∈ splits, t.1 = B) →
        ∀ B' ∈ (applySplits splits (part, waiting)).1, ¬ SplitBy dom B') ∧
      ((applySplits splits (part, waiting)).2.length + 2 * part.length ≤
        waiting.length + 2 * (applySplits splits (part, waiting)).1.length)
  | [], part, waiting, hw, hws, hwsort, hsp, hpw => by
    simp only [applySplits]
    refine ⟨hw, hws, hwsort,
      fun B' hB' => ⟨B', hB', fun x hx => hx⟩,
      fun t1 t2 h => h,
      fun t1 t2 h => Or.inl h,
      fun hcomp B' hB' hsb => ?_,
      by omega⟩
    obtain ⟨t, ht, _⟩ := hcomp B' hB' hsb
    cases ht
  | (p, p1, p2) :: rest, part, waiting, hw, hws, hwsort, hsp, hpw => by
    obtain ⟨hp0, he10, he20, hne10, hne20⟩ := hsp (p, p1, p2) (List.mem_cons_self _ _)
    have hp : p ∈ part := hp0
    have he1 : p1 = p.filter (fun x => dom.contains x) := he10
    have he2 : p2 = p.filter (fun x => !(dom.contains x)) := he20
    have hne1 : p1 ≠ [] := hne10
    have hne2 : p2 ≠ [] := hne20
    have hmem : ∀ x, x ∈ p → x ∈ p1 ∨ x ∈ p2 := by
      intro x hx
      rcases hc : dom.contains x with _ | _
      · right
        rw [he2]
        exact List.mem_filter.mpr ⟨hx, by rw [hc]; rfl⟩
      · left
        rw [he1]
        exact List.mem_filter.mpr ⟨hx, hc⟩
    have hsub1 : ∀ x ∈ p1, x ∈ p := by
      intro x hx
      rw [he1] at hx
      exact (List.mem_filter.mp hx).1
    have hsub2 : ∀ x ∈ p2, x ∈ p := by
      intro x hx
      rw [he2] at hx
      exact (List.mem_filter.mp hx).1
    have hdisj : ∀ x, x ∈ p1 → x ∈ p2 → False := by
      intro x h1 h2
      rw [he1] at h1
      rw [he2] at h2
      have c1 := (List.mem_filter.mp h1).2
      have c2 := (List.mem_filter.mp h2).2
      rw [c1] at c2
      cases c2
    have hs1 : p1.Sorted (· < ·) := he1 ▸ (hw.sortedBlocks p hp).filter _
    have hs2 : p2.Sorted (· < ·) := he2 ▸ (hw.sortedBlocks p hp).filter _
    have hwf' := splitPart_wf n part p p1 p2 hw hp hmem hsub1 hsub2 hdisj hs1 hs2
      hne1 hne2
    rw [applySplits_cons]
    have hws' := waitUpd_sub p p1 p2 part waiting hws
    have hwsort' := waitUpd_sorted p p1 p2 waiting hwsort
    have hsp' : ∀ t ∈ rest, t.1 ∈ pInsert p1 (pInsert p2 (pRemove p part)) ∧
        t.2.1 = t.1.filter (fun x => dom.contains x) ∧
        t.2.2 = t.1.filter (fun x => !(dom.contains x)) ∧
        t.2.1 ≠ [] ∧ t.2.2 ≠ [] := by
      intro t ht
      obtain ⟨htp, a, b, c, d⟩ := hsp t (List.mem_cons_of_mem _ ht)
      refine ⟨?_, a, b, c, d⟩
      have htne : t.1 ≠ p := fun hc =>
        ((List.pairwise_cons.mp hpw).1 t ht) hc.symm
      exact (mem_splitPart p1 p2 p part t.1).mpr (Or.inr (Or.inr ⟨htp, htne⟩))
    have hpw' := (List.pairwise_cons.mp hpw).2
    obtain ⟨ih1, ih2, ih3, ih4, ih5, ih6, ih7, ih8⟩ :=
      applySplits_master n dom rest (pInsert p1 (pInsert p2 (pRemove p part)))
        (waitUpd p p1 p2 waiting) hwf' hws' hwsort' hsp' hpw'
    refine ⟨ih1, ih2, ih3, ?_, ?_, ?_, ?_, ?_⟩
    · intro B' hB'
      obtain ⟨B, hB, hsub⟩ := ih4 B' hB'
      rcases (mem_splitPart p1 p2 p part B).mp hB with hB1 | hB1 | ⟨hB2, _⟩
      · exact ⟨p, hp, fun x hx => hsub1 x (hB1 ▸ hsub x hx)⟩
      · exact ⟨p, hp, fun x hx => hsub2 x (hB1 ▸ hsub x hx)⟩
      · exact ⟨B, hB2, hsub⟩
    · intro t1 t2 h
      exact ih5 t1 t2 (waitUpd_wit_preserve p p1 p2 waiting hmem hsub1 hsub2 t1 t2 h)
    · intro t1 t2 h
      obtain ⟨B, hB, h1, h2⟩ := h
      by_cases hBp : B = p
      · subst hBp
        rcases hmem t1 h1 with m1 | m1 <;> rcases hmem t2 h2 with m2 | m2
        · exact ih6 t1 t2 ⟨p1,
            (mem_splitPart p1 p2 B part p1).mpr (Or.inl rfl), m1, m2⟩
        · exact Or.inr (ih5 t1 t2
            (waitUpd_wit_new B p1 p2 waiting hdisj t1 t2 m1 m2))
        · exact Or.inr (ih5 t1 t2 (witCover_symm _ _ _
            (waitUpd_wit_new B p1 p2 waiting hdisj t2 t1 m2 m1)))
        · exact ih6 t1 t2 ⟨p2,
            (mem_splitPart p1 p2 B part p2).mpr (Or.inr (Or.inl rfl)), m1, m2⟩
      · exact ih6 t1 t2 ⟨B,
          (mem_splitPart p1 p2 p part B).mpr (Or.inr (Or.inr ⟨hB, hBp⟩)), h1, h2⟩
    · intro hcomp
      refine ih7 ?_
      intro B hB hsb
      rcases (mem_splitPart p1 p2 p part B).mp hB with hB1 | hB1 | ⟨hB2, hBp⟩
      · exfalso
        obtain ⟨_, ⟨x, hx, hxd⟩⟩ := hsb
        rw [hB1, he1] at hx
        exact hxd ((listContains_iff dom x).mp (List.mem_filter.mp hx).2)
      · exfalso
        obtain ⟨⟨x, hx, hxd⟩, _⟩ := hsb
        rw [hB1, he2] at hx
        have hxc := (List.mem_filter.mp hx).2
        rw [(listContains_iff dom x).mpr hxd] at hxc
        cases hxc
      · obtain ⟨t, ht, hteq⟩ := hcomp B hB2 hsb
        rcases List.mem_cons.mp ht with ht1 | ht'
        · exfalso
          rw [ht1] at hteq
          exact hBp hteq.symm
        · exact ⟨t, ht', hteq⟩
    · have hnd := sorted_part_nodup part hw.sortedPart
      have hrem : (pRemove p part).length + 1 = part.length :=
        pRemove_length p part hnd hp
      have hp2notin : p2 ∉ pRemove p part := by
        intro hc
        obtain ⟨hc1, hc2⟩ := (mem_pRemove p2 p part).mp hc
        obtain ⟨x, hx⟩ := List.exists_mem_of_ne_nil p2 hne2
        exact hc2 (hw.disj p2 hc1 p hp x hx (hsub2 x hx))
      have hp1notin : p1 ∉ pInsert p2 (pRemove p part) := by
        intro hc
        rcases (mem_pInsert p1 p2 (pRemove p part)).mp hc with heq | hc'
        · obtain ⟨x, hx⟩ := List.exists_mem_of_ne_nil p1 hne1
          exact hdisj x hx (heq ▸ hx)
        · obtain ⟨hc1, hc2⟩ := (mem_pRemove p1 p part).mp hc'
          obtain ⟨x, hx⟩ := List.exists_mem_of_ne_nil p1 hne1
          exact hc2 (hw.disj p1 hc1 p hp x hx (hsub1 x hx))
      have hlen1 : (pInsert p1 (pInsert p2 (pRemove p part))).length =
          part.length + 1 := by
        rw [pInsert_length_of_not_mem p1 _ hp1notin,
          pInsert_length_of_not_mem p2 _ hp2notin]
        omega
      have hlen2 := waitUpd_length p p1 p2 waiting
      rw [hlen1] at ih8
      omega

theorem unsplit_of_subset (dom B B' : List Nat) (hsub : ∀ x ∈ B', x ∈ B)
    (h : ¬ SplitBy dom B) : ¬ SplitBy dom B' := by
  rintro ⟨⟨x, hx, hxd⟩, ⟨y, hy, hyd⟩⟩
  exact h ⟨⟨x, hsub x hx, hxd⟩, ⟨y, hsub y hy, hyd⟩⟩

theorem processSymbols_master (n : Nat) (d : Dfa) (wq : List Nat) :
    ∀ (alphRest : List Nat) (part waiting : List (List Nat)),
      PartWF n part →
      (∀ W ∈ waiting, W ∈ part) →
      waiting.Sorted (fun a b => idsLt a b = true) →
      PartWF n (processSymbols d wq alphRest (part, waiting)).1 ∧
      (∀ W ∈ (processSymbols d wq alphRest (part, waiting)).2,
        W ∈ (processSymbols d wq alphRest (part, waiting)).1) ∧
      (processSymbols d wq alphRest (part, waiting)).2.Sorted
        (fun a b => idsLt a b = true) ∧
      (∀ B' ∈ (processSymbols d wq alphRest (part, waiting)).1,
        ∃ B ∈ part, ∀ x ∈ B', x ∈ B) ∧
      (∀ t1 t2, WitCover waiting t1 t2 →
        WitCover (processSymbols d wq alphRest (part, waiting)).2 t1 t2) ∧
      (∀ t1 t2, SameBlock part t1 t2 →
        SameBlock (processSymbols d wq alphRest (part, waiting)).1 t1 t2 ∨
          WitCover (processSymbols d wq alphRest (part, waiting)).2 t1 t2) ∧
      (∀ a ∈ alphRest, ∀ inv, invSet d wq a = some inv →
        ∀ B' ∈ (processSymbols d wq alphRest (part, waiting)).1,
          ¬ SplitBy inv B') ∧
      ((processSymbols d wq alphRest (part, waiting)).2.length + 2 * part.length ≤
        waiting.length + 2 * (processSymbols d wq alphRest (part, waiting)).1.length)
  | [], part, waiting, hw, hws, hwsort => by
    simp only [processSymbols]
    refine ⟨hw, hws, hwsort,
      fun B' hB' => ⟨B', hB', fun x hx => hx⟩,
      fun t1 t2 h => h,
      fun t1 t2 h => Or.inl h,
      fun a ha => ?_,
      by omega⟩
    cases ha
  | symbol :: alphRest, part, waiting, hw, hws, hwsort => by
    rcases hinv : invSet d wq symbol with _ | inv
    · rw [show processSymbols d wq (symbol :: alphRest) (part, waiting) =
        processSymbols d wq alphRest (part, waiting) from by
        simp [processSymbols, hinv]]
      obtain ⟨ih1, ih2, ih3, ih4, ih5, ih6, ih7, ih8⟩ :=
        processSymbols_master n d wq alphRest part waiting hw hws hwsort
      refine ⟨ih1, ih2, ih3, ih4, ih5, ih6, ?_, ih8⟩
      intro a ha inv' hinv' B' hB'
      rcases List.mem_cons.mp ha with rfl | ha'
      · rw [hinv] at hinv'
        cases hinv'
      · exact ih7 a ha' inv' hinv' B' hB'
    · rw [show processSymbols d wq (symbol :: alphRest) (part, waiting) =
        processSymbols d wq alphRest
          (applySplits (split_sets part inv) (part, waiting)) from by
        simp [processSymbols, hinv]]
      have hsp : ∀ t ∈ split_sets part inv, t.1 ∈ part ∧
          t.2.1 = t.1.filter (fun x => inv.contains x) ∧
          t.2.2 = t.1.filter (fun x => !(inv.contains x)) ∧
          t.2.1 ≠ [] ∧ t.2.2 ≠ [] :=
        fun t ht => split_sets_mem part inv t ht
      have hpw := split_sets_firsts part inv (sorted_part_nodup part hw.sortedPart)
      obtain ⟨m1, m2, m3, m4, m5, m6, m7, m8⟩ :=
        applySplits_master n inv (split_sets part inv) part waiting
          hw hws hwsort hsp hpw
      obtain ⟨ih1, ih2, ih3, ih4, ih5, ih6, ih7, ih8⟩ :=
        processSymbols_master n d wq alphRest
          (applySplits (split_sets part inv) (part, waiting)).1
          (applySplits (split_sets part inv) (part, waiting)).2 m1 m2 m3
      have hpair : ((applySplits (split_sets part inv) (part, waiting)).1,
          (applySplits (split_sets part inv) (part, waiting)).2) =
          applySplits (split_sets part inv) (part, waiting) := rfl
      rw [hpair] at ih1 ih2 ih3 ih4 ih5 ih6 ih7 ih8
      have hmid7 := m7 (fun B hB hsb => split_sets_complete part inv B hB hsb)
      refine ⟨ih1, ih2, ih3, ?_, ?_, ?_, ?_, ?_⟩
      · intro B' hB'
        obtain ⟨Bm, hBm, hsubm⟩ := ih4 B' hB'
        obtain ⟨B, hB, hsub⟩ := m4 Bm hBm
        exact ⟨B, hB, fun x hx => hsub x (hsubm x hx)⟩
      · intro t1 t2 h
        exact ih5 t1 t2 (m5 t1 t2 h)
      · intro t1 t2 h
        rcases m6 t1 t2 h with hL | hR
        · exact ih6 t1 t2 hL
        · exact Or.inr (ih5 t1 t2 hR)
      · intro a ha inv' hinv' B' hB'
        rcases List.mem_cons.mp ha with rfl | ha'
        · rw [hinv] at hinv'
          injection hinv' with hinv''
          subst hinv''
          obtain ⟨Bm, hBm, hsubm⟩ := ih4 B' hB'
          exact unsplit_of_subset _ Bm B' hsubm (hmid7 Bm hBm)
        · exact ih7 a ha' inv' hinv' B' hB'
      · omega

/-- The Hopcroft loop invariant: whenever two same-block states step (at
an alphabet symbol) into different blocks, some waiting set separates the
two targets. -/
def StableInv (d : Dfa) (alph : List Nat) (part waiting : List (List Nat)) : Prop :=
  ∀ a ∈ alph, ∀ p q : Nat, SameBlock part p q →
    ¬ SameBlock part (effStep d p a) (effStep d q a) →
    WitCover waiting (effStep d p a) (effStep d q a)

theorem stable_of_empty (d : Dfa) (alph : List Nat) (part : List (List Nat))
    (hS : StableInv d alph part []) :
    ∀ a ∈ alph, ∀ p q, SameBlock part p q →
      SameBlock part (effStep d p a) (effStep d q a) := by
  intro a ha p q hpq
  by_cases h : SameBlock part (effStep d p a) (effStep d q a)
  · exact h
  · obtain ⟨W, hW, _⟩ := hS a ha p q hpq h
    cases hW

theorem hopcroftLoop_master (d : Dfa) :
    ∀ (fuel : Nat) (part waiting : List (List Nat)),
      PartWF d.states.length part →
      (∀ W ∈ waiting, W ∈ part) →
      waiting.Sorted (fun a b => idsLt a b = true) →
      (∀ B ∈ part, ∃ C ∈ coarse_partition d, ∀ x ∈ B, x ∈ C) →
      StableInv d (alphabet d) part waiting →
      waiting.length + 2 * d.states.length ≤ fuel + 2 * part.length →
      PartWF d.states.length (hopcroftLoop d (alphabet d) fuel (part, waiting)) ∧
      (∀ B ∈ hopcroftLoop d (alphabet d) fuel (part, waiting),
        ∃ C ∈ coarse_partition d, ∀ x ∈ B, x ∈ C) ∧
      (∀ a ∈ alphabet d, ∀ p q,
        SameBlock (hopcroftLoop d (alphabet d) fuel (part, waiting)) p q →
        SameBlock (hopcroftLoop d (alphabet d) fuel (part, waiting))
          (effStep d p a) (effStep d q a))
  | 0, part, waiting, hw, hws, hwsort, hrc, hS, hfuel => by
    have hnil : waiting = [] := by
      have := partWF_length_le _ _ hw
      cases waiting with
      | nil => rfl
      | cons w rest => exfalso; simp only [List.length_cons] at hfuel; omega
    subst hnil
    exact ⟨hw, hrc, stable_of_empty d (alphabet d) part hS⟩
  | fuel + 1, part, waiting, hw, hws, hwsort, hrc, hS, hfuel => by
    cases waiting with
    | nil =>
      exact ⟨hw, hrc, stable_of_empty d (alphabet d) part hS⟩
    | cons w rest =>
      rw [show hopcroftLoop d (alphabet d) (fuel + 1) (part, w :: rest) =
        hopcroftLoop d (alphabet d) fuel
          (processSymbols d w (alphabet d) (part, rest)) from rfl]
      have hws' : ∀ W ∈ rest, W ∈ part :=
        fun W hW => hws W (List.mem_cons_of_mem _ hW)
      have hwsort' : rest.Sorted (fun a b => idsLt a b = true) :=
        (List.sorted_cons.mp hwsort).2
      obtain ⟨m1, m2, m3, m4, m5, m6, m7, m8⟩ :=
        processSymbols_master d.states.length d w (alphabet d) part rest
          hw hws' hwsort'
      have hpair : ((processSymbols d w (alphabet d) (part, rest)).1,
          (processSymbols d w (alphabet d) (part, rest)).2) =
          processSymbols d w (alphabet d) (part, rest) := rfl
      have hrc' : ∀ B ∈ (processSymbols d w (alphabet d) (part, rest)).1,
          ∃ C ∈ coarse_partition d, ∀ x ∈ B, x ∈ C := by
        intro B hB
        obtain ⟨B0, hB0, hsub⟩ := m4 B hB
        obtain ⟨C, hC, hsub'⟩ := hrc B0 hB0
        exact ⟨C, hC, fun x hx => hsub' x (hsub x hx)⟩
      have hS' : StableInv d (alphabet d)
          (processSymbols d w (alphabet d) (part, rest)).1
          (processSymbols d w (alphabet d) (part, rest)).2 := by
        intro a ha p q hpq hnsb
        obtain ⟨B', hB', hpB, hqB⟩ := hpq
        obtain ⟨B, hB, hsubB⟩ := m4 B' hB'
        have hpqOld : SameBlock part p q := ⟨B, hB, hsubB p hpB, hsubB q hqB⟩
        by_cases hold : SameBlock part (effStep d p a) (effStep d q a)
        · rcases m6 (effStep d p a) (effStep d q a) hold with hL | hR
          · exact absurd hL hnsb
          · exact hR
        · obtain ⟨W, hW, hsep⟩ := hS a ha p q hpqOld hold
          rcases List.mem_cons.mp hW with rfl | hW'
          · exfalso
            have hpn : p < d.states.length := m1.bounded B' hB' p hpB
            have hqn : q < d.states.length := m1.bounded B' hB' q hqB
            rcases hsep with ⟨h1, h2⟩ | ⟨h1, h2⟩
            · have hpmem : p ∈ (List.range d.states.length).filter
                  (fun src => W.contains (effStep d src a)) :=
                List.mem_filter.mpr ⟨List.mem_range.mpr hpn,
                  (listContains_iff W _).mpr h1⟩
              have hpre : invSet d W a = some ((List.range d.states.length).filter
                  (fun src => W.contains (effStep d src a))) := by
                simp only [invSet]
                rw [if_neg ?_]
                intro hc
                rw [List.isEmpty_iff] at hc
                rw [hc] at hpmem
                cases hpmem
              refine m7 a ha _ hpre B' hB' ⟨⟨p, hpB, hpmem⟩, ⟨q, hqB, ?_⟩⟩
              intro hc
              exact h2 ((listContains_iff W _).mp (List.mem_filter.mp hc).2)
            · have hqmem : q ∈ (List.range d.states.length).filter
                  (fun src => W.contains (effStep d src a)) :=
                List.mem_filter.mpr ⟨List.mem_range.mpr hqn,
                  (listContains_iff W _).mpr h1⟩
              have hpre : invSet d W a = some ((List.range d.states.length).filter
                  (fun src => W.contains (effStep d src a))) := by
                simp only [invSet]
                rw [if_neg ?_]
                intro hc
                rw [List.isEmpty_iff] at hc
                rw [hc] at hqmem
                cases hqmem
              refine m7 a ha _ hpre B' hB' ⟨⟨q, hqB, hqmem⟩, ⟨p, hpB, ?_⟩⟩
              intro hc
              exact h2 ((listContains_iff W _).mp (List.mem_filter.mp hc).2)
          · exact m5 (effStep d p a) (effStep d q a) ⟨W, hW', hsep⟩
      have hfuel' : (processSymbols d w (alphabet d) (part, rest)).2.length +
          2 * d.states.length ≤ fuel +
          2 * (processSymbols d w (alphabet d) (part, rest)).1.length := by
        simp only [List.length_cons] at hfuel
        omega
      have := hopcroftLoop_master d fuel
        (processSymbols d w (alphabet d) (part, rest)).1
        (processSymbols d w (alphabet d) (part, rest)).2
        m1 m2 m3 hrc' hS' hfuel'
      rw [hpair] at this
      exact this

theorem mem_foldl_pInsert (g : Nat → List Nat) :
    ∀ (l : List Nat) (init : List (List Nat)) (x : List Nat),
      x ∈ l.foldl (fun part k => pInsert (g k) part) init ↔
        x ∈ init ∨ ∃ k ∈ l, x = g k
  | [], init, x => by simp
  | k0 :: rest, init, x => by
    rw [List.foldl_cons, mem_foldl_pInsert g rest (pInsert (g k0) init) x]
    rw [mem_pInsert]
    constructor
    · rintro (⟨h | h⟩ | ⟨k, hk, h⟩)
      · exact Or.inr ⟨k0, List.mem_cons_self _ _, h⟩
      · exact Or.inl h
      · exact Or.inr ⟨k, List.mem_cons_of_mem _ hk, h⟩
    · rintro (h | ⟨k, hk, h⟩)
      · exact Or.inl (Or.inr h)
      · rcases List.mem_cons.mp hk with rfl | hk'
        · exact Or.inl (Or.inl h)
        · exact Or.inr ⟨k, hk', h⟩

theorem foldl_pInsert_sorted (g : Nat → List Nat) :
    ∀ (l : List Nat) (init : List (List Nat)),
      init.Sorted (fun a b => idsLt a b = true) →
      (l.foldl (fun part k => pInsert (g k) part) init).Sorted
        (fun a b => idsLt a b = true)
  | [], init, h => h
  | k0 :: rest, init, h =>
    foldl_pInsert_sorted g rest (pInsert (g k0) init) (pInsert_sorted _ _ h)

theorem mem_foldl_sInsert (key : Nat → Nat) :
    ∀ (l : List Nat) (init : List Nat) (x : Nat),
      x ∈ l.foldl (fun acc id => sInsert (key id) acc) init ↔
        x ∈ init ∨ ∃ id ∈ l, key id = x
  | [], init, x => by simp
  | i0 :: rest, init, x => by
    rw [List.foldl_cons, mem_foldl_sInsert key rest (sInsert (key i0) init) x]
    have hmem : ∀ y l', y ∈ sInsert (key i0) l' ↔ y = key i0 ∨ y ∈ l' := by
      intro y l'
      induction l' with
      | nil => simp [sInsert]
      | cons z rest' ih =>
        simp only [sInsert]
        split
        · exact List.mem_cons
        · split
          · rename_i hz
            simp only [List.mem_cons]
            constructor
            · rintro (rfl | h)
              · exact Or.inl hz.symm
              · exact Or.inr (Or.inr h)
            · rintro (rfl | h)
              · exact Or.inl (by omega)
              · exact h
          · simp only [List.mem_cons, ih]
            tauto
    rw [hmem]
    constructor
    · rintro (⟨h | h⟩ | ⟨id, hid, h⟩)
      · exact Or.inr ⟨i0, List.mem_cons_self _ _, h.symm⟩
      · exact Or.inl h
      · exact Or.inr ⟨id, List.mem_cons_of_mem _ hid, h⟩
    · rintro (h | ⟨id, hid, h⟩)
      · exact Or.inl (Or.inr h)
      · rcases List.mem_cons.mp hid with rfl | hid'
        · exact Or.inl (Or.inl h.symm)
        · exact Or.inr ⟨id, hid', h⟩

/-- The grouping key of `coarse_partition`. -/
def classKey (d : Dfa) (id : Nat) : Nat :=
  match (d.states.getD id ⟨none, []⟩).class? with
  | none => 0
  | some c => c + 1

theorem mem_coarse_partition (d : Dfa) (B : List Nat) :
    B ∈ coarse_partition d ↔
      ∃ k, (∃ id ∈ List.range d.states.length, classKey d id = k) ∧
        B = (List.range d.states.length).filter (fun id => classKey d id == k) := by
  simp only [coarse_partition]
  rw [mem_foldl_pInsert]
  constructor
  · rintro (h | ⟨k, hk, h⟩)
    · cases h
    · rw [mem_foldl_sInsert] at hk
      rcases hk with h' | h'
      · cases h'
      · exact ⟨k, h', h⟩
  · rintro ⟨k, hk, h⟩
    refine Or.inr ⟨k, ?_, h⟩
    rw [mem_foldl_sInsert]
    exact Or.inr hk

theorem coarse_partition_wf (d : Dfa) : PartWF d.states.length (coarse_partition d) := by
  constructor
  · intro B hB
    obtain ⟨k, ⟨id, hid, hkey⟩, hBe⟩ := (mem_coarse_partition d B).mp hB
    intro hc
    have : id ∈ (List.range d.states.length).filter (fun i => classKey d i == k) :=
      List.mem_filter.mpr ⟨hid, by rw [hkey]; exact beq_self_eq_true k⟩
    rw [← hBe, hc] at this
    cases this
  · intro B hB
    obtain ⟨k, _, hBe⟩ := (mem_coarse_partition d B).mp hB
    rw [hBe]
    exact (List.sorted_lt_range _).filter _
  · intro B hB x hx
    obtain ⟨k, _, hBe⟩ := (mem_coarse_partition d B).mp hB
    rw [hBe] at hx
    exact List.mem_range.mp (List.mem_filter.mp hx).1
  · intro x hx
    refine ⟨(List.range d.states.length).filter
      (fun i => classKey d i == classKey d x), ?_, ?_⟩
    · exact (mem_coarse_partition d _).mpr
        ⟨classKey d x, ⟨x, List.mem_range.mpr hx, rfl⟩, rfl⟩
    · exact List.mem_filter.mpr ⟨List.mem_range.mpr hx, beq_self_eq_true _⟩
  · intro B hB C hC x hxB hxC
    obtain ⟨k1, _, hBe⟩ := (mem_coarse_partition d B).mp hB
    obtain ⟨k2, _, hCe⟩ := (mem_coarse_partition d C).mp hC
    rw [hBe] at hxB
    rw [hCe] at hxC
    have h1 := (List.mem_filter.mp hxB).2
    have h2 := (List.mem_filter.mp hxC).2
    rw [beq_iff_eq] at h1 h2
    rw [hBe, hCe, ← h1, ← h2]
  · exact foldl_pInsert_sorted _ _ [] (List.sorted_nil)

theorem coarse_class_eq (d : Dfa) (B : List Nat) (hB : B ∈ coarse_partition d)
    (x y : Nat) (hx : x ∈ B) (hy : y ∈ B) :
    (d.states.getD x ⟨none, []⟩).class? = (d.states.getD y ⟨none, []⟩).class? := by
  obtain ⟨k, _, hBe⟩ := (mem_coarse_partition d B).mp hB
  rw [hBe] at hx hy
  have h1 := (List.mem_filter.mp hx).2
  have h2 := (List.mem_filter.mp hy).2
  rw [beq_iff_eq] at h1 h2
  have hk : classKey d x = classKey d y := by rw [h1, h2]
  revert hk
  simp only [classKey]
  rcases (d.states.getD x ⟨none, []⟩).class? with _ | cx <;>
    rcases (d.states.getD y ⟨none, []⟩).class? with _ | cy
  · intro _
    rfl
  · intro h
    exact absurd h (by simp)
  · intro h
    exact absurd h (by simp)
  · intro h
    have h' : cx + 1 = cy + 1 := h
    simp only [Nat.add_right_cancel_iff] at h'
    rw [h']

theorem removeLastMax_sublist (m : Nat) :
    ∀ l : List (List Nat), (removeLastMax m l).Sublist l
  | [] => List.Sublist.refl []
  | s :: rest => by
    simp only [removeLastMax]
    split
    · exact List.sublist_cons_self _ _
    · exact List.Sublist.cons₂ s (removeLastMax_sublist m rest)

theorem removeLastMax_pair (m : Nat) :
    ∀ (l : List (List Nat)) (B C : List Nat), B ∈ l → C ∈ l → B ≠ C →
      B ∈ removeLastMax m l ∨ C ∈ removeLastMax m l
  | [], B, C, hB, _, _ => by cases hB
  | s :: rest, B, C, hB, hC, hne => by
    simp only [removeLastMax]
    split
    · rcases List.mem_cons.mp hB with rfl | hB'
      · rcases List.mem_cons.mp hC with rfl | hC'
        · exact absurd rfl hne
        · exact Or.inr hC'
      · exact Or.inl hB'
    · rcases List.mem_cons.mp hB with rfl | hB'
      · exact Or.inl (List.mem_cons_self _ _)
      · rcases List.mem_cons.mp hC with rfl | hC'
        · exact Or.inr (List.mem_cons_self _ _)
        · rcases removeLastMax_pair m rest B C hB' hC' hne with h | h
          · exact Or.inl (List.mem_cons_of_mem _ h)
          · exact Or.inr (List.mem_cons_of_mem _ h)

theorem all_but_largest_sub (part : List (List Nat)) :
    ∀ W ∈ all_but_largest part, W ∈ part :=
  fun W hW => (removeLastMax_sublist _ part).mem hW

theorem all_but_largest_sorted (part : List (List Nat))
    (h : part.Sorted (fun a b => idsLt a b = true)) :
    (all_but_largest part).Sorted (fun a b => idsLt a b = true) :=
  h.sublist (removeLastMax_sublist _ part)

theorem all_but_largest_pair (part : List (List Nat)) (B C : List Nat)
    (hB : B ∈ part) (hC : C ∈ part) (hne : B ≠ C) :
    B ∈ all_but_largest part ∨ C ∈ all_but_largest part :=
  removeLastMax_pair _ part B C hB hC hne

theorem mapGet_mem (k : Nat) : ∀ (l : List (Nat × Nat)) (v : Nat),
    mapGet k l = some v → (k, v) ∈ l
  | [], v, h => by cases h
  | (k', v') :: rest, v, h => by
    simp only [mapGet] at h
    split at h
    · rename_i hk
      injection h with h'
      rw [hk, h']
      exact List.mem_cons_self _ _
    · exact List.mem_cons_of_mem _ (mapGet_mem k rest v h)

theorem effStep_lt (d : Dfa) (h1 : 1 ≤ d.states.length)
    (hbound : ∀ st ∈ d.states, ∀ kv ∈ st.next, kv.2 < d.states.length)
    (id a : Nat) : effStep d id a < d.states.length := by
  simp only [effStep]
  rcases hm : mapGet a (d.states.getD id ⟨none, []⟩).next with _ | t
  · exact h1
  · rcases Nat.lt_or_ge id d.states.length with hid | hid
    · have hmem : d.states.getD id ⟨none, []⟩ ∈ d.states := by
        rw [List.getD_eq_getElem _ _ hid]
        exact List.getElem_mem _
      exact hbound _ hmem (a, t) (mapGet_mem a _ t hm)
    · rw [List.getD_eq_default _ _ hid] at hm
      cases hm

theorem initial_stable (d : Dfa)
    (h1 : 1 ≤ d.states.length)
    (hbound : ∀ st ∈ d.states, ∀ kv ∈ st.next, kv.2 < d.states.length)
    (part : List (List Nat)) (hw : PartWF d.states.length part)
    (alph : List Nat) :
    StableInv d alph part (all_but_largest part) := by
  intro a ha p q hpq hnsb
  have ht1 := effStep_lt d h1 hbound p a
  have ht2 := effStep_lt d h1 hbound q a
  obtain ⟨B1, hB1, hm1⟩ := hw.covers _ ht1
  obtain ⟨B2, hB2, hm2⟩ := hw.covers _ ht2
  have hBne : B1 ≠ B2 := by
    intro hc
    exact hnsb ⟨B1, hB1, hm1, hc ▸ hm2⟩
  rcases all_but_largest_pair part B1 B2 hB1 hB2 hBne with h | h
  · refine ⟨B1, h, Or.inl ⟨hm1, fun hc => ?_⟩⟩
    exact hBne (hw.disj B1 hB1 B2 hB2 _ hc hm2)
  · refine ⟨B2, h, Or.inr ⟨hm2, fun hc => ?_⟩⟩
    exact hBne (hw.disj B2 hB2 B1 hB1 _ hc hm1).symm

/-- The refined partition returned by `equivalence_classes` (for any fuel
at least `3n`): a well-formed partition refining the coarse (class) one,
stable under every used symbol. -/
theorem equivalence_classes_spec (d : Dfa) (fuel : Nat)
    (h1 : 1 ≤ d.states.length)
    (hbound : ∀ st ∈ d.states, ∀ kv ∈ st.next, kv.2 < d.states.length)
    (hfuel : 3 * d.states.length ≤ fuel) :
    PartWF d.states.length (equivalence_classes fuel d) ∧
    (∀ B ∈ equivalence_classes fuel d, ∃ C ∈ coarse_partition d, ∀ x ∈ B, x ∈ C) ∧
    (∀ a ∈ alphabet d, ∀ p q,
      SameBlock (equivalence_classes fuel d) p q →
      SameBlock (equivalence_classes fuel d) (effStep d p a) (effStep d q a)) := by
  have hcw := coarse_partition_wf d
  have habl_len : (all_but_largest (coarse_partition d)).length ≤
      (coarse_partition d).length :=
    (removeLastMax_sublist _ _).length_le
  have hclen := partWF_length_le _ _ hcw
  exact hopcroftLoop_master d fuel (coarse_partition d)
    (all_but_largest (coarse_partition d)) hcw
    (all_but_largest_sub _)
    (all_but_largest_sorted _ hcw.sortedPart)
    (fun B hB => ⟨B, hB, fun x hx => hx⟩)
    (initial_stable d h1 hbound (coarse_partition d) hcw (alphabet d))
    (by omega)

theorem mem_sInsert (y x : Nat) : ∀ l : List Nat, y ∈ sInsert x l ↔ y = x ∨ y ∈ l
  | [] => by simp [sInsert]
  | z :: rest => by
    simp only [sInsert]
    split
    · exact List.mem_cons
    · split
      · rename_i hz
        simp only [List.mem_cons]
        constructor
        · rintro (rfl | h)
          · exact Or.inl hz.symm
          · exact Or.inr (Or.inr h)
        · rintro (rfl | h)
          · exact Or.inl (by omega)
          · exact h
      · simp only [List.mem_cons, mem_sInsert y x rest]
        tauto

theorem foldl_sInsert_mono (f : Nat × Nat → Nat) :
    ∀ (kvs : List (Nat × Nat)) (acc : List Nat) (x : Nat), x ∈ acc →
      x ∈ kvs.foldl (fun acc kv => sInsert (f kv) acc) acc
  | [], _, x, hx => hx
  | kv :: rest, acc, x, hx =>
    foldl_sInsert_mono f rest _ x ((mem_sInsert x (f kv) acc).mpr (Or.inr hx))

theorem foldl_sInsert_mem (f : Nat × Nat → Nat) :
    ∀ (kvs : List (Nat × Nat)) (acc : List Nat) (kv : Nat × Nat), kv ∈ kvs →
      f kv ∈ kvs.foldl (fun acc kv => sInsert (f kv) acc) acc
  | [], _, _, h => by cases h
  | kv0 :: rest, acc, kv, h => by
    rcases List.mem_cons.mp h with rfl | h'
    · exact foldl_sInsert_mono f rest _ _ ((mem_sInsert _ _ acc).mpr (Or.inl rfl))
    · exact foldl_sInsert_mem f rest _ kv h'

theorem alphFold_mono :
    ∀ (states : List DFAState) (acc : List Nat) (x : Nat), x ∈ acc →
      x ∈ states.foldl
        (fun acc st => st.next.foldl (fun acc kv => sInsert kv.1 acc) acc) acc
  | [], _, _, hx => hx
  | st0 :: rest, acc, x, hx =>
    alphFold_mono rest _ x (foldl_sInsert_mono Prod.fst st0.next acc x hx)

theorem alphFold_mem :
    ∀ (states : List DFAState) (acc : List Nat) (st : DFAState), st ∈ states →
      ∀ kv ∈ st.next, kv.1 ∈ states.foldl
        (fun acc st => st.next.foldl (fun acc kv => sInsert kv.1 acc) acc) acc
  | [], _, _, h => by intro kv hkv; cases h
  | st0 :: rest, acc, st, h => by
    intro kv hkv
    rcases List.mem_cons.mp h with rfl | h'
    · exact alphFold_mono rest _ _ (foldl_sInsert_mem Prod.fst st.next acc kv hkv)
    · exact alphFold_mem rest _ st h' kv hkv

theorem alphabet_complete (d : Dfa) (st : DFAState) (hst : st ∈ d.states)
    (kv : Nat × Nat) (hkv : kv ∈ st.next) : kv.1 ∈ alphabet d :=
  alphFold_mem d.states [] st hst kv hkv

theorem mapGet_eq_none (k : Nat) : ∀ l : List (Nat × Nat),
    mapGet k l = none ↔ ∀ kv ∈ l, kv.1 ≠ k
  | [] => by simp [mapGet]
  | (k', v') :: rest => by
    simp only [mapGet]
    split
    · rename_i hk
      simp only [List.mem_cons]
      constructor
      · intro h
        cases h
      · intro h
        exact absurd hk (h (k', v') (Or.inl rfl))
    · rename_i hk
      rw [mapGet_eq_none k rest]
      simp only [List.mem_cons]
      constructor
      · rintro h kv (rfl | hkv)
        · exact hk
        · exact h kv hkv
      · intro h kv hkv
        exact h kv (Or.inr hkv)

theorem mapGet_insert_self (k v : Nat) : ∀ l : List (Nat × Nat),
    mapGet k (mapInsert k v l) = some v
  | [] => by simp [mapInsert, mapGet]
  | (k', v') :: rest => by
    simp only [mapInsert]
    split
    · simp [mapGet]
    · rename_i hk
      simp only [mapGet]
      rw [if_neg hk]
      exact mapGet_insert_self k v rest

theorem mapGet_insert_ne (k v a : Nat) (hne : a ≠ k) : ∀ l : List (Nat × Nat),
    mapGet a (mapInsert k v l) = mapGet a l
  | [] => by
    simp only [mapInsert, mapGet]
    rw [if_neg (fun hc => hne hc.symm)]
  | (k', v') :: rest => by
    simp only [mapInsert]
    split
    · rename_i hk
      simp only [mapGet]
      rw [if_neg (show ¬(k = a) from fun hc => hne hc.symm),
        if_neg (show ¬(k' = a) from fun hc => hne (by rw [← hc, hk]))]
    · simp only [mapGet]
      split
      · rfl
      · exact mapGet_insert_ne k v a hne rest

/-- The effective run of the DFA from a state. -/
def run (d : Dfa) (s : Nat) (w : List Nat) : Nat := w.foldl (effStep d) s

/-- `class(run ..).is_some()`: the total acceptance function underlying
`DFA::matches`. -/
def acceptsFrom (d : Dfa) (s : Nat) (w : List Nat) : Bool :=
  ((d.states.getD (run d s w) ⟨none, []⟩).class?).isSome

theorem run_lt (d : Dfa) (h1 : 1 ≤ d.states.length)
    (hbound : ∀ st ∈ d.states, ∀ kv ∈ st.next, kv.2 < d.states.length) :
    ∀ (w : List Nat) (s : Nat), s < d.states.length → run d s w < d.states.length
  | [], s, hs => hs
  | b :: rest, s, hs =>
    run_lt d h1 hbound rest (effStep d s b) (effStep_lt d h1 hbound s b)

theorem step_eq_effStep (d : Dfa) (s b : Nat) (hs : s < d.states.length) :
    d.step? s b = some (effStep d s b) := by
  simp only [Dfa.step?, effStep]
  rw [show d.states.get? s = some (d.states.getD s ⟨none, []⟩) from by
    rw [List.getD_eq_getElem _ _ hs, List.get?_eq_getElem?,
      List.getElem?_eq_getElem hs]]
  rcases hm : mapGet b (d.states.getD s ⟨none, []⟩).next with _ | t <;>
    simp [← List.getD_eq_getElem?_getD, hm]

theorem foldlM_eq_run (d : Dfa) (h1 : 1 ≤ d.states.length)
    (hbound : ∀ st ∈ d.states, ∀ kv ∈ st.next, kv.2 < d.states.length) :
    ∀ (w : List Nat) (s : Nat), s < d.states.length →
      w.foldlM d.step? s = some (run d s w)
  | [], s, hs => rfl
  | b :: rest, s, hs => by
    rw [show (b :: rest).foldlM d.step? s =
      d.step? s b >>= (fun s' => rest.foldlM d.step? s') from rfl]
    rw [step_eq_effStep d s b hs]
    rw [show (some (effStep d s b) >>= fun s' => rest.foldlM d.step? s') =
      rest.foldlM d.step? (effStep d s b) from rfl]
    exact foldlM_eq_run d h1 hbound rest (effStep d s b)
      (effStep_lt d h1 hbound s b)

theorem matches_eq_run (d : Dfa) (h1 : 1 < d.states.length)
    (hbound : ∀ st ∈ d.states, ∀ kv ∈ st.next, kv.2 < d.states.length)
    (w : List Nat) : d.matches? w = some (acceptsFrom d 1 w) := by
  simp only [Dfa.matches?]
  rw [foldlM_eq_run d (by omega) hbound w 1 h1]
  have hrun : run d 1 w < d.states.length := run_lt d (by omega) hbound w 1 h1
  have hget : d.states.get? (run d 1 w) =
      some (d.states.getD (run d 1 w) ⟨none, []⟩) := by
    rw [List.getD_eq_getElem _ _ hrun, List.get?_eq_getElem?,
      List.getElem?_eq_getElem hrun]
  rw [show (match some (run d 1 w) with
    | none => none
    | some id => Option.map (fun st => st.class?.isSome) (d.states.get? id)) =
    Option.map (fun st => st.class?.isSome) (d.states.get? (run d 1 w)) from rfl,
    hget]
  rfl

theorem blockPos_none_iff (dest : Nat) : ∀ blocks : List (List Nat),
    blockPos blocks dest = none ↔ ∀ B ∈ blocks, dest ∉ B
  | [] => by simp [blockPos]
  | B :: bs => by
    simp only [blockPos]
    split
    · rename_i hc
      simp only [List.mem_cons]
      constructor
      · intro h
        cases h
      · intro h
        exact absurd ((listContains_iff B dest).mp hc) (h B (Or.inl rfl))
    · rename_i hc
      rw [Option.map_eq_none']
      rw [blockPos_none_iff dest bs]
      simp only [List.mem_cons]
      constructor
      · rintro h B' (rfl | hB')
        · exact fun hm => hc ((listContains_iff B' dest).mpr hm)
        · exact h B' hB'
      · intro h B' hB'
        exact h B' (Or.inr hB')

theorem blockPos_eq (dest : Nat) (C : List Nat) :
    ∀ blocks : List (List Nat), C ∈ blocks → dest ∈ C →
      (∀ B ∈ blocks, ∀ B' ∈ blocks, ∀ x, x ∈ B → x ∈ B' → B = B') →
      ∃ i, blockPos blocks dest = some i ∧
        ∃ h : i < blocks.length, blocks.get ⟨i, h⟩ = C
  | [], hC, _, _ => by cases hC
  | B :: bs, hC, hdest, hdisj => by
    simp only [blockPos]
    split
    · rename_i hc
      have hBC : B = C :=
        hdisj B (List.mem_cons_self _ _) C hC dest
          ((listContains_iff B dest).mp hc) hdest
      exact ⟨0, rfl, by simp, hBC⟩
    · rename_i hc
      have hCbs : C ∈ bs := by
        rcases List.mem_cons.mp hC with rfl | h'
        · exact absurd ((listContains_iff C dest).mpr hdest) hc
        · exact h'
      obtain ⟨i, hi, hlt, hget⟩ := blockPos_eq dest C bs hCbs hdest
        (fun b hb b' hb' x hx hx' =>
          hdisj b (List.mem_cons_of_mem _ hb) b' (List.mem_cons_of_mem _ hb') x hx hx')
      refine ⟨i + 1, by rw [hi]; rfl, by simp only [List.length_cons]; omega, ?_⟩
      simpa using hget

theorem blockPos_congr (d1 d2 : Nat) (C : List Nat) (blocks : List (List Nat))
    (hnd : blocks.Nodup) (hC : C ∈ blocks) (h1 : d1 ∈ C) (h2 : d2 ∈ C)
    (hdisj : ∀ B ∈ blocks, ∀ B' ∈ blocks, ∀ x, x ∈ B → x ∈ B' → B = B') :
    blockPos blocks d1 = blockPos blocks d2 := by
  obtain ⟨i1, hi1, hl1, hg1⟩ := blockPos_eq d1 C blocks hC h1 hdisj
  obtain ⟨i2, hi2, hl2, hg2⟩ := blockPos_eq d2 C blocks hC h2 hdisj
  have : (⟨i1, hl1⟩ : Fin blocks.length) = ⟨i2, hl2⟩ :=
    (List.Nodup.get_inj_iff hnd).mp (by rw [hg1, hg2])
  rw [hi1, hi2]
  simp only [Fin.mk.injEq] at this
  rw [this]

theorem minInner_get_ne (d : Dfa) (blocks : List (List Nat))
    (nx : List (Nat × Nat)) (kv : Nat × Nat) (a : Nat) (hne : kv.1 ≠ a) :
    mapGet a (minInner d blocks nx kv) = mapGet a nx := by
  simp only [minInner]
  cases hm : mapGet kv.1 nx with
  | some v => rfl
  | none =>
    cases hb : blockPos blocks kv.2 with
    | none => rfl
    | some j => exact mapGet_insert_ne kv.1 (j + 1) a (fun hc => hne hc.symm) nx

theorem minInner_preserve (d : Dfa) (blocks : List (List Nat))
    (nx : List (Nat × Nat)) (kv : Nat × Nat) (a v : Nat)
    (h : mapGet a nx = some v) :
    mapGet a (minInner d blocks nx kv) = some v := by
  by_cases hk : kv.1 = a
  · simp only [minInner, hk, h]
  · rw [minInner_get_ne d blocks nx kv a hk, h]

theorem foldl_minInner_preserve (d : Dfa) (blocks : List (List Nat)) :
    ∀ (kvs : List (Nat × Nat)) (nx : List (Nat × Nat)) (a v : Nat),
      mapGet a nx = some v →
      mapGet a (kvs.foldl (minInner d blocks) nx) = some v
  | [], _, _, _, h => h
  | kv :: rest, nx, a, v, h =>
    foldl_minInner_preserve d blocks rest _ a v
      (minInner_preserve d blocks nx kv a v h)

theorem foldl_minInner_ne (d : Dfa) (blocks : List (List Nat)) :
    ∀ (kvs : List (Nat × Nat)) (nx : List (Nat × Nat)) (a : Nat),
      (∀ kv ∈ kvs, kv.1 ≠ a) →
      mapGet a (kvs.foldl (minInner d blocks) nx) = mapGet a nx
  | [], _, _, _ => rfl
  | kv :: rest, nx, a, h => by
    rw [List.foldl_cons, foldl_minInner_ne d blocks rest _ a
      (fun k hk => h k (List.mem_cons_of_mem _ hk)),
      minInner_get_ne d blocks nx kv a (h kv (List.mem_cons_self _ _))]

theorem foldl_minInner_noneDest (d : Dfa) (blocks : List (List Nat)) :
    ∀ (kvs : List (Nat × Nat)) (nx : List (Nat × Nat)) (a : Nat),
      (∀ kv ∈ kvs, kv.1 = a → blockPos blocks kv.2 = none) →
      mapGet a (kvs.foldl (minInner d blocks) nx) = mapGet a nx
  | [], _, _, _ => rfl
  | kv :: rest, nx, a, h => by
    rw [List.foldl_cons, foldl_minInner_noneDest d blocks rest _ a
      (fun k hk hke => h k (List.mem_cons_of_mem _ hk) hke)]
    by_cases hk : kv.1 = a
    · simp only [minInner]
      cases hm : mapGet kv.1 nx with
      | some v => rfl
      | none => rw [h kv (List.mem_cons_self _ _) hk]
    · exact minInner_get_ne d blocks nx kv a hk

theorem foldl_minInner_insert (d : Dfa) (blocks : List (List Nat)) (a dest j : Nat)
    (hb : blockPos blocks dest = some j) :
    ∀ (kvs : List (Nat × Nat)) (nx : List (Nat × Nat)),
      (kvs.map Prod.fst).Nodup → (a, dest) ∈ kvs → mapGet a nx = none →
      mapGet a (kvs.foldl (minInner d blocks) nx) = some (j + 1)
  | [], _, _, hmem, _ => by cases hmem
  | kv :: rest, nx, hnd, hmem, hnx => by
    rw [List.foldl_cons]
    rcases List.mem_cons.mp hmem with heq | hmem'
    · have h1 : mapGet a (minInner d blocks nx kv) = some (j + 1) := by
        rw [← heq]
        simp only [minInner, hnx, hb]
        exact mapGet_insert_self a (j + 1) nx
      exact foldl_minInner_preserve d blocks rest _ a (j + 1) h1
    · simp only [List.map_cons, List.nodup_cons] at hnd
      have hk : kv.1 ≠ a := by
        intro hc
        exact hnd.1 (hc ▸ List.mem_map.mpr ⟨(a, dest), hmem', rfl⟩)
      rw [foldl_minInner_insert d blocks a dest j hb rest _ hnd.2 hmem'
        ((minInner_get_ne d blocks nx kv a hk).trans hnx)]

theorem foldl_minInner_origin (d : Dfa) (blocks : List (List Nat)) :
    ∀ (kvs : List (Nat × Nat)) (nx : List (Nat × Nat)) (a v : Nat),
      mapGet a (kvs.foldl (minInner d blocks) nx) = some v →
      mapGet a nx = some v ∨ ∃ kv ∈ kvs, kv.1 = a
  | [], _, _, _, h => Or.inl h
  | kv :: rest, nx, a, v, h => by
    rw [List.foldl_cons] at h
    by_cases hk : kv.1 = a
    · exact Or.inr ⟨kv, List.mem_cons_self _ _, hk⟩
    · rcases foldl_minInner_origin d blocks rest _ a v h with h' | ⟨k, hkm, hka⟩
      · rw [minInner_get_ne d blocks nx kv a hk] at h'
        exact Or.inl h'
      · exact Or.inr ⟨k, List.mem_cons_of_mem _ hkm, hka⟩

theorem foldl_minOuter_preserve (d : Dfa) (blocks : List (List Nat)) :
    ∀ (srcs : List Nat) (nx : List (Nat × Nat)) (a v : Nat),
      mapGet a nx = some v →
      mapGet a (srcs.foldl (minOuter d blocks) nx) = some v
  | [], _, _, _, h => h
  | _ :: rest, nx, a, v, h =>
    foldl_minOuter_preserve d blocks rest _ a v
      (foldl_minInner_preserve d blocks _ nx a v h)

theorem foldl_minOuter_noneDest (d : Dfa) (blocks : List (List Nat)) :
    ∀ (srcs : List Nat) (nx : List (Nat × Nat)) (a : Nat),
      (∀ s ∈ srcs, ∀ kv ∈ (d.states.getD s ⟨none, []⟩).next,
        kv.1 = a → blockPos blocks kv.2 = none) →
      mapGet a (srcs.foldl (minOuter d blocks) nx) = mapGet a nx
  | [], _, _, _ => rfl
  | s :: rest, nx, a, h => by
    rw [List.foldl_cons, foldl_minOuter_noneDest d blocks rest _ a
      (fun s' hs' => h s' (List.mem_cons_of_mem _ hs'))]
    exact foldl_minInner_noneDest d blocks _ nx a (h s (List.mem_cons_self _ _))

theorem minimizeNext_noneDest (d : Dfa) (blocks : List (List Nat))
    (B : List Nat) (a : Nat)
    (h : ∀ s ∈ B, ∀ kv ∈ (d.states.getD s ⟨none, []⟩).next,
      kv.1 = a → blockPos blocks kv.2 = none) :
    mapGet a (minimizeNext d blocks B) = none := by
  simp only [minimizeNext]
  rw [foldl_minOuter_noneDest d blocks B [] a h]
  rfl

theorem foldl_minOuter_insert (d : Dfa) (blocks : List (List Nat)) (a j : Nat) :
    ∀ (srcs : List Nat) (nx : List (Nat × Nat)),
      (∀ s ∈ srcs, (((d.states.getD s ⟨none, []⟩).next).map Prod.fst).Nodup) →
      (∀ s ∈ srcs, ∀ kv ∈ (d.states.getD s ⟨none, []⟩).next,
        kv.1 = a → blockPos blocks kv.2 = some j) →
      (∃ s ∈ srcs, ∃ kv ∈ (d.states.getD s ⟨none, []⟩).next, kv.1 = a) →
      mapGet a nx = none →
      mapGet a (srcs.foldl (minOuter d blocks) nx) = some (j + 1)
  | [], _, _, _, hex, _ => by
    obtain ⟨s, hs, _⟩ := hex
    cases hs
  | s :: rest, nx, hnd, hall, hex, hnx => by
    rw [List.foldl_cons]
    by_cases hs : ∃ kv ∈ (d.states.getD s ⟨none, []⟩).next, kv.1 = a
    · obtain ⟨kv, hkv, hka⟩ := hs
      have hmem : (a, kv.2) ∈ (d.states.getD s ⟨none, []⟩).next := by
        rw [← hka]
        exact hkv
      have hb : blockPos blocks kv.2 = some j :=
        hall s (List.mem_cons_self _ _) kv hkv hka
      have h1 : mapGet a (minOuter d blocks nx s) = some (j + 1) :=
        foldl_minInner_insert d blocks a kv.2 j hb _ nx
          (hnd s (List.mem_cons_self _ _)) hmem hnx
      exact foldl_minOuter_preserve d blocks rest _ a (j + 1) h1
    · push_neg at hs
      have h0 : mapGet a (minOuter d blocks nx s) = mapGet a nx :=
        foldl_minInner_ne d blocks _ nx a hs
      have hex' : ∃ s' ∈ rest, ∃ kv ∈ (d.states.getD s' ⟨none, []⟩).next,
          kv.1 = a := by
        obtain ⟨s', hs', kv, hkv, hka⟩ := hex
        rcases List.mem_cons.mp hs' with rfl | h'
        · exact absurd hka (hs kv hkv)
        · exact ⟨s', h', kv, hkv, hka⟩
      exact foldl_minOuter_insert d blocks a j rest _
        (fun s' h' => hnd s' (List.mem_cons_of_mem _ h'))
        (fun s' h' => hall s' (List.mem_cons_of_mem _ h'))
        hex' (h0.trans hnx)

theorem minimizeNext_insert (d : Dfa) (blocks : List (List Nat))
    (B : List Nat) (a j : Nat)
    (hnd : ∀ s ∈ B, (((d.states.getD s ⟨none, []⟩).next).map Prod.fst).Nodup)
    (hall : ∀ s ∈ B, ∀ kv ∈ (d.states.getD s ⟨none, []⟩).next,
      kv.1 = a → blockPos blocks kv.2 = some j)
    (hex : ∃ s ∈ B, ∃ kv ∈ (d.states.getD s ⟨none, []⟩).next, kv.1 = a) :
    mapGet a (minimizeNext d blocks B) = some (j + 1) :=
  foldl_minOuter_insert d blocks a j B [] hnd hall hex rfl

theorem foldl_minOuter_origin (d : Dfa) (blocks : List (List Nat)) :
    ∀ (srcs : List Nat) (nx : List (Nat × Nat)) (a v : Nat),
      mapGet a (srcs.foldl (minOuter d blocks) nx) = some v →
      mapGet a nx = some v ∨
        ∃ s ∈ srcs, ∃ kv ∈ (d.states.getD s ⟨none, []⟩).next, kv.1 = a
  | [], _, _, _, h => Or.inl h
  | s :: rest, nx, a, v, h => by
    rw [List.foldl_cons] at h
    rcases foldl_minOuter_origin d blocks rest _ a v h with h' | ⟨s', hs', hkv⟩
    · rcases foldl_minInner_origin d blocks _ nx a v h' with h'' | ⟨kv, hkv, hka⟩
      · exact Or.inl h''
      · exact Or.inr ⟨s, List.mem_cons_self _ _, kv, hkv, hka⟩
    · exact Or.inr ⟨s', List.mem_cons_of_mem _ hs', hkv⟩

theorem minimizeNext_origin (d : Dfa) (blocks : List (List Nat))
    (B : List Nat) (a v : Nat)
    (h : mapGet a (minimizeNext d blocks B) = some v) :
    ∃ s ∈ B, ∃ kv ∈ (d.states.getD s ⟨none, []⟩).next, kv.1 = a := by
  rcases foldl_minOuter_origin d blocks B [] a v h with h' | h'
  · cases h'
  · exact h'

theorem mapInsert_mem (k v : Nat) : ∀ (l : List (Nat × Nat)) (x : Nat × Nat),
    x ∈ mapInsert k v l → x = (k, v) ∨ x ∈ l
  | [], x, h => by simpa [mapInsert] using h
  | (k', v') :: rest, x, h => by
    simp only [mapInsert] at h
    split at h
    · rcases List.mem_cons.mp h with rfl | h'
      · exact Or.inl rfl
      · exact Or.inr (List.mem_cons_of_mem _ h')
    · rcases List.mem_cons.mp h with rfl | h'
      · exact Or.inr (List.mem_cons_self _ _)
      · rcases mapInsert_mem k v rest x h' with h'' | h''
        · exact Or.inl h''
        · exact Or.inr (List.mem_cons_of_mem _ h'')

theorem blockPos_lt (dest : Nat) : ∀ (blocks : List (List Nat)) (i : Nat),
    blockPos blocks dest = some i → i < blocks.length
  | [], _, h => by cases h
  | B :: bs, i, h => by
    simp only [blockPos] at h
    split at h
    · injection h with h'
      simp only [List.length_cons]
      omega
    · cases hm : blockPos bs dest with
      | none => rw [hm] at h; cases h
      | some k =>
        rw [hm] at h
        simp only [Option.map_some'] at h
        injection h with h'
        have := blockPos_lt dest bs k hm
        simp only [List.length_cons]
        omega

theorem minInner_bound (d : Dfa) (blocks : List (List Nat))
    (nx : List (Nat × Nat)) (kv : Nat × Nat)
    (h : ∀ x ∈ nx, 1 ≤ x.2 ∧ x.2 ≤ blocks.length) :
    ∀ x ∈ minInner d blocks nx kv, 1 ≤ x.2 ∧ x.2 ≤ blocks.length := by
  intro x
  simp only [minInner]
  cases hm : mapGet kv.1 nx with
  | some v => exact h x
  | none =>
    cases hb : blockPos blocks kv.2 with
    | none => exact h x
    | some i =>
      intro hx
      rcases mapInsert_mem kv.1 (i + 1) nx x hx with rfl | hx'
      · exact ⟨Nat.succ_le_succ (Nat.zero_le i), blockPos_lt kv.2 blocks i hb⟩
      · exact h x hx'

theorem foldl_minInner_bound (d : Dfa) (blocks : List (List Nat)) :
    ∀ (kvs : List (Nat × Nat)) (nx : List (Nat × Nat)),
      (∀ x ∈ nx, 1 ≤ x.2 ∧ x.2 ≤ blocks.length) →
      ∀ x ∈ kvs.foldl (minInner d blocks) nx, 1 ≤ x.2 ∧ x.2 ≤ blocks.length
  | [], _, h => h
  | kv :: rest, nx, h =>
    foldl_minInner_bound d blocks rest _ (minInner_bound d blocks nx kv h)

theorem foldl_minOuter_bound (d : Dfa) (blocks : List (List Nat)) :
    ∀ (srcs : List Nat) (nx : List (Nat × Nat)),
      (∀ x ∈ nx, 1 ≤ x.2 ∧ x.2 ≤ blocks.length) →
      ∀ x ∈ srcs.foldl (minOuter d blocks) nx, 1 ≤ x.2 ∧ x.2 ≤ blocks.length
  | [], _, h => h
  | _ :: rest, nx, h =>
    foldl_minOuter_bound d blocks rest _ (foldl_minInner_bound d blocks _ nx h)

theorem minimizeNext_bound (d : Dfa) (blocks : List (List Nat)) (B : List Nat) :
    ∀ x ∈ minimizeNext d blocks B, 1 ≤ x.2 ∧ x.2 ≤ blocks.length :=
  foldl_minOuter_bound d blocks B [] (by intro x hx; cases hx)

theorem filterMap_all_none {α : Type} (f : α → Option Nat) :
    ∀ l : List α, (∀ x ∈ l, f x = none) → l.filterMap f = []
  | [], _ => rfl
  | x :: rest, h => by
    simp only [List.filterMap_cons, h x (List.mem_cons_self _ _)]
    exact filterMap_all_none f rest (fun y hy => h y (List.mem_cons_of_mem _ hy))

theorem filterMap_const_some {α : Type} (k : Nat) (f : α → Option Nat) :
    ∀ l : List α, (∀ x ∈ l, f x = some k) → l.filterMap f = l.map fun _ => k
  | [], _ => rfl
  | x :: rest, h => by
    simp only [List.filterMap_cons, h x (List.mem_cons_self _ _), List.map_cons]
    rw [filterMap_const_some k f rest (fun y hy => h y (List.mem_cons_of_mem _ hy))]

theorem foldl_min_self (k : Nat) : ∀ l : List Nat, (∀ x ∈ l, x = k) →
    l.foldl Nat.min k = k
  | [], _ => rfl
  | x :: rest, h => by
    have hm : Nat.min k k = k := by
      simp only [Nat.min_def, if_pos (Nat.le_refl k)]
    rw [List.foldl_cons, h x (List.mem_cons_self _ _), hm]
    exact foldl_min_self k rest (fun y hy => h y (List.mem_cons_of_mem _ hy))

theorem minimizeClass_uniform (d : Dfa) (B : List Nat) (c : Option Nat)
    (hne : B ≠ [])
    (h : ∀ s ∈ B, (d.states.getD s ⟨none, []⟩).class? = c) :
    minimizeClass d B = c := by
  rcases c with _ | k
  · have hf := filterMap_all_none
      (fun id => (d.states.getD id ⟨none, []⟩).class?) B h
    simp only [minimizeClass, hf]
  · obtain ⟨b, rest, rfl⟩ := List.exists_cons_of_ne_nil hne
    have hf := filterMap_const_some k
      (fun id => (d.states.getD id ⟨none, []⟩).class?) (b :: rest) h
    simp only [minimizeClass, hf, List.map_cons]
    rw [foldl_min_self k _ (fun x hx => by
      rcases List.mem_map.mp hx with ⟨y, _, rfl⟩
      rfl)]

theorem sorted_head_le (b : Nat) (rest : List Nat)
    (hs : (b :: rest).Sorted (· < ·)) (x : Nat) (hx : x ∈ b :: rest) :
    b ≤ x := by
  rcases List.mem_cons.mp hx with rfl | h'
  · exact Nat.le_refl x
  · exact Nat.le_of_lt ((List.sorted_cons.mp hs).1 x h')

theorem sorted_min_head (m : Nat) (B : List Nat) (hs : B.Sorted (· < ·))
    (hm : m ∈ B) (hlo : ∀ x ∈ B, m ≤ x) : ∃ tail, B = m :: tail := by
  cases B with
  | nil => cases hm
  | cons b rest =>
    have hle : b ≤ m := sorted_head_le b rest hs m hm
    have hge : m ≤ b := hlo b (List.mem_cons_self _ _)
    exact ⟨rest, by rw [Nat.le_antisymm hle hge]⟩

theorem part_head_zero (n : Nat) (part : List (List Nat)) (hw : PartWF n part)
    (hn : 0 < n) : ∃ B0 rest, part = B0 :: rest ∧ 0 ∈ B0 := by
  obtain ⟨B, hB, h0B⟩ := hw.covers 0 hn
  cases part with
  | nil => cases hB
  | cons C rest =>
    refine ⟨C, rest, rfl, ?_⟩
    rcases List.mem_cons.mp hB with rfl | hBr
    · exact h0B
    · have hlt : idsLt C B = true := (List.sorted_cons.mp hw.sortedPart).1 B hBr
      obtain ⟨tail, hBt⟩ :=
        sorted_min_head 0 B (hw.sortedBlocks B hB) h0B (fun x _ => Nat.zero_le x)
      rw [hBt] at hlt
      cases C with
      | nil => exact absurd rfl (hw.nonempty [] (List.mem_cons_self _ _))
      | cons c cs =>
        simp only [idsLt] at hlt
        by_cases hc : c = 0
        · rw [hc]
          exact List.mem_cons_self _ _
        · exfalso
          rw [if_neg (Nat.not_lt_zero c), if_pos (Nat.pos_of_ne_zero hc)] at hlt
          cases hlt

theorem part_second (n : Nat) (part : List (List Nat)) (hw : PartWF n part)
    (B0 : List Nat) (rest : List (List Nat)) (hp : part = B0 :: rest)
    (h0 : 0 ∈ B0) (hn : 1 < n) (h1 : 1 ∉ B0) :
    ∃ B1 rest', rest = B1 :: rest' ∧ 1 ∈ B1 := by
  obtain ⟨B, hB, h1B⟩ := hw.covers 1 hn
  have hBmem : B ∈ rest := by
    have hB' := hB
    rw [hp] at hB'
    rcases List.mem_cons.mp hB' with heq | h'
    · exact absurd (heq ▸ h1B) h1
    · exact h'
  have h0B : 0 ∉ B := by
    intro hc
    have heq : B = B0 :=
      hw.disj B hB B0 (by rw [hp]; exact List.mem_cons_self _ _) 0 hc h0
    exact h1 (heq ▸ h1B)
  have hBlo : ∀ x ∈ B, 1 ≤ x := by
    intro x hx
    rcases Nat.eq_zero_or_pos x with h | h
    · exact absurd (h ▸ hx) h0B
    · exact h
  obtain ⟨tail, hBt⟩ := sorted_min_head 1 B (hw.sortedBlocks B hB) h1B hBlo
  cases rest with
  | nil => cases hBmem
  | cons C rest' =>
    refine ⟨C, rest', rfl, ?_⟩
    rcases List.mem_cons.mp hBmem with heq | hBr'
    · exact heq ▸ h1B
    · have hsp := hw.sortedPart
      rw [hp] at hsp
      have hlt : idsLt C B = true :=
        (List.sorted_cons.mp (List.sorted_cons.mp hsp).2).1 B hBr'
      rw [hBt] at hlt
      have hCmem : C ∈ part := by
        rw [hp]
        exact List.mem_cons_of_mem _ (List.mem_cons_self _ _)
      cases C with
      | nil => exact absurd rfl (hw.nonempty [] hCmem)
      | cons c cs =>
        simp only [idsLt] at hlt
        by_cases hc1 : c < 1
        · exfalso
          have h0C : (0 : Nat) ∈ c :: cs := by
            have hc0 : c = 0 := by omega
            rw [hc0]
            exact List.mem_cons_self _ _
          have heq : (c :: cs) = B0 := hw.disj (c :: cs) hCmem B0
            (by rw [hp]; exact List.mem_cons_self _ _) 0 h0C h0
          have hnd := sorted_part_nodup part hw.sortedPart
          rw [hp, List.nodup_cons] at hnd
          exact hnd.1 (by rw [← heq]; exact List.mem_cons_self _ _)
        · by_cases h1c : 1 < c
          · exfalso
            rw [if_neg hc1, if_pos h1c] at hlt
            cases hlt
          · have hc : c = 1 := by omega
            rw [hc]
            exact List.mem_cons_self _ _

theorem blockPos_head_none (n : Nat) (B0 : List Nat) (blocks : List (List Nat))
    (hw : PartWF n (B0 :: blocks)) (s : Nat) (hs : s ∈ B0) :
    blockPos blocks s = none := by
  rw [blockPos_none_iff]
  intro C hC hsC
  have heq : C = B0 := hw.disj C (List.mem_cons_of_mem _ hC) B0
    (List.mem_cons_self _ _) s hsC hs
  have hnd := sorted_part_nodup _ hw.sortedPart
  rw [List.nodup_cons] at hnd
  exact hnd.1 (heq ▸ hC)

theorem mapGet_of_mem_nodup : ∀ l : List (Nat × Nat), (l.map Prod.fst).Nodup →
    ∀ kv ∈ l, mapGet kv.1 l = some kv.2
  | [], _, _, h => by cases h
  | (k, v) :: rest, hnd, kv, h => by
    simp only [List.map_cons, List.nodup_cons] at hnd
    rcases List.mem_cons.mp h with rfl | h'
    · simp [mapGet]
    · simp only [mapGet]
      by_cases hk : k = kv.1
      · exact absurd (hk ▸ List.mem_map.mpr ⟨kv, h', rfl⟩) hnd.1
      · rw [if_neg hk]
        exact mapGet_of_mem_nodup rest hnd.2 kv h'

theorem effStep_not_alphabet (d : Dfa) (a : Nat) (ha : a ∉ alphabet d)
    (s : Nat) : effStep d s a = 0 := by
  simp only [effStep]
  cases hm : mapGet a (d.states.getD s ⟨none, []⟩).next with
  | none => rfl
  | some t =>
    exfalso
    rcases Nat.lt_or_ge s d.states.length with hs | hs
    · have hmem : d.states.getD s ⟨none, []⟩ ∈ d.states := by
        rw [List.getD_eq_getElem _ _ hs]
        exact List.getElem_mem _
      exact ha (alphabet_complete d _ hmem (a, t) (mapGet_mem a _ t hm))
    · rw [List.getD_eq_default _ _ hs] at hm
      cases hm

theorem sameBlock_accept (d : Dfa) (part : List (List Nat))
    (hwf : PartWF d.states.length part)
    (hcoarse : ∀ B ∈ part, ∃ C ∈ coarse_partition d, ∀ x ∈ B, x ∈ C)
    (hstab : ∀ a ∈ alphabet d, ∀ p q, SameBlock part p q →
      SameBlock part (effStep d p a) (effStep d q a))
    (h1n : 1 ≤ d.states.length) :
    ∀ (w : List Nat) (p q : Nat), SameBlock part p q →
      acceptsFrom d p w = acceptsFrom d q w
  | [], p, q, hsb => by
    obtain ⟨B, hB, hp, hq⟩ := hsb
    obtain ⟨C, hC, hsub⟩ := hcoarse B hB
    simp only [acceptsFrom, run, List.foldl_nil]
    rw [coarse_class_eq d C hC p q (hsub p hp) (hsub q hq)]
  | a :: w', p, q, hsb => by
    have hnext : SameBlock part (effStep d p a) (effStep d q a) := by
      by_cases ha : a ∈ alphabet d
      · exact hstab a ha p q hsb
      · rw [effStep_not_alphabet d a ha p, effStep_not_alphabet d a ha q]
        obtain ⟨B0, hB0, h0B0⟩ := hwf.covers 0 (by omega)
        exact ⟨B0, hB0, h0B0, h0B0⟩
    show acceptsFrom d (effStep d p a) w' = acceptsFrom d (effStep d q a) w'
    exact sameBlock_accept d part hwf hcoarse hstab h1n w' _ _ hnext

/-- The correspondence between a state of the original DFA and a state of
the minimized one: the position of its block among the non-first blocks,
shifted past the fresh sink; states of the first (sink) block map to the
fresh sink `0`. -/
def blockMap (blocks : List (List Nat)) (s : Nat) : Nat :=
  match blockPos blocks s with
  | some i => i + 1
  | none => 0

theorem md_getD_succ (d : Dfa) (blocks : List (List Nat)) (md : Dfa)
    (hmd : md.states = ⟨none, []⟩ ::
      blocks.map (fun set => ⟨minimizeClass d set, minimizeNext d blocks set⟩))
    (i : Nat) (hlt : i < blocks.length) (B : List Nat)
    (hget : blocks.get ⟨i, hlt⟩ = B) :
    md.states.getD (i + 1) ⟨none, []⟩ =
      ⟨minimizeClass d B, minimizeNext d blocks B⟩ := by
  rw [hmd, List.getD_cons_succ,
    List.getD_eq_getElem _ _ (by rw [List.length_map]; exact hlt),
    List.getElem_map]
  rw [show blocks[i] = B from hget]

theorem minimize_effStep_sim (d : Dfa) (B0 : List Nat) (blocks : List (List Nat))
    (hwf : PartWF d.states.length (B0 :: blocks))
    (hstab : ∀ a ∈ alphabet d, ∀ p q, SameBlock (B0 :: blocks) p q →
      SameBlock (B0 :: blocks) (effStep d p a) (effStep d q a))
    (h0 : 0 ∈ B0)
    (hsink : d.states.getD 0 ⟨none, []⟩ = ⟨none, []⟩)
    (h1n : 1 ≤ d.states.length)
    (hbound : ∀ st ∈ d.states, ∀ kv ∈ st.next, kv.2 < d.states.length)
    (hkeys : ∀ st ∈ d.states, (st.next.map Prod.fst).Nodup)
    (md : Dfa)
    (hmd : md.states = ⟨none, []⟩ ::
      blocks.map (fun set => ⟨minimizeClass d set, minimizeNext d blocks set⟩)) :
    ∀ s, s < d.states.length → ∀ a,
      effStep md (blockMap blocks s) a = blockMap blocks (effStep d s a) := by
  intro s hs a
  have hnd := sorted_part_nodup _ hwf.sortedPart
  have hndB : blocks.Nodup := (List.nodup_cons.mp hnd).2
  have hdisjB : ∀ B ∈ blocks, ∀ C ∈ blocks, ∀ x, x ∈ B → x ∈ C → B = C :=
    fun B hB C hC x hx hx' =>
      hwf.disj B (List.mem_cons_of_mem _ hB) C (List.mem_cons_of_mem _ hC) x hx hx'
  have hB0mem : B0 ∈ B0 :: blocks := List.mem_cons_self _ _
  have hsinkStep : ∀ b, effStep d 0 b = 0 := by
    intro b
    simp only [effStep, hsink]
    rfl
  have hmdSink : ∀ b, effStep md 0 b = 0 := by
    intro b
    simp only [effStep, hmd]
    rfl
  obtain ⟨B, hB, hsB⟩ := hwf.covers s hs
  rcases List.mem_cons.mp hB with rfl | hBblocks
  · have hpos : blockPos blocks s = none := blockPos_head_none _ B blocks hwf s hsB
    have h0map : blockMap blocks s = 0 := by simp only [blockMap, hpos]
    rw [h0map, hmdSink a]
    have htarget : effStep d s a ∈ B := by
      by_cases ha : a ∈ alphabet d
      · have hsb : SameBlock (B :: blocks) s 0 := ⟨B, hB0mem, hsB, h0⟩
        obtain ⟨D, hD, ht1, ht2⟩ := hstab a ha s 0 hsb
        rw [hsinkStep a] at ht2
        have hDeq : D = B := hwf.disj D hD B hB0mem 0 ht2 h0
        exact hDeq ▸ ht1
      · rw [effStep_not_alphabet d a ha s]
        exact h0
    have hpos' : blockPos blocks (effStep d s a) = none :=
      blockPos_head_none _ B blocks hwf _ htarget
    simp only [blockMap, hpos']
  · obtain ⟨i, hi, hlt, hget⟩ := blockPos_eq s B blocks hBblocks hsB hdisjB
    have hmap : blockMap blocks s = i + 1 := by simp only [blockMap, hi]
    rw [hmap]
    have hstate := md_getD_succ d blocks md hmd i hlt B hget
    have hLHS : effStep md (i + 1) a =
        match mapGet a (minimizeNext d blocks B) with
        | some t => t
        | none => 0 := by
      simp only [effStep, hstate]
    by_cases ha : a ∈ alphabet d
    · have ht := effStep_lt d h1n hbound s a
      obtain ⟨D, hD, htD⟩ := hwf.covers _ ht
      have hall : ∀ src ∈ B, effStep d src a ∈ D := by
        intro src hsrc
        have hsb : SameBlock (B0 :: blocks) s src :=
          ⟨B, List.mem_cons_of_mem _ hBblocks, hsB, hsrc⟩
        obtain ⟨E, hE, he1, he2⟩ := hstab a ha s src hsb
        have hEeq : E = D := hwf.disj E hE D hD _ he1 htD
        exact hEeq ▸ he2
      rcases List.mem_cons.mp hD with rfl | hDblocks
      · have hnone : mapGet a (minimizeNext d blocks B) = none := by
          apply minimizeNext_noneDest
          intro src hsrc kv hkv hka
          have hsl : src < d.states.length :=
            hwf.bounded B (List.mem_cons_of_mem _ hBblocks) src hsrc
          have hmem : d.states.getD src ⟨none, []⟩ ∈ d.states := by
            rw [List.getD_eq_getElem _ _ hsl]
            exact List.getElem_mem _
          have hget2 : mapGet kv.1 (d.states.getD src ⟨none, []⟩).next =
              some kv.2 := mapGet_of_mem_nodup _ (hkeys _ hmem) kv hkv
          have heff : effStep d src a = kv.2 := by
            simp only [effStep, ← hka, hget2]
          exact blockPos_head_none _ D blocks hwf kv.2 (heff ▸ hall src hsrc)
        rw [hLHS, hnone]
        have hpos' : blockPos blocks (effStep d s a) = none :=
          blockPos_head_none _ D blocks hwf _ htD
        simp only [blockMap, hpos']
      · obtain ⟨j, hj, hjlt, hjget⟩ :=
          blockPos_eq (effStep d s a) D blocks hDblocks htD hdisjB
        have hsome : mapGet a (minimizeNext d blocks B) = some (j + 1) := by
          apply minimizeNext_insert
          · intro src hsrc
            have hsl : src < d.states.length :=
              hwf.bounded B (List.mem_cons_of_mem _ hBblocks) src hsrc
            have hmem : d.states.getD src ⟨none, []⟩ ∈ d.states := by
              rw [List.getD_eq_getElem _ _ hsl]
              exact List.getElem_mem _
            exact hkeys _ hmem
          · intro src hsrc kv hkv hka
            have hsl : src < d.states.length :=
              hwf.bounded B (List.mem_cons_of_mem _ hBblocks) src hsrc
            have hmem : d.states.getD src ⟨none, []⟩ ∈ d.states := by
              rw [List.getD_eq_getElem _ _ hsl]
              exact List.getElem_mem _
            have hget2 : mapGet kv.1 (d.states.getD src ⟨none, []⟩).next =
                some kv.2 := mapGet_of_mem_nodup _ (hkeys _ hmem) kv hkv
            have heff : effStep d src a = kv.2 := by
              simp only [effStep, ← hka, hget2]
            have hkvD : kv.2 ∈ D := heff ▸ hall src hsrc
            rw [blockPos_congr kv.2 (effStep d s a) D blocks hndB hDblocks
              hkvD htD hdisjB]
            exact hj
          · refine ⟨s, hsB, ?_⟩
            cases hm : mapGet a (d.states.getD s ⟨none, []⟩).next with
            | some t => exact ⟨(a, t), mapGet_mem a _ t hm, rfl⟩
            | none =>
              exfalso
              have h0t : effStep d s a = 0 := by simp only [effStep, hm]
              have h0D : (0 : Nat) ∈ D := h0t ▸ htD
              have heq : D = B0 := hwf.disj D (List.mem_cons_of_mem _ hDblocks)
                B0 hB0mem 0 h0D h0
              exact (List.nodup_cons.mp hnd).1 (heq ▸ hDblocks)
        rw [hLHS, hsome]
        simp only [blockMap, hj]
    · have hRHS0 : effStep d s a = 0 := effStep_not_alphabet d a ha s
      have hnone : mapGet a (minimizeNext d blocks B) = none := by
        cases hmg : mapGet a (minimizeNext d blocks B) with
        | none => rfl
        | some v =>
          exfalso
          obtain ⟨src, hsrc, kv, hkv, hka⟩ := minimizeNext_origin d blocks B a v hmg
          rcases Nat.lt_or_ge src d.states.length with hsl | hsl
          · have hmem : d.states.getD src ⟨none, []⟩ ∈ d.states := by
              rw [List.getD_eq_getElem _ _ hsl]
              exact List.getElem_mem _
            exact ha (hka ▸ alphabet_complete d _ hmem kv hkv)
          · rw [List.getD_eq_default _ _ hsl] at hkv
            cases hkv
      rw [hLHS, hnone, hRHS0]
      have hp0 : blockPos blocks 0 = none := blockPos_head_none _ B0 blocks hwf 0 h0
      simp only [blockMap, hp0]

theorem minimize_class_sim (d : Dfa) (B0 : List Nat) (blocks : List (List Nat))
    (hwf : PartWF d.states.length (B0 :: blocks))
    (hcoarse : ∀ B ∈ B0 :: blocks, ∃ C ∈ coarse_partition d, ∀ x ∈ B, x ∈ C)
    (h0 : 0 ∈ B0)
    (hsink : d.states.getD 0 ⟨none, []⟩ = ⟨none, []⟩)
    (md : Dfa)
    (hmd : md.states = ⟨none, []⟩ ::
      blocks.map (fun set => ⟨minimizeClass d set, minimizeNext d blocks set⟩)) :
    ∀ s, s < d.states.length →
      (md.states.getD (blockMap blocks s) ⟨none, []⟩).class? =
        (d.states.getD s ⟨none, []⟩).class? := by
  intro s hs
  have hnd := sorted_part_nodup _ hwf.sortedPart
  have hdisjB : ∀ B ∈ blocks, ∀ C ∈ blocks, ∀ x, x ∈ B → x ∈ C → B = C :=
    fun B hB C hC x hx hx' =>
      hwf.disj B (List.mem_cons_of_mem _ hB) C (List.mem_cons_of_mem _ hC) x hx hx'
  obtain ⟨B, hB, hsB⟩ := hwf.covers s hs
  rcases List.mem_cons.mp hB with rfl | hBblocks
  · have hpos : blockPos blocks s = none := blockPos_head_none _ B blocks hwf s hsB
    have h0map : blockMap blocks s = 0 := by simp only [blockMap, hpos]
    rw [h0map, hmd]
    obtain ⟨C, hC, hsub⟩ := hcoarse B (List.mem_cons_self _ _)
    have hclseq := coarse_class_eq d C hC s 0 (hsub s hsB) (hsub 0 h0)
    have hsnone : (d.states.getD s ⟨none, []⟩).class? = none := by
      rw [hclseq, hsink]
    rw [hsnone]
    rfl
  · obtain ⟨i, hi, hlt, hget⟩ := blockPos_eq s B blocks hBblocks hsB hdisjB
    have hmap : blockMap blocks s = i + 1 := by simp only [blockMap, hi]
    rw [hmap, md_getD_succ d blocks md hmd i hlt B hget]
    show minimizeClass d B = (d.states.getD s ⟨none, []⟩).class?
    obtain ⟨C, hC, hsub⟩ := hcoarse B (List.mem_cons_of_mem _ hBblocks)
    exact minimizeClass_uniform d B _
      (hwf.nonempty B (List.mem_cons_of_mem _ hBblocks))
      (fun x hx => coarse_class_eq d C hC x s (hsub x hx) (hsub s hsB))

theorem minimize_run_sim (d : Dfa) (B0 : List Nat) (blocks : List (List Nat))
    (hwf : PartWF d.states.length (B0 :: blocks))
    (hstab : ∀ a ∈ alphabet d, ∀ p q, SameBlock (B0 :: blocks) p q →
      SameBlock (B0 :: blocks) (effStep d p a) (effStep d q a))
    (h0 : 0 ∈ B0)
    (hsink : d.states.getD 0 ⟨none, []⟩ = ⟨none, []⟩)
    (h1n : 1 ≤ d.states.length)
    (hbound : ∀ st ∈ d.states, ∀ kv ∈ st.next, kv.2 < d.states.length)
    (hkeys : ∀ st ∈ d.states, (st.next.map Prod.fst).Nodup)
    (md : Dfa)
    (hmd : md.states = ⟨none, []⟩ ::
      blocks.map (fun set => ⟨minimizeClass d set, minimizeNext d blocks set⟩)) :
    ∀ (w : List Nat) (s : Nat), s < d.states.length →
      run md (blockMap blocks s) w = blockMap blocks (run d s w)
  | [], _, _ => rfl
  | a :: w', s, hs => by
    show run md (effStep md (blockMap blocks s) a) w' =
      blockMap blocks (run d (effStep d s a) w')
    rw [minimize_effStep_sim d B0 blocks hwf hstab h0 hsink h1n hbound hkeys
      md hmd s hs a]
    exact minimize_run_sim d B0 blocks hwf hstab h0 hsink h1n hbound hkeys
      md hmd w' (effStep d s a) (effStep_lt d h1n hbound s a)

/-- A well-formed three-state DFA: state 0 the sink, state 1 the start
with a single transition on byte 5 into the accepting state 2. -/
def c3demo : Dfa :=
  ⟨[⟨none, []⟩, ⟨none, [(5, 2)]⟩, ⟨some 0, []⟩]⟩

/-- C3: for every well-formed DFA `d` — state `0` is the sink (no class,
no transitions), every transition target is in bounds, every state's
transition keys are distinct (the `BTreeMap` invariant), and the start
state `1` is not language-equivalent to the sink — and any fuel at least
`3 * |states|` for the fueled refinement loop, `minimize` preserves
`matches` on every input `w`, and the accept class reached by stepping
the minimized DFA from its start state over `w` equals the accept class
reached by stepping `d` from state `1` over `w`. -/
theorem claim_C3_minimize_equiv (d : Dfa) (fuel : Nat)
    (h1 : 1 < d.states.length)
    (hsink : d.states.getD 0 ⟨none, []⟩ = ⟨none, []⟩)
    (hbound : ∀ st ∈ d.states, ∀ kv ∈ st.next, kv.2 < d.states.length)
    (hkeys : ∀ st ∈ d.states, (st.next.map Prod.fst).Nodup)
    (hne : ∃ u, acceptsFrom d 0 u ≠ acceptsFrom d 1 u)
    (hfuel : 3 * d.states.length ≤ fuel) :
    ∀ w, (Dfa.minimize fuel d).matches? w = d.matches? w ∧
      ((Dfa.minimize fuel d).states.getD (run (Dfa.minimize fuel d) 1 w)
        ⟨none, []⟩).class? = (d.states.getD (run d 1 w) ⟨none, []⟩).class? := by
  obtain ⟨hwf, hcoarse, hstab⟩ :=
    equivalence_classes_spec d fuel (by omega) hbound hfuel
  obtain ⟨B0, blocks, hp, h0⟩ :=
    part_head_zero d.states.length _ hwf (by omega)
  rw [hp] at hwf hcoarse hstab
  have hmd : (Dfa.minimize fuel d).states = ⟨none, []⟩ ::
      blocks.map (fun set => ⟨minimizeClass d set, minimizeNext d blocks set⟩) := by
    simp only [Dfa.minimize]
    rw [hp]
    simp only [List.drop_succ_cons, List.drop_zero]
  have h1nB0 : 1 ∉ B0 := by
    intro hc
    obtain ⟨u, hu⟩ := hne
    exact hu (sameBlock_accept d (B0 :: blocks) hwf hcoarse hstab (by omega)
      u 0 1 ⟨B0, List.mem_cons_self _ _, h0, hc⟩)
  obtain ⟨B1, rest', hbr, h1B1⟩ :=
    part_second d.states.length (B0 :: blocks) hwf B0 blocks rfl h0 h1 h1nB0
  have hstart : blockMap blocks 1 = 1 := by
    simp only [blockMap]
    rw [hbr]
    simp only [blockPos]
    rw [if_pos ((listContains_iff B1 1).mpr h1B1)]
  have hmdlen : 1 < (Dfa.minimize fuel d).states.length := by
    rw [hmd]
    simp only [List.length_cons, List.length_map]
    rw [hbr]
    simp only [List.length_cons]
    omega
  have hmdbound : ∀ st ∈ (Dfa.minimize fuel d).states, ∀ kv ∈ st.next,
      kv.2 < (Dfa.minimize fuel d).states.length := by
    intro st hst kv hkv
    rw [hmd] at hst
    rw [hmd]
    simp only [List.length_cons, List.length_map]
    rcases List.mem_cons.mp hst with rfl | hst'
    · cases hkv
    · obtain ⟨Bx, _, rfl⟩ := List.mem_map.mp hst'
      have := (minimizeNext_bound d blocks Bx kv hkv).2
      omega
  intro w
  have hrun : run (Dfa.minimize fuel d) 1 w = blockMap blocks (run d 1 w) := by
    have hsim := minimize_run_sim d B0 blocks hwf hstab h0 hsink (by omega)
      hbound hkeys (Dfa.minimize fuel d) hmd w 1 h1
    rw [hstart] at hsim
    exact hsim
  have hrlt : run d 1 w < d.states.length :=
    run_lt d (by omega) hbound w 1 h1
  have hcls := minimize_class_sim d B0 blocks hwf hcoarse h0 hsink
    (Dfa.minimize fuel d) hmd (run d 1 w) hrlt
  constructor
  · rw [matches_eq_run (Dfa.minimize fuel d) hmdlen hmdbound w,
      matches_eq_run d h1 hbound w]
    simp only [acceptsFrom]
    rw [show run (Dfa.minimize fuel d) 1 w =
      blockMap blocks (run d 1 w) from hrun]
    exact congrArg (fun o => some o.isSome) hcls
  · rw [hrun]
    exact hcls

set_option maxRecDepth 4000 in
theorem claim_C3_minimize_equiv_witness :
    (Dfa.minimize 9 c3demo).matches? [5] = c3demo.matches? [5] ∧
      ((Dfa.minimize 9 c3demo).states.getD (run (Dfa.minimize 9 c3demo) 1 [5])
        ⟨none, []⟩).class? =
        (c3demo.states.getD (run c3demo 1 [5]) ⟨none, []⟩).class? :=
  claim_C3_minimize_equiv c3demo 9 (by decide) (by decide) (by decide)
    (by decide) ⟨[5], by decide⟩ (by decide) [5]
